/-
  Verification of the OneDest-SwitchBoard routing core
  (src/lib/router/index.ts) against its natural-language specification.

  Shallow embedding conventions:
  * JavaScript numbers are modelled as rationals (ℚ); `Infinity` is modelled
    with `WithTop ℚ` where the source manipulates it (Dijkstra distances,
    polyline projection best-distance).
  * `Math.hypot` computes a real square root, which has no exact rational
    embedding; it is abstracted as a field of `GeomOps`.  All geometric
    theorems are proved for every `GeomOps`, hence in particular for the
    true Euclidean one.  Concrete witnesses use `axisHypot`, which agrees
    with `Math.hypot` on the axis-aligned inputs they exercise.
  * TypeScript optional fields become `Option`; a JS object spread
    `{...a, ...b}` keeps `b`'s present (`some`) fields and falls back to
    `a`'s fields for keys `b` lacks (`none`).
  * Fallible code (`throw new Error`) becomes `Except String`.
-/
import Mathlib

namespace SwitchBoard

/-! ## Data model (types from src/lib/router/index.ts) -/

/-- `Vec3 = [number, number, number]`; world coordinates.  -/
structure Vec3 where
  x : ℚ
  y : ℚ
  z : ℚ
deriving DecidableEq, Repr

/-- Segment condition type: `'coppered' | 'uncoppered'`. -/
inductive SegType where
  | coppered
  | uncoppered
deriving DecidableEq, Repr

/-- `Segment` record.  `avg_speed?` is optional. -/
structure Segment where
  start_offset : ℚ
  end_offset : ℚ
  type : SegType
  avg_speed : Option ℚ
deriving DecidableEq, Repr

/-- `EdgeDef` record.  `from`/`to`/`distance` are required by the TS type;
the other fields are optional.  The UI-only `external` flag is omitted:
the routing core never reads it. -/
structure EdgeDef where
  id : Option String
  «from» : String
  «to» : String
  distance : ℚ
  routing_weight : Option ℚ
  segments : Option (List Segment)
  total_copper_coverage : Option ℚ
  geometry : Option (List Vec3)
deriving DecidableEq, Repr

/-- `NodeDef`: only the `id` field is read by the core functions. -/
structure NodeDef where
  id : String
deriving DecidableEq, Repr

/-- `Graph = { nodes, edges }`. -/
structure Graph where
  nodes : List NodeDef
  edges : List EdgeDef
deriving DecidableEq, Repr

/-- `Exit = { direction, onedest_args }`. -/
structure Exit where
  direction : String
  onedest_args : List String
deriving DecidableEq, Repr

/-- `RouterValidationResult` union type. -/
inductive RouterValidationResult where
  | safe
  | conflict (reason : String) (argA argB : String) (exitA exitB : Exit)
deriving DecidableEq, Repr

/-- `SurveySample = { coords, speed, tick? }`. -/
structure SurveySample where
  coords : Vec3
  speed : ℚ
  tick : Option ℚ
deriving DecidableEq, Repr

/-- `SurveyReport = { samples, metadata? }` (free-form metadata dropped:
never read by the core). -/
structure SurveyReport where
  samples : List SurveySample
deriving DecidableEq, Repr

/-! ## validateRouterLayout

Source (lines 207-227): two nested index loops over `exits` skipping
`i === j`, then nested loops over `exitA.onedest_args` and
`exitB.onedest_args`; the first pair with
`argB.startsWith(argA) && argA !== argB` yields `CONFLICT_DETECTED`. -/

/-- JS `b.startsWith(a)`: the characters of `a` are a literal prefix of the
characters of `b`.  (Stated on character lists because `String.startsWith`
does not reduce in the kernel.) -/
def strStartsWith (b a : String) : Bool := a.data.isPrefixOf b.data

/-- Inner two loops of `validateRouterLayout`: first argument pair of
`(exitA, exitB)` with `argB.startsWith(argA) && argA !== argB`. -/
def findConflictIn (exitA exitB : Exit) : Option (String × String) :=
  exitA.onedest_args.findSome? fun argA =>
    exitB.onedest_args.findSome? fun argB =>
      if strStartsWith argB argA ∧ argA ≠ argB then some (argA, argB) else none

/-- `validateRouterLayout(exits)`: scan ordered pairs of distinct exit
indices in ascending order, return the first conflict, else
`UNORDERED_SAFE`. -/
def validateRouterLayout (exits : List Exit) : RouterValidationResult :=
  match exits.enum.findSome? (fun pi =>
    exits.enum.findSome? (fun pj =>
      if pi.1 = pj.1 then none
      else (findConflictIn pi.2 pj.2).map fun ab => (ab.1, ab.2, pi.2, pj.2))) with
  | some (a, b, eA, eB) =>
      .conflict ("Argument " ++ a ++ " is a prefix of " ++ b ++
        " on a different exit. Ordered Physical Layout required.") a b eA eB
  | none => .safe

/-- A prefix conflict among the exits: an ordered pair of distinct exit
positions and an argument of the first that is a proper literal prefix of
an argument of the second. -/
def ConflictPair (exits : List Exit) : Prop :=
  ∃ i j eA eB argA argB, (i, eA) ∈ exits.enum ∧ (j, eB) ∈ exits.enum ∧
    i ≠ j ∧ argA ∈ eA.onedest_args ∧ argB ∈ eB.onedest_args ∧
    strStartsWith argB argA = true ∧ argA ≠ argB

theorem findConflictIn_eq_none_iff (eA eB : Exit) :
    findConflictIn eA eB = none ↔
      ∀ argA ∈ eA.onedest_args, ∀ argB ∈ eB.onedest_args,
        ¬(strStartsWith argB argA = true ∧ argA ≠ argB) := by
  unfold findConflictIn
  rw [List.findSome?_eq_none_iff]
  constructor
  · intro h argA ha argB hb hc
    have h2 := h argA ha
    rw [List.findSome?_eq_none_iff] at h2
    have h3 := h2 argB hb
    rw [if_pos hc] at h3
    exact Option.noConfusion h3
  · intro h argA ha
    rw [List.findSome?_eq_none_iff]
    intro argB hb
    rw [if_neg (h argA ha argB hb)]

theorem findConflictIn_eq_some (eA eB : Exit) (a b : String)
    (h : findConflictIn eA eB = some (a, b)) :
    a ∈ eA.onedest_args ∧ b ∈ eB.onedest_args ∧
      strStartsWith b a = true ∧ a ≠ b := by
  unfold findConflictIn at h
  rw [List.findSome?_eq_some_iff] at h
  obtain ⟨l1, argA, l2, hsplit, hf, -⟩ := h
  rw [List.findSome?_eq_some_iff] at hf
  obtain ⟨m1, argB, m2, hsplit2, hf2, -⟩ := hf
  have haA : argA ∈ eA.onedest_args := by rw [hsplit]; simp
  have hbB : argB ∈ eB.onedest_args := by rw [hsplit2]; simp
  by_cases hc : strStartsWith argB argA = true ∧ argA ≠ argB
  · rw [if_pos hc] at hf2
    obtain ⟨rfl, rfl⟩ : argA = a ∧ argB = b := by
      have := Option.some.inj hf2
      exact ⟨congrArg Prod.fst this, congrArg Prod.snd this⟩
    exact ⟨haA, hbB, hc.1, hc.2⟩
  · rw [if_neg hc] at hf2
    exact absurd hf2 (Option.noConfusion ·)

/-- C4: `validateRouterLayout(exits)` returns `UNORDERED_SAFE` iff no
ordered pair of distinct exits `(A, B)` has arguments `argA ∈ A`,
`argB ∈ B` with `argA ≠ argB` and `argB` starting with `argA`;
otherwise it returns `CONFLICT_DETECTED` with a conflict record naming
such an `argA`, `argB` and their exits. -/
theorem validateRouterLayout_spec (exits : List Exit) :
    (validateRouterLayout exits = .safe ↔ ¬ ConflictPair exits) ∧
    (∀ reason argA argB eA eB,
        validateRouterLayout exits = .conflict reason argA argB eA eB →
        ∃ i j, (i, eA) ∈ exits.enum ∧ (j, eB) ∈ exits.enum ∧ i ≠ j ∧
          argA ∈ eA.onedest_args ∧ argB ∈ eB.onedest_args ∧
          strStartsWith argB argA = true ∧ argA ≠ argB) := by
  cases hF : exits.enum.findSome? (fun pi =>
      exits.enum.findSome? (fun pj =>
        if pi.1 = pj.1 then none
        else (findConflictIn pi.2 pj.2).map fun ab => (ab.1, ab.2, pi.2, pj.2))) with
  | none =>
      have hv : validateRouterLayout exits = .safe := by
        unfold validateRouterLayout; rw [hF]
      have hncp : ¬ ConflictPair exits := by
        intro hcp
        obtain ⟨i, j, eA, eB, argA, argB, hiA, hjB, hij, ha, hb, hsw, hne⟩ := hcp
        rw [List.findSome?_eq_none_iff] at hF
        have h2 := hF (i, eA) hiA
        rw [List.findSome?_eq_none_iff] at h2
        have h3 := h2 (j, eB) hjB
        rw [if_neg hij] at h3
        have h4 : findConflictIn eA eB = none := by
          cases hfc : findConflictIn (i, eA).2 (j, eB).2 with
          | none => rfl
          | some ab => rw [hfc] at h3; exact absurd h3 (by simp)
        rw [findConflictIn_eq_none_iff] at h4
        exact h4 argA ha argB hb ⟨hsw, hne⟩
      refine ⟨⟨fun _ => hncp, fun _ => hv⟩, ?_⟩
      intro reason argA argB eA eB hcontra
      rw [hv] at hcontra
      exact absurd hcontra (by simp)
  | some r =>
      obtain ⟨a, b, eA0, eB0⟩ := r
      have hv : validateRouterLayout exits =
          .conflict ("Argument " ++ a ++ " is a prefix of " ++ b ++
            " on a different exit. Ordered Physical Layout required.") a b eA0 eB0 := by
        unfold validateRouterLayout; rw [hF]
      rw [List.findSome?_eq_some_iff] at hF
      obtain ⟨l1, pi, l2, hsplit, hf, -⟩ := hF
      rw [List.findSome?_eq_some_iff] at hf
      obtain ⟨m1, pj, m2, hsplit2, hf2, -⟩ := hf
      have hiA : pi ∈ exits.enum := by rw [hsplit]; simp
      have hjB : pj ∈ exits.enum := by rw [hsplit2]; simp
      by_cases hij : pi.1 = pj.1
      · rw [if_pos hij] at hf2
        exact absurd hf2 (by simp)
      · rw [if_neg hij] at hf2
        rw [Option.map_eq_some'] at hf2
        obtain ⟨ab, hab, habe⟩ := hf2
        have hab1 : ab.1 = a := congrArg Prod.fst habe
        have hab2 : ab.2 = b := congrArg (fun t => t.2.1) habe
        have hpi2 : pi.2 = eA0 := congrArg (fun t => t.2.2.1) habe
        have hpj2 : pj.2 = eB0 := congrArg (fun t => t.2.2.2) habe
        have hcf : findConflictIn eA0 eB0 = some (a, b) := by
          rw [← hpi2, ← hpj2, hab, ← hab1, ← hab2]
        obtain ⟨ha, hb, hsw, hne⟩ := findConflictIn_eq_some eA0 eB0 a b hcf
        have hex : ∃ i j, (i, eA0) ∈ exits.enum ∧ (j, eB0) ∈ exits.enum ∧ i ≠ j ∧
            a ∈ eA0.onedest_args ∧ b ∈ eB0.onedest_args ∧
            strStartsWith b a = true ∧ a ≠ b := by
          refine ⟨pi.1, pj.1, ?_, ?_, hij, ha, hb, hsw, hne⟩
          · rw [← hpi2]; exact hiA
          · rw [← hpj2]; exact hjB
        have hcp : ConflictPair exits := by
          obtain ⟨i, j, h1, h2, h3, h4, h5, h6, h7⟩ := hex
          exact ⟨i, j, eA0, eB0, a, b, h1, h2, h3, h4, h5, h6, h7⟩
        refine ⟨⟨?_, fun hncp => absurd hcp hncp⟩, ?_⟩
        · intro hcontra
          rw [hv] at hcontra
          exact absurd hcontra (by simp)
        · intro reason argA argB eA eB hr
          rw [hv] at hr
          have heq : a = argA ∧ b = argB ∧ eA0 = eA ∧ eB0 = eB := by
            injection hr with h1 h2 h3 h4 h5
            exact ⟨h2, h3, h4, h5⟩
          obtain ⟨rfl, rfl, rfl, rfl⟩ := heq
          exact hex

/-- The claim's concrete conflicting layout. -/
def exitsIceniaConflict : List Exit :=
  [⟨"north", ["icenia"]⟩, ⟨"east", ["icenia-city"]⟩]

/-- The claim's concrete safe layout. -/
def exitsIceniaSafe : List Exit :=
  [⟨"north", ["icenia"]⟩, ⟨"east", ["barn"]⟩]

/-- C4 witness: at the concrete layouts of the claim, the `icenia` /
`icenia-city` pair is reported as a conflict with exactly those arguments,
and the `icenia` / `barn` layout is `UNORDERED_SAFE` with no conflict
pair at all. -/
theorem validateRouterLayout_spec_witness :
    (¬ ConflictPair exitsIceniaSafe) ∧
    (∃ i j, (i, (⟨"north", ["icenia"]⟩ : Exit)) ∈ exitsIceniaConflict.enum ∧
      (j, (⟨"east", ["icenia-city"]⟩ : Exit)) ∈ exitsIceniaConflict.enum ∧ i ≠ j ∧
      "icenia" ∈ (⟨"north", ["icenia"]⟩ : Exit).onedest_args ∧
      "icenia-city" ∈ (⟨"east", ["icenia-city"]⟩ : Exit).onedest_args ∧
      strStartsWith "icenia-city" "icenia" = true ∧ "icenia" ≠ "icenia-city") := by
  constructor
  · exact (validateRouterLayout_spec exitsIceniaSafe).1.mp (by rfl)
  · exact (validateRouterLayout_spec exitsIceniaConflict).2 _ "icenia" "icenia-city" _ _ (by rfl)

/-! ## Segment merging (source lines ~349-460)

`mergeEdgeSegments(totalDistance, existing, incoming)` collects all
segment boundaries (clamped to `[0, totalDistance]`) into a JS `Set`
together with `0` and `totalDistance`, sorts them, assigns each
consecutive sub-interval the first incoming segment covering it up to a
`1e-6` tolerance (else the first such existing segment, else a default
`uncoppered` segment), coalesces adjacent same-type segments with a
length-weighted speed average, and finally forces the first start to `0`
and the last end to `totalDistance`. -/

/-- `clamp(v, a, b) = Math.max(a, Math.min(b, v))`. -/
def clamp (v a b : ℚ) : ℚ := max a (min b v)

/-- `average(arr)`: arithmetic mean, `0` for the empty array. -/
def average (arr : List ℚ) : ℚ :=
  if arr.length = 0 then 0 else arr.sum / arr.length

/-- The source's `1e-6` tolerance. -/
def mergeEps : ℚ := 1 / 1000000

/-- `approxEqual(a, b, eps = 1e-6)`. -/
def approxEqual (a b : ℚ) : Bool := |a - b| ≤ mergeEps

/-- `pushSegment(arr, seg)`: skip degenerate segments, else push a copy. -/
def pushSegment (arr : List Segment) (seg : Segment) : List Segment :=
  if seg.end_offset ≤ seg.start_offset then arr else arr ++ [seg]

/-- JS `Set.add`: keep the list unchanged if the element is present,
else append it (JS sets iterate in insertion order). -/
def insertUniq {α : Type} [DecidableEq α] (l : List α) (x : α) : List α :=
  if x ∈ l then l else l ++ [x]

/-- One `for` iteration of the boundary collection: add a segment's two
clamped boundaries to the set. -/
def addBounds (totalDistance : ℚ) (acc : List ℚ) (s : Segment) : List ℚ :=
  insertUniq (insertUniq acc (clamp s.start_offset 0 totalDistance))
    (clamp s.end_offset 0 totalDistance)

/-- The boundary set of `mergeEdgeSegments`: `0`, `totalDistance`, and
every segment boundary of both lists clamped to `[0, totalDistance]`,
deduplicated in insertion order. -/
def collectBounds (totalDistance : ℚ) (existing incoming : List Segment) : List ℚ :=
  incoming.foldl (addBounds totalDistance)
    (existing.foldl (addBounds totalDistance)
      (insertUniq (insertUniq [] 0) totalDistance))

/-- `Array.from(bounds).sort((a, b) => a - b)`. -/
def sortedBounds (totalDistance : ℚ) (existing incoming : List Segment) : List ℚ :=
  (collectBounds totalDistance existing incoming).insertionSort (· ≤ ·)

/-- Consecutive pairs `(sorted[i], sorted[i+1])` of the boundary list. -/
def consecPairs : List ℚ → List (ℚ × ℚ)
  | [] => []
  | [_] => []
  | a :: b :: rest => (a, b) :: consecPairs (b :: rest)

/-- The source's covering test
`s.start_offset <= a + 1e-6 && s.end_offset >= b - 1e-6`. -/
def coversApprox (a b : ℚ) (s : Segment) : Bool :=
  s.start_offset ≤ a + mergeEps ∧ b - mergeEps ≤ s.end_offset

/-- One interval of the merge loop: the first incoming segment covering
`[a, b]` up to the tolerance wins, else the first such existing segment,
else a default `uncoppered` segment with no speed. -/
def intervalSeg (existing incoming : List Segment) (a b : ℚ) : Segment :=
  match incoming.find? (coversApprox a b) with
  | some s => ⟨a, b, s.type, s.avg_speed⟩
  | none =>
    match existing.find? (coversApprox a b) with
    | some s => ⟨a, b, s.type, s.avg_speed⟩
    | none => ⟨a, b, .uncoppered, none⟩

/-- The `result` list of `mergeEdgeSegments`: one segment per
non-degenerate consecutive bound pair (`if (b <= a) continue`). -/
def buildResult (existing incoming : List Segment) (pairs : List (ℚ × ℚ)) : List Segment :=
  pairs.foldl (fun acc p =>
    if p.2 ≤ p.1 then acc
    else pushSegment acc (intervalSeg existing incoming p.1 p.2)) []

/-- Merging of two adjacent same-type segments: length-weighted average of
the speeds with a missing speed taken as `0` (the `?? 0` defaults); the
result is defined whenever the combined length is positive.  The source's
`isFinite(newAvg)` guard cannot fail on rationals. -/
def coalesceTwo (last seg : Segment) : Segment :=
  let lenA := last.end_offset - last.start_offset
  let lenB := seg.end_offset - seg.start_offset
  let avgA := last.avg_speed.getD 0
  let avgB := seg.avg_speed.getD 0
  let denom := lenA + lenB
  let newAvg : Option ℚ :=
    if 0 < denom then some ((avgA * lenA + avgB * lenB) / denom) else none
  ⟨last.start_offset, seg.end_offset, last.type, newAvg⟩

/-- The coalescing loop, with the trailing element of the accumulator
(the mutable `last` of the source) held out. -/
def coalesceGo (last : Segment) : List Segment → List Segment
  | [] => [last]
  | s :: rest =>
    if last.type = s.type ∧ approxEqual last.end_offset s.start_offset then
      coalesceGo (coalesceTwo last s) rest
    else
      last :: coalesceGo s rest

/-- `coalesced`: adjacent same-type segments merged. -/
def coalesceSegments : List Segment → List Segment
  | [] => []
  | s :: rest => coalesceGo s rest

/-- Rewrite the last segment's `end_offset` to `totalDistance`. -/
def setLastEnd (totalDistance : ℚ) : List Segment → List Segment
  | [] => []
  | [s] => [{ s with end_offset := totalDistance }]
  | s :: rest => s :: setLastEnd totalDistance rest

/-- Final boundary forcing of `mergeEdgeSegments`: if the list is
nonempty, force the first start to `0` (when positive) and the last end
to `totalDistance`. -/
def forceCover (totalDistance : ℚ) (l : List Segment) : List Segment :=
  match l with
  | [] => []
  | s :: rest =>
    setLastEnd totalDistance
      ((if 0 < s.start_offset then { s with start_offset := 0 } else s) :: rest)

/-- `mergeEdgeSegments(totalDistance, existing, incoming)`. -/
def mergeEdgeSegments (totalDistance : ℚ) (existing incoming : List Segment) :
    List Segment :=
  forceCover totalDistance
    (coalesceSegments
      (buildResult existing incoming
        (consecPairs (sortedBounds totalDistance existing incoming))))

/-- `computeTotalCopperCoverage(totalDistance, segments)`. -/
def computeTotalCopperCoverage (totalDistance : ℚ) (segments : List Segment) : ℚ :=
  if segments.length = 0 then 0
  else
    let copper := segments.foldl (fun acc s =>
      if s.type = .coppered then
        acc + max 0 (min totalDistance s.end_offset - max 0 s.start_offset)
      else acc) 0
    clamp (copper / max 1 totalDistance) 0 1

/-! ### Structural properties of the boundary list -/

theorem mem_insertUniq {α : Type} [DecidableEq α] (l : List α) (x y : α) :
    y ∈ insertUniq l x ↔ y ∈ l ∨ y = x := by
  unfold insertUniq
  split
  · rename_i hx
    constructor
    · exact Or.inl
    · rintro (h2 | rfl)
      · exact h2
      · exact hx
  · simp

theorem insertUniq_nodup {α : Type} [DecidableEq α] (l : List α) (x : α)
    (h : l.Nodup) : (insertUniq l x).Nodup := by
  unfold insertUniq
  split
  · exact h
  · rename_i hx
    simp [List.nodup_append, h, hx]

theorem mem_insertUniq_self {α : Type} [DecidableEq α] (l : List α) (x : α) :
    x ∈ insertUniq l x := by
  rw [mem_insertUniq]; exact Or.inr rfl

theorem mem_insertUniq_of_mem {α : Type} [DecidableEq α] (l : List α) (x y : α)
    (h : y ∈ l) : y ∈ insertUniq l x := by
  rw [mem_insertUniq]; exact Or.inl h

theorem foldl_addBounds_nodup (D : ℚ) (l : List Segment) (acc : List ℚ)
    (h : acc.Nodup) : (l.foldl (addBounds D) acc).Nodup := by
  induction l generalizing acc with
  | nil => exact h
  | cons s rest ih =>
      exact ih _ (insertUniq_nodup _ _ (insertUniq_nodup _ _ h))

theorem mem_foldl_addBounds (D : ℚ) (l : List Segment) (acc : List ℚ) (y : ℚ) :
    y ∈ l.foldl (addBounds D) acc ↔
      y ∈ acc ∨ ∃ s ∈ l, y = clamp s.start_offset 0 D ∨ y = clamp s.end_offset 0 D := by
  induction l generalizing acc with
  | nil => simp
  | cons s rest ih =>
      rw [List.foldl_cons, ih]
      unfold addBounds
      rw [mem_insertUniq, mem_insertUniq]
      constructor
      · rintro (((h | h) | h) | ⟨t, ht, h⟩)
        · exact Or.inl h
        · exact Or.inr ⟨s, List.mem_cons_self s rest, Or.inl h⟩
        · exact Or.inr ⟨s, List.mem_cons_self s rest, Or.inr h⟩
        · exact Or.inr ⟨t, List.mem_cons_of_mem s ht, h⟩
      · rintro (h | ⟨t, ht, h⟩)
        · exact Or.inl (Or.inl (Or.inl h))
        · rcases List.mem_cons.mp ht with rfl | ht2
          · rcases h with h | h
            · exact Or.inl (Or.inl (Or.inr h))
            · exact Or.inl (Or.inr h)
          · exact Or.inr ⟨t, ht2, h⟩

theorem collectBounds_nodup (D : ℚ) (ex inc : List Segment) :
    (collectBounds D ex inc).Nodup := by
  unfold collectBounds
  refine foldl_addBounds_nodup _ _ _ (foldl_addBounds_nodup _ _ _ ?_)
  exact insertUniq_nodup _ _ (insertUniq_nodup _ _ List.nodup_nil)

theorem mem_collectBounds (D : ℚ) (ex inc : List Segment) (y : ℚ) :
    y ∈ collectBounds D ex inc ↔
      y = 0 ∨ y = D ∨
      (∃ s ∈ ex, y = clamp s.start_offset 0 D ∨ y = clamp s.end_offset 0 D) ∨
      (∃ s ∈ inc, y = clamp s.start_offset 0 D ∨ y = clamp s.end_offset 0 D) := by
  unfold collectBounds
  rw [mem_foldl_addBounds, mem_foldl_addBounds, mem_insertUniq, mem_insertUniq]
  simp only [List.not_mem_nil, false_or]
  rw [or_assoc, or_assoc]

theorem zero_mem_collectBounds (D : ℚ) (ex inc : List Segment) :
    (0 : ℚ) ∈ collectBounds D ex inc := by
  rw [mem_collectBounds]; exact Or.inl rfl

theorem totalDistance_mem_collectBounds (D : ℚ) (ex inc : List Segment) :
    D ∈ collectBounds D ex inc := by
  rw [mem_collectBounds]; exact Or.inr (Or.inl rfl)

theorem clamp_nonneg (v D : ℚ) : 0 ≤ clamp v 0 D := le_max_left 0 _

theorem clamp_le (v D : ℚ) (hD : 0 ≤ D) : clamp v 0 D ≤ D :=
  max_le hD (min_le_left D v)

theorem mem_collectBounds_range (D : ℚ) (ex inc : List Segment) (hD : 0 ≤ D)
    (y : ℚ) (hy : y ∈ collectBounds D ex inc) : 0 ≤ y ∧ y ≤ D := by
  rw [mem_collectBounds] at hy
  rcases hy with rfl | rfl | ⟨s, -, h | h⟩ | ⟨s, -, h | h⟩ <;>
    first
      | exact ⟨le_refl 0, hD⟩
      | exact ⟨hD, le_refl _⟩
      | exact h ▸ ⟨clamp_nonneg _ _, clamp_le _ _ hD⟩

theorem sortedBounds_sorted (D : ℚ) (ex inc : List Segment) :
    (sortedBounds D ex inc).Sorted (· ≤ ·) :=
  List.sorted_insertionSort _ _

theorem sortedBounds_perm (D : ℚ) (ex inc : List Segment) :
    (sortedBounds D ex inc).Perm (collectBounds D ex inc) :=
  List.perm_insertionSort _ _

theorem sortedBounds_nodup (D : ℚ) (ex inc : List Segment) :
    (sortedBounds D ex inc).Nodup :=
  (sortedBounds_perm D ex inc).nodup_iff.mpr (collectBounds_nodup D ex inc)

theorem sortedBounds_sorted_lt (D : ℚ) (ex inc : List Segment) :
    (sortedBounds D ex inc).Sorted (· < ·) :=
  (sortedBounds_sorted D ex inc).lt_of_le (sortedBounds_nodup D ex inc)

theorem mem_sortedBounds (D : ℚ) (ex inc : List Segment) (y : ℚ) :
    y ∈ sortedBounds D ex inc ↔ y ∈ collectBounds D ex inc :=
  (sortedBounds_perm D ex inc).mem_iff

theorem sorted_head_of_min (l : List ℚ) (hs : l.Sorted (· ≤ ·)) (x : ℚ)
    (hx : x ∈ l) (hmin : ∀ y ∈ l, x ≤ y) : l.head? = some x := by
  cases l with
  | nil => exact absurd hx (List.not_mem_nil x)
  | cons a t =>
      have hxa : x ≤ a := hmin a (List.mem_cons_self a t)
      have hax : a ≤ x := by
        rcases List.mem_cons.mp hx with heq | hxt
        · exact le_of_eq heq.symm
        · exact (List.sorted_cons.mp hs).1 x hxt
      exact congrArg some (le_antisymm hax hxa)

theorem sorted_getLast_of_max (l : List ℚ) (hs : l.Sorted (· ≤ ·)) (x : ℚ)
    (hx : x ∈ l) (hmax : ∀ y ∈ l, y ≤ x) : l.getLast? = some x := by
  induction l with
  | nil => exact absurd hx (List.not_mem_nil x)
  | cons a t ih =>
      cases t with
      | nil =>
          rcases List.mem_cons.mp hx with heq | hxt
          · rw [heq]; rfl
          · exact absurd hxt (List.not_mem_nil x)
      | cons b u =>
          rw [List.getLast?_cons_cons]
          refine ih (List.sorted_cons.mp hs).2 ?_ ?_
          · rcases List.mem_cons.mp hx with heq | hxt
            · have hbx : b ≤ x := hmax b (List.mem_cons_of_mem a (List.mem_cons_self b u))
              have hxb : x ≤ b := heq ▸ (List.sorted_cons.mp hs).1 b (List.mem_cons_self b u)
              have hxb2 : x = b := le_antisymm hxb hbx
              rw [hxb2]
              exact List.mem_cons_self b u
            · exact hxt
          · intro y hy
            exact hmax y (List.mem_cons_of_mem a hy)

theorem sortedBounds_head (D : ℚ) (ex inc : List Segment) (hD : 0 ≤ D) :
    (sortedBounds D ex inc).head? = some 0 := by
  refine sorted_head_of_min _ (sortedBounds_sorted D ex inc) 0 ?_ ?_
  · rw [mem_sortedBounds]; exact zero_mem_collectBounds D ex inc
  · intro y hy
    exact (mem_collectBounds_range D ex inc hD y ((mem_sortedBounds D ex inc y).mp hy)).1

theorem sortedBounds_getLast (D : ℚ) (ex inc : List Segment) (hD : 0 ≤ D) :
    (sortedBounds D ex inc).getLast? = some D := by
  refine sorted_getLast_of_max _ (sortedBounds_sorted D ex inc) D ?_ ?_
  · rw [mem_sortedBounds]; exact totalDistance_mem_collectBounds D ex inc
  · intro y hy
    exact (mem_collectBounds_range D ex inc hD y ((mem_sortedBounds D ex inc y).mp hy)).2

/-! ### The pre-coalescing interval list -/

theorem consecPairs_mem (l : List ℚ) (p : ℚ × ℚ) (h : p ∈ consecPairs l) :
    p.1 ∈ l ∧ p.2 ∈ l := by
  induction l with
  | nil => exact absurd h (List.not_mem_nil p)
  | cons a t ih =>
      cases t with
      | nil => exact absurd h (List.not_mem_nil p)
      | cons b u =>
          rw [consecPairs] at h
          rcases List.mem_cons.mp h with heq | hmem
          · rw [heq]
            exact ⟨List.mem_cons_self _ _, List.mem_cons_of_mem _ (List.mem_cons_self _ _)⟩
          · have := ih hmem
            exact ⟨List.mem_cons_of_mem _ this.1, List.mem_cons_of_mem _ this.2⟩

theorem consecPairs_lt (l : List ℚ) (hs : l.Sorted (· < ·)) (p : ℚ × ℚ)
    (h : p ∈ consecPairs l) : p.1 < p.2 := by
  induction l with
  | nil => exact absurd h (List.not_mem_nil p)
  | cons a t ih =>
      cases t with
      | nil => exact absurd h (List.not_mem_nil p)
      | cons b u =>
          rw [consecPairs] at h
          rcases List.mem_cons.mp h with heq | hmem
          · rw [heq]
            exact (List.sorted_cons.mp hs).1 b (List.mem_cons_self b u)
          · exact ih (List.sorted_cons.mp hs).2 hmem

theorem consecPairs_chain (l : List ℚ) :
    List.Chain' (fun p q => p.2 = q.1) (consecPairs l) := by
  induction l with
  | nil => exact List.chain'_nil
  | cons a t ih =>
      cases t with
      | nil => exact List.chain'_nil
      | cons b u =>
          rw [consecPairs]
          cases u with
          | nil => exact List.chain'_singleton _
          | cons c v =>
              rw [consecPairs] at ih ⊢
              exact List.Chain'.cons rfl ih

theorem consecPairs_head (l : List ℚ) (h : 2 ≤ l.length) :
    (consecPairs l).head?.map (·.1) = l.head? := by
  cases l with
  | nil => simp at h
  | cons a t =>
      cases t with
      | nil => simp at h
      | cons b u => rfl

theorem consecPairs_getLast (l : List ℚ) (h : 2 ≤ l.length) :
    (consecPairs l).getLast?.map (·.2) = l.getLast? := by
  induction l with
  | nil => simp at h
  | cons a t ih =>
      cases t with
      | nil => simp at h
      | cons b u =>
          cases u with
          | nil => rfl
          | cons c v =>
              rw [consecPairs, List.getLast?_cons_cons]
              have h2 : (consecPairs (b :: c :: v)) = (b, c) :: consecPairs (c :: v) := rfl
              rw [h2] at ih ⊢
              rw [List.getLast?_cons_cons]
              exact ih (by simp)

theorem intervalSeg_start (ex inc : List Segment) (a b : ℚ) :
    (intervalSeg ex inc a b).start_offset = a := by
  unfold intervalSeg
  cases inc.find? (coversApprox a b) with
  | some s => rfl
  | none =>
      cases ex.find? (coversApprox a b) with
      | some s => rfl
      | none => rfl

theorem intervalSeg_end (ex inc : List Segment) (a b : ℚ) :
    (intervalSeg ex inc a b).end_offset = b := by
  unfold intervalSeg
  cases inc.find? (coversApprox a b) with
  | some s => rfl
  | none =>
      cases ex.find? (coversApprox a b) with
      | some s => rfl
      | none => rfl

theorem buildResult_go (ex inc : List Segment) (pairs : List (ℚ × ℚ))
    (h : ∀ p ∈ pairs, p.1 < p.2) (acc : List Segment) :
    pairs.foldl (fun acc p =>
      if p.2 ≤ p.1 then acc
      else pushSegment acc (intervalSeg ex inc p.1 p.2)) acc =
    acc ++ pairs.map (fun p => intervalSeg ex inc p.1 p.2) := by
  induction pairs generalizing acc with
  | nil => simp
  | cons p rest ih =>
      rw [List.foldl_cons]
      have hp := h p (List.mem_cons_self p rest)
      have hstep : (if p.2 ≤ p.1 then acc
          else pushSegment acc (intervalSeg ex inc p.1 p.2)) =
          acc ++ [intervalSeg ex inc p.1 p.2] := by
        rw [if_neg (not_le.mpr hp)]
        unfold pushSegment
        rw [intervalSeg_start, intervalSeg_end, if_neg (not_le.mpr hp)]
      rw [hstep, ih (fun q hq => h q (List.mem_cons_of_mem p hq))]
      simp

theorem buildResult_eq_map (ex inc : List Segment) (pairs : List (ℚ × ℚ))
    (h : ∀ p ∈ pairs, p.1 < p.2) :
    buildResult ex inc pairs = pairs.map (fun p => intervalSeg ex inc p.1 p.2) := by
  unfold buildResult
  rw [buildResult_go ex inc pairs h []]
  simp

/-! ### Pointwise semantics and invariants of segment lists -/

/-- Every segment of the list is non-degenerate. -/
def SegPos (l : List Segment) : Prop := ∀ s ∈ l, s.start_offset < s.end_offset

/-- Adjacent segments of the list abut exactly. -/
def SegChain (l : List Segment) : Prop :=
  List.Chain' (fun s1 s2 => s1.end_offset = s2.start_offset) l

/-- The first segment of `l` containing offset `x`. -/
def segAt (l : List Segment) (x : ℚ) : Option Segment :=
  l.find? (fun s => decide (s.start_offset ≤ x ∧ x < s.end_offset))

/-- The condition type recorded at offset `x`. -/
def typeAt (l : List Segment) (x : ℚ) : Option SegType := (segAt l x).map (·.type)

theorem segAt_cons (s : Segment) (l : List Segment) (x : ℚ) :
    segAt (s :: l) x =
      if s.start_offset ≤ x ∧ x < s.end_offset then some s else segAt l x := by
  unfold segAt
  by_cases h : s.start_offset ≤ x ∧ x < s.end_offset
  · rw [if_pos h]
    simp [List.find?_cons, h]
  · rw [if_neg h]
    simp [List.find?_cons, h]

theorem getLast?_cons_ne {α : Type} (a : α) (l : List α) (h : l ≠ []) :
    (a :: l).getLast? = l.getLast? := by
  cases l with
  | nil => exact absurd rfl h
  | cons b t => exact List.getLast?_cons_cons

theorem coalesceTwo_start (a b : Segment) :
    (coalesceTwo a b).start_offset = a.start_offset := rfl

theorem coalesceTwo_end (a b : Segment) :
    (coalesceTwo a b).end_offset = b.end_offset := rfl

theorem coalesceTwo_type (a b : Segment) : (coalesceTwo a b).type = a.type := rfl

/-- Structure of the coalescing loop on an exactly-abutting list of
non-degenerate segments: the output is again abutting and non-degenerate,
no two adjacent output segments share a type, the first output start and
its type and the last output end are preserved, and the type recorded at
any offset is unchanged. -/
theorem coalesceGo_spec (l : List Segment) : ∀ last : Segment,
    SegPos (last :: l) → SegChain (last :: l) →
    SegPos (coalesceGo last l) ∧
    SegChain (coalesceGo last l) ∧
    List.Chain' (fun s1 s2 => s1.type ≠ s2.type) (coalesceGo last l) ∧
    (coalesceGo last l).head?.map (fun s => (s.start_offset, s.type))
      = some (last.start_offset, last.type) ∧
    (coalesceGo last l).getLast?.map (·.end_offset)
      = ((last :: l).getLast?.map (·.end_offset)) ∧
    (∀ x, typeAt (coalesceGo last l) x = typeAt (last :: l) x) := by
  induction l with
  | nil =>
      intro last hp hc
      rw [coalesceGo]
      exact ⟨hp, List.chain'_singleton _, List.chain'_singleton _, rfl, rfl, fun x => rfl⟩
  | cons s rest ih =>
      intro last hp hc
      have hadj : last.end_offset = s.start_offset := (List.chain'_cons.mp hc).1
      have hc' : SegChain (s :: rest) := (List.chain'_cons.mp hc).2
      have hlast : last.start_offset < last.end_offset :=
        hp last (List.mem_cons_self _ _)
      have hs : s.start_offset < s.end_offset :=
        hp s (List.mem_cons_of_mem _ (List.mem_cons_self _ _))
      have hp' : SegPos (s :: rest) := fun t ht => hp t (List.mem_cons_of_mem _ ht)
      have happrox : approxEqual last.end_offset s.start_offset = true := by
        have h1 : |last.end_offset - s.start_offset| ≤ mergeEps := by
          rw [hadj, sub_self, abs_zero]
          unfold mergeEps
          positivity
        exact decide_eq_true h1
      by_cases hty : last.type = s.type
      · rw [coalesceGo, if_pos ⟨hty, happrox⟩]
        have hms : (coalesceTwo last s).start_offset = last.start_offset := rfl
        have hme : (coalesceTwo last s).end_offset = s.end_offset := rfl
        have hmt : (coalesceTwo last s).type = last.type := rfl
        have hpm : SegPos (coalesceTwo last s :: rest) := by
          intro t ht
          rcases List.mem_cons.mp ht with heq | htr
          · rw [heq, hms, hme]
            calc last.start_offset < last.end_offset := hlast
              _ = s.start_offset := hadj
              _ < s.end_offset := hs
          · exact hp' t (List.mem_cons_of_mem _ htr)
        have hcm : SegChain (coalesceTwo last s :: rest) := by
          rw [SegChain, List.chain'_cons']
          refine ⟨?_, (List.chain'_cons'.mp hc').2⟩
          intro y hy
          rw [hme]
          exact (List.chain'_cons'.mp hc').1 y hy
        obtain ⟨A, B, C, H, L, T⟩ := ih (coalesceTwo last s) hpm hcm
        refine ⟨A, B, C, ?_, ?_, ?_⟩
        · rw [H, hms, hmt]
        · rw [L]
          cases rest with
          | nil => rw [List.getLast?_cons_cons]; rfl
          | cons r u =>
              rw [List.getLast?_cons_cons, List.getLast?_cons_cons,
                List.getLast?_cons_cons]
        · intro x
          rw [T x]
          unfold typeAt
          rw [segAt_cons, segAt_cons, segAt_cons]
          by_cases h1 : last.start_offset ≤ x ∧ x < last.end_offset
          · have hcm2 : (coalesceTwo last s).start_offset ≤ x ∧
                x < (coalesceTwo last s).end_offset := by
              rw [hms, hme]
              refine ⟨h1.1, ?_⟩
              calc x < last.end_offset := h1.2
                _ = s.start_offset := hadj
                _ < s.end_offset := hs
            rw [if_pos hcm2, if_pos h1]
            simp only [Option.map_some']
            rw [hmt]
          · by_cases h2 : s.start_offset ≤ x ∧ x < s.end_offset
            · have hcm2 : (coalesceTwo last s).start_offset ≤ x ∧
                  x < (coalesceTwo last s).end_offset := by
                rw [hms, hme]
                refine ⟨?_, h2.2⟩
                calc last.start_offset ≤ last.end_offset := le_of_lt hlast
                  _ = s.start_offset := hadj
                  _ ≤ x := h2.1
              rw [if_pos hcm2, if_neg h1, if_pos h2]
              simp only [Option.map_some']
              rw [hmt, hty]
            · have hcm2 : ¬((coalesceTwo last s).start_offset ≤ x ∧
                  x < (coalesceTwo last s).end_offset) := by
                rintro ⟨ha, hb⟩
                rw [hms] at ha
                rw [hme] at hb
                rcases lt_or_le x last.end_offset with hlt | hge
                · exact h1 ⟨ha, hlt⟩
                · rw [hadj] at hge
                  exact h2 ⟨hge, hb⟩
              rw [if_neg hcm2, if_neg h1, if_neg h2]
      · have hcond : ¬(last.type = s.type ∧
            approxEqual last.end_offset s.start_offset = true) := fun h => hty h.1
        rw [coalesceGo, if_neg hcond]
        obtain ⟨A, B, C, H, L, T⟩ := ih s hp' hc'
        rcases Option.map_eq_some'.mp H with ⟨h0, hh0, hpair⟩
        have hh0st : h0.start_offset = s.start_offset := congrArg Prod.fst hpair
        have hh0ty : h0.type = s.type := congrArg Prod.snd hpair
        have houtne : coalesceGo s rest ≠ [] := by
          intro hcontra
          rw [hcontra] at hh0
          exact Option.noConfusion hh0
        refine ⟨?_, ?_, ?_, ?_, ?_, ?_⟩
        · intro t ht
          rcases List.mem_cons.mp ht with heq | htr
          · rw [heq]; exact hlast
          · exact A t htr
        · rw [SegChain, List.chain'_cons']
          refine ⟨?_, B⟩
          intro y hy
          rw [hh0] at hy
          have hy2 : h0 = y := Option.mem_some_iff.mp hy
          rw [← hy2, hh0st]
          exact hadj
        · rw [List.chain'_cons']
          refine ⟨?_, C⟩
          intro y hy
          rw [hh0] at hy
          have hy2 : h0 = y := Option.mem_some_iff.mp hy
          rw [← hy2, hh0ty]
          exact hty
        · rfl
        · rw [getLast?_cons_ne _ _ houtne, L, List.getLast?_cons_cons]
        · intro x
          unfold typeAt
          rw [segAt_cons last (coalesceGo s rest) x, segAt_cons last (s :: rest) x]
          by_cases h1 : last.start_offset ≤ x ∧ x < last.end_offset
          · rw [if_pos h1, if_pos h1]
          · rw [if_neg h1, if_neg h1]
            have := T x
            unfold typeAt at this
            exact this

/-! ### The merge produces a well-formed segment list -/

theorem setLastEnd_eq_self (D : ℚ) (l : List Segment)
    (h : l.getLast?.map (·.end_offset) = some D) : setLastEnd D l = l := by
  induction l with
  | nil => rfl
  | cons a t ih =>
      cases t with
      | nil =>
          have hend : a.end_offset = D := by
            simp only [List.getLast?_singleton, Option.map_some'] at h
            exact Option.some.inj h
          show [{ a with end_offset := D }] = [a]
          rw [← hend]
      | cons b u =>
          rw [List.getLast?_cons_cons] at h
          have h2 := ih h
          show a :: setLastEnd D (b :: u) = a :: b :: u
          rw [h2]

theorem forceCover_eq_self (D : ℚ) (l : List Segment)
    (h0 : l.head?.map (·.start_offset) = some 0)
    (hD : l.getLast?.map (·.end_offset) = some D) :
    forceCover D l = l := by
  cases l with
  | nil => rfl
  | cons s rest =>
      have hst : s.start_offset = 0 := by
        simp only [List.head?_cons, Option.map_some'] at h0
        exact Option.some.inj h0
      show setLastEnd D
          ((if 0 < s.start_offset then { s with start_offset := 0 } else s) :: rest) =
          s :: rest
      rw [if_neg (by rw [hst]; exact lt_irrefl 0)]
      exact setLastEnd_eq_self D _ hD

theorem two_le_length_of_mem_ne {α : Type} (l : List α) (x y : α)
    (hx : x ∈ l) (hy : y ∈ l) (hne : x ≠ y) : 2 ≤ l.length := by
  cases l with
  | nil => exact absurd hx (List.not_mem_nil x)
  | cons a t =>
      cases t with
      | nil =>
          have h1 : x = a := by
            rcases List.mem_cons.mp hx with h | h
            · exact h
            · exact absurd h (List.not_mem_nil x)
          have h2 : y = a := by
            rcases List.mem_cons.mp hy with h | h
            · exact h
            · exact absurd h (List.not_mem_nil y)
          exact absurd (h1.trans h2.symm) hne
      | cons b u => simp

theorem sortedBounds_two_le (D : ℚ) (ex inc : List Segment) (hD : 0 < D) :
    2 ≤ (sortedBounds D ex inc).length := by
  refine two_le_length_of_mem_ne _ 0 D ?_ ?_ (ne_of_lt hD)
  · rw [mem_sortedBounds]; exact zero_mem_collectBounds D ex inc
  · rw [mem_sortedBounds]; exact totalDistance_mem_collectBounds D ex inc

/-- Master structural theorem about `mergeEdgeSegments`: with at least two
boundary values, the final boundary forcing is a no-op, the output is an
abutting list of non-degenerate segments with no two adjacent types equal,
it starts at `0` and ends at `totalDistance`, and the type it records at
any offset agrees with the pre-coalescing interval list. -/
theorem merged_spec (D : ℚ) (ex inc : List Segment) (hD : 0 ≤ D)
    (hlen : 2 ≤ (sortedBounds D ex inc).length) :
    SegPos (mergeEdgeSegments D ex inc) ∧
    SegChain (mergeEdgeSegments D ex inc) ∧
    List.Chain' (fun s1 s2 => s1.type ≠ s2.type) (mergeEdgeSegments D ex inc) ∧
    (mergeEdgeSegments D ex inc).head?.map (·.start_offset) = some 0 ∧
    (mergeEdgeSegments D ex inc).getLast?.map (·.end_offset) = some D ∧
    (∀ x, typeAt (mergeEdgeSegments D ex inc) x =
      typeAt (buildResult ex inc (consecPairs (sortedBounds D ex inc))) x) := by
  have hsortle := sortedBounds_sorted D ex inc
  have hsortlt := sortedBounds_sorted_lt D ex inc
  have hhead := sortedBounds_head D ex inc hD
  have hlast := sortedBounds_getLast D ex inc hD
  have hplt : ∀ p ∈ consecPairs (sortedBounds D ex inc), p.1 < p.2 :=
    fun p hp => consecPairs_lt _ hsortlt p hp
  have hRmap := buildResult_eq_map ex inc (consecPairs (sortedBounds D ex inc)) hplt
  -- destructure the bounds list (it has at least two elements)
  rcases hl : sortedBounds D ex inc with - | ⟨a, t⟩
  · rw [hl] at hlen; simp at hlen
  rcases ht : t with - | ⟨b, u⟩
  · rw [hl, ht] at hlen; simp at hlen
  rw [ht] at hl
  -- the pre-coalescing list
  have hpairs : consecPairs (sortedBounds D ex inc) =
      (a, b) :: consecPairs (b :: u) := by rw [hl]; rfl
  have hRcons : buildResult ex inc (consecPairs (sortedBounds D ex inc)) =
      intervalSeg ex inc a b ::
        (consecPairs (b :: u)).map (fun p => intervalSeg ex inc p.1 p.2) := by
    rw [hRmap, hpairs, List.map_cons]
  have hRpos : SegPos (buildResult ex inc (consecPairs (sortedBounds D ex inc))) := by
    rw [hRmap]
    intro sg hsg
    rcases List.mem_map.mp hsg with ⟨p, hp, hpe⟩
    rw [← hpe, intervalSeg_start, intervalSeg_end]
    exact hplt p hp
  have hRchain : SegChain (buildResult ex inc (consecPairs (sortedBounds D ex inc))) := by
    rw [hRmap, SegChain, List.chain'_map]
    refine (consecPairs_chain (sortedBounds D ex inc)).imp ?_
    intro p q hpq
    rw [intervalSeg_end, intervalSeg_start]
    exact hpq
  have hRhead : (buildResult ex inc (consecPairs (sortedBounds D ex inc))).head?.map
      (·.start_offset) = some 0 := by
    rw [hRcons]
    simp only [List.head?_cons, Option.map_some']
    rw [intervalSeg_start]
    have h3 : (sortedBounds D ex inc).head? = some a := by rw [hl]; rfl
    rw [hhead] at h3
    exact congrArg some (Option.some.inj h3).symm
  have hRlast : (buildResult ex inc (consecPairs (sortedBounds D ex inc))).getLast?.map
      (·.end_offset) = some D := by
    have hlen2 : 2 ≤ (sortedBounds D ex inc).length := by rw [hl]; simp
    have h2 : ((consecPairs (sortedBounds D ex inc)).getLast?.map (·.2)) = some D := by
      rw [consecPairs_getLast _ hlen2]
      exact hlast
    rw [hRmap, List.getLast?_map]
    cases hp2 : (consecPairs (sortedBounds D ex inc)).getLast? with
    | none => rw [hp2] at h2; exact absurd h2 (by simp)
    | some p =>
        rw [hp2] at h2
        simp only [Option.map_some'] at h2 ⊢
        rw [intervalSeg_end]
        exact h2
  -- apply the coalescing spec
  rw [hRcons] at hRpos hRchain
  obtain ⟨A, B, C, H, L, T⟩ :=
    coalesceGo_spec _ (intervalSeg ex inc a b) hRpos hRchain
  have hco : coalesceSegments
      (buildResult ex inc (consecPairs (sortedBounds D ex inc))) =
      coalesceGo (intervalSeg ex inc a b)
        ((consecPairs (b :: u)).map (fun p => intervalSeg ex inc p.1 p.2)) := by
    rw [hRcons]; rfl
  have hcoHead : (coalesceSegments
      (buildResult ex inc (consecPairs (sortedBounds D ex inc)))).head?.map
      (·.start_offset) = some 0 := by
    rw [hco]
    rcases Option.map_eq_some'.mp H with ⟨h0, hh0, hpair⟩
    rw [hh0, Option.map_some']
    have hh0st : h0.start_offset = (intervalSeg ex inc a b).start_offset :=
      congrArg Prod.fst hpair
    rw [hh0st, intervalSeg_start]
    have h3 : (sortedBounds D ex inc).head? = some a := by rw [hl]; rfl
    rw [hhead] at h3
    exact congrArg some (Option.some.inj h3).symm
  have hcoLast : (coalesceSegments
      (buildResult ex inc (consecPairs (sortedBounds D ex inc)))).getLast?.map
      (·.end_offset) = some D := by
    rw [hco, L, ← hRcons]
    exact hRlast
  have hforce : mergeEdgeSegments D ex inc = coalesceSegments
      (buildResult ex inc (consecPairs (sortedBounds D ex inc))) := by
    unfold mergeEdgeSegments
    exact forceCover_eq_self D _ hcoHead hcoLast
  rw [hforce, hco]
  refine ⟨A, B, C, ?_, ?_, ?_⟩
  · rw [← hco]; exact hcoHead
  · rw [← hco]; exact hcoLast
  · intro x
    rw [T x, ← hRcons, hl]

/-- The well-formedness invariant claimed for a reconciled edge's segment
list: nonempty, first start `0`, last end `D`, ordered and
non-overlapping, non-degenerate, no two adjacent segments of equal type. -/
def SegListWellFormed (D : ℚ) (l : List Segment) : Prop :=
  (∃ h, l.head? = some h ∧ h.start_offset = 0) ∧
  (∃ t, l.getLast? = some t ∧ t.end_offset = D) ∧
  List.Chain' (fun s1 s2 => s1.end_offset ≤ s2.start_offset) l ∧
  SegPos l ∧
  List.Chain' (fun s1 s2 => s1.type ≠ s2.type) l

/-- C3 (merge level): for positive `totalDistance` the merged segment list
is well formed, whatever the existing and incoming segments are. -/
theorem mergeEdgeSegments_wellFormed (D : ℚ) (ex inc : List Segment) (hD : 0 < D) :
    SegListWellFormed D (mergeEdgeSegments D ex inc) := by
  obtain ⟨A, B, C, Hd, Lt, -⟩ :=
    merged_spec D ex inc (le_of_lt hD) (sortedBounds_two_le D ex inc hD)
  refine ⟨?_, ?_, ?_, A, C⟩
  · rcases Option.map_eq_some'.mp Hd with ⟨h, hh, hstart⟩
    exact ⟨h, hh, hstart⟩
  · rcases Option.map_eq_some'.mp Lt with ⟨t, ht, hend⟩
    exact ⟨t, ht, hend⟩
  · exact B.imp (fun h1 h2 he => le_of_eq he)

theorem segAt_map_consec (ex inc : List Segment) (l : List ℚ)
    (hs : l.Sorted (· < ·)) (a b x : ℚ) (hab : (a, b) ∈ consecPairs l)
    (hax : a ≤ x) (hxb : x < b) :
    segAt ((consecPairs l).map (fun p => intervalSeg ex inc p.1 p.2)) x
      = some (intervalSeg ex inc a b) := by
  induction l with
  | nil => exact absurd hab (List.not_mem_nil _)
  | cons c t ih =>
      cases t with
      | nil => exact absurd hab (List.not_mem_nil _)
      | cons d u =>
          rw [consecPairs] at hab ⊢
          rw [List.map_cons, segAt_cons]
          rcases List.mem_cons.mp hab with heq | hmem
          · cases heq
            have hcov : (intervalSeg ex inc a b).start_offset ≤ x ∧
                x < (intervalSeg ex inc a b).end_offset := by
              rw [intervalSeg_start, intervalSeg_end]
              exact ⟨hax, hxb⟩
            rw [if_pos hcov]
          · have hs2 : (d :: u).Sorted (· < ·) := (List.sorted_cons.mp hs).2
            have hda : d ≤ a := by
              have hmema : a ∈ d :: u := (consecPairs_mem _ _ hmem).1
              rcases List.mem_cons.mp hmema with heqa | hma
              · exact le_of_eq heqa.symm
              · exact le_of_lt ((List.sorted_cons.mp hs2).1 a hma)
            have hnc : ¬((intervalSeg ex inc c d).start_offset ≤ x ∧
                x < (intervalSeg ex inc c d).end_offset) := by
              rw [intervalSeg_start, intervalSeg_end]
              rintro ⟨-, hxd⟩
              exact absurd (lt_of_lt_of_le hxd (le_trans hda hax)) (lt_irrefl x)
            rw [if_neg hnc]
            exact ih hs2 hmem

theorem coversApprox_iff (a b : ℚ) (s : Segment) :
    coversApprox a b s = true ↔
      (s.start_offset ≤ a + mergeEps ∧ b - mergeEps ≤ s.end_offset) := by
  unfold coversApprox
  exact decide_eq_true_iff

/-- C2 (amended, merge level): over every sub-interval `[a, b)` between
consecutive boundary offsets, the type the merged output records at any
point of the sub-interval is exactly the type chosen by the source's
find-first rule with its `1e-6` tolerance: the first incoming segment
covering `[a, b]` up to the tolerance, else the first such existing
segment, else `uncoppered`.  In particular, whenever some incoming segment
fully covers `[a, b]`, the chosen type and speed come from an incoming
segment (never from an existing one), and when neither list covers it the
interval is `uncoppered` with no speed. -/
theorem mergeEdgeSegments_subinterval (D : ℚ) (ex inc : List Segment) (hD : 0 ≤ D)
    (a b : ℚ) (hab : (a, b) ∈ consecPairs (sortedBounds D ex inc))
    (x : ℚ) (hax : a ≤ x) (hxb : x < b) :
    typeAt (mergeEdgeSegments D ex inc) x = some (intervalSeg ex inc a b).type ∧
    ((∃ s ∈ inc, s.start_offset ≤ a ∧ b ≤ s.end_offset) →
      ∃ s ∈ inc, coversApprox a b s = true ∧ (intervalSeg ex inc a b).type = s.type ∧
        (intervalSeg ex inc a b).avg_speed = s.avg_speed) ∧
    ((¬ ∃ s ∈ inc, coversApprox a b s = true) →
      (¬ ∃ s ∈ ex, coversApprox a b s = true) →
      (intervalSeg ex inc a b).type = .uncoppered ∧
        (intervalSeg ex inc a b).avg_speed = none) := by
  have hlen : 2 ≤ (sortedBounds D ex inc).length := by
    cases hl : sortedBounds D ex inc with
    | nil => rw [hl] at hab; exact absurd hab (List.not_mem_nil _)
    | cons c t =>
        cases t with
        | nil =>
            rw [hl] at hab
            exact absurd hab (List.not_mem_nil _)
        | cons d u => simp
  obtain ⟨-, -, -, -, -, T⟩ := merged_spec D ex inc hD hlen
  refine ⟨?_, ?_, ?_⟩
  · rw [T x]
    have hR := buildResult_eq_map ex inc _
      (fun p hp => consecPairs_lt _ (sortedBounds_sorted_lt D ex inc) p hp)
    rw [hR]
    unfold typeAt
    rw [segAt_map_consec ex inc _ (sortedBounds_sorted_lt D ex inc) a b x hab hax hxb]
    rfl
  · rintro ⟨s, hsmem, hcov1, hcov2⟩
    have heps : (0 : ℚ) ≤ mergeEps := by unfold mergeEps; positivity
    have hca : coversApprox a b s = true := by
      rw [coversApprox_iff]
      constructor
      · linarith
      · linarith
    cases hfind : inc.find? (coversApprox a b) with
    | none =>
        rw [List.find?_eq_none] at hfind
        exact absurd hca (hfind s hsmem)
    | some s2 =>
        refine ⟨s2, List.mem_of_find?_eq_some hfind, List.find?_some hfind, ?_, ?_⟩
        · unfold intervalSeg
          rw [hfind]
        · unfold intervalSeg
          rw [hfind]
  · intro hni hne
    have h1 : inc.find? (coversApprox a b) = none := by
      rw [List.find?_eq_none]
      intro s hsmem hcs
      exact hni ⟨s, hsmem, hcs⟩
    have h2 : ex.find? (coversApprox a b) = none := by
      rw [List.find?_eq_none]
      intro s hsmem hcs
      exact hne ⟨s, hsmem, hcs⟩
    constructor
    · unfold intervalSeg
      rw [h1, h2]
    · unfold intervalSeg
      rw [h1, h2]

/-! ### Copper coverage -/

/-- The total length of the coppered segments. -/
def copperLen (l : List Segment) : ℚ :=
  ((l.filter (fun s => s.type = SegType.coppered)).map
    (fun s => s.end_offset - s.start_offset)).sum

theorem computeTotalCopperCoverage_go (D : ℚ) (l : List Segment)
    (hrange : ∀ s ∈ l,
      0 ≤ s.start_offset ∧ s.start_offset ≤ s.end_offset ∧ s.end_offset ≤ D) :
    ∀ acc : ℚ, l.foldl (fun acc s =>
      if s.type = SegType.coppered then
        acc + max 0 (min D s.end_offset - max 0 s.start_offset)
      else acc) acc = acc + copperLen l := by
  induction l with
  | nil => intro acc; simp [copperLen]
  | cons s rest ih =>
      intro acc
      have hs := hrange s (List.mem_cons_self _ _)
      have hrest : ∀ t ∈ rest,
          0 ≤ t.start_offset ∧ t.start_offset ≤ t.end_offset ∧ t.end_offset ≤ D :=
        fun t ht => hrange t (List.mem_cons_of_mem _ ht)
      rw [List.foldl_cons]
      by_cases hty : s.type = SegType.coppered
      · rw [if_pos hty]
        have hterm : max 0 (min D s.end_offset - max 0 s.start_offset) =
            s.end_offset - s.start_offset := by
          rw [min_eq_right hs.2.2, max_eq_right hs.1,
            max_eq_right (by linarith [hs.2.1])]
        rw [hterm, ih hrest]
        have hcop : copperLen (s :: rest) =
            (s.end_offset - s.start_offset) + copperLen rest := by
          unfold copperLen
          rw [List.filter_cons_of_pos (by simp [hty]), List.map_cons, List.sum_cons]
        rw [hcop]
        ring
      · rw [if_neg hty]
        rw [ih hrest]
        have hcop : copperLen (s :: rest) = copperLen rest := by
          unfold copperLen
          rw [List.filter_cons_of_neg (by simp [hty])]
        rw [hcop]

/-- `computeTotalCopperCoverage` on an in-range segment list is the
clamped ratio of the coppered length to `max(1, totalDistance)`. -/
theorem computeTotalCopperCoverage_eq (D : ℚ) (l : List Segment)
    (hrange : ∀ s ∈ l,
      0 ≤ s.start_offset ∧ s.start_offset ≤ s.end_offset ∧ s.end_offset ≤ D) :
    computeTotalCopperCoverage D l = clamp (copperLen l / max 1 D) 0 1 := by
  unfold computeTotalCopperCoverage
  by_cases hnil : l.length = 0
  · rw [if_pos hnil]
    have : l = [] := List.length_eq_zero.mp hnil
    rw [this]
    unfold copperLen clamp
    norm_num
  · rw [if_neg hnil]
    rw [computeTotalCopperCoverage_go D l hrange 0, zero_add]

theorem computeTotalCopperCoverage_mem (D : ℚ) (l : List Segment) :
    0 ≤ computeTotalCopperCoverage D l ∧ computeTotalCopperCoverage D l ≤ 1 := by
  unfold computeTotalCopperCoverage
  split
  · norm_num
  · unfold clamp
    constructor
    · exact le_max_left 0 _
    · exact max_le (by norm_num) (min_le_left 1 _)

/-! ### Segments of the merged list stay inside `[0, totalDistance]` -/

theorem chain_ge_head_start (l : List Segment) (hch : SegChain l) (hpos : SegPos l) :
    ∀ h0, l.head? = some h0 → ∀ s ∈ l, h0.start_offset ≤ s.start_offset := by
  induction l with
  | nil =>
      intro h0 hh0
      exact absurd hh0 (by simp)
  | cons a rest ih =>
      intro h0 hh0 s hs
      have ha : a = h0 := Option.some.inj hh0
      rcases List.mem_cons.mp hs with heq | hsr
      · rw [heq, ← ha]
      · cases rest with
        | nil => exact absurd hsr (List.not_mem_nil s)
        | cons r u =>
            have har : a.end_offset = r.start_offset := (List.chain'_cons.mp hch).1
            have h2 := ih (List.chain'_cons.mp hch).2
              (fun t ht => hpos t (List.mem_cons_of_mem _ ht)) r rfl s hsr
            have h3 : a.start_offset < a.end_offset := hpos a (List.mem_cons_self _ _)
            rw [← ha]
            calc a.start_offset ≤ a.end_offset := le_of_lt h3
              _ = r.start_offset := har
              _ ≤ s.start_offset := h2

theorem chain_le_last_end (l : List Segment) (hch : SegChain l) (hpos : SegPos l) :
    ∀ t0, l.getLast? = some t0 → ∀ s ∈ l, s.end_offset ≤ t0.end_offset := by
  induction l with
  | nil =>
      intro t0 ht0
      exact absurd ht0 (by simp)
  | cons a rest ih =>
      intro t0 ht0 s hs
      cases rest with
      | nil =>
          have ha : a = t0 := by
            simp only [List.getLast?_singleton] at ht0
            exact Option.some.inj ht0
          rcases List.mem_cons.mp hs with heq | hsr
          · rw [heq, ha]
          · exact absurd hsr (List.not_mem_nil s)
      | cons r u =>
          rw [List.getLast?_cons_cons] at ht0
          have hch2 := (List.chain'_cons.mp hch).2
          have hpos2 : SegPos (r :: u) := fun t ht => hpos t (List.mem_cons_of_mem _ ht)
          rcases List.mem_cons.mp hs with heq | hsr
          · have har : a.end_offset = r.start_offset := (List.chain'_cons.mp hch).1
            have hrr : r.end_offset ≤ t0.end_offset :=
              ih hch2 hpos2 t0 ht0 r (List.mem_cons_self _ _)
            have h3 : r.start_offset < r.end_offset := hpos2 r (List.mem_cons_self _ _)
            rw [heq]
            calc a.end_offset = r.start_offset := har
              _ ≤ r.end_offset := le_of_lt h3
              _ ≤ t0.end_offset := hrr
          · exact ih hch2 hpos2 t0 ht0 s hsr

theorem merged_range (D : ℚ) (ex inc : List Segment) (hD : 0 < D) :
    ∀ s ∈ mergeEdgeSegments D ex inc,
      0 ≤ s.start_offset ∧ s.start_offset ≤ s.end_offset ∧ s.end_offset ≤ D := by
  obtain ⟨A, B, -, Hd, Lt, -⟩ :=
    merged_spec D ex inc (le_of_lt hD) (sortedBounds_two_le D ex inc hD)
  intro s hs
  rcases Option.map_eq_some'.mp Hd with ⟨h0, hh0, h0s⟩
  rcases Option.map_eq_some'.mp Lt with ⟨t0, ht0, t0e⟩
  have h1 := chain_ge_head_start _ B A h0 hh0 s hs
  have h2 := chain_le_last_end _ B A t0 ht0 s hs
  refine ⟨?_, le_of_lt (A s hs), ?_⟩
  · rw [← h0s]; exact h1
  · rw [← t0e]; exact h2

/-! ### C9: coalescing a measured segment with an adjacent same-type
no-data segment -/

/-! ### C9: coalescing a measured segment with an adjacent same-type
no-data segment -/

/-- C9: when the coalescing loop merges two adjacent same-type segments of
which exactly one carries an `avg_speed`, the merged segment's `avg_speed`
is defined and equals the length-weighted average with the missing speed
taken as `0` — a value pulled toward `0` (its absolute value is at most
that of the measured speed). -/
theorem coalesce_missing_speed_as_zero (a b : Segment) (rest : List Segment)
    (hty : a.type = b.type) (hadj : approxEqual a.end_offset b.start_offset = true)
    (hlenA : 0 < a.end_offset - a.start_offset)
    (hlenB : 0 < b.end_offset - b.start_offset) :
    (∀ v, a.avg_speed = some v → b.avg_speed = none →
      coalesceGo a (b :: rest) =
        coalesceGo ⟨a.start_offset, b.end_offset, a.type,
          some (v * (a.end_offset - a.start_offset) /
            ((a.end_offset - a.start_offset) + (b.end_offset - b.start_offset)))⟩ rest ∧
      |v * (a.end_offset - a.start_offset) /
          ((a.end_offset - a.start_offset) + (b.end_offset - b.start_offset))| ≤ |v|) ∧
    (∀ w, a.avg_speed = none → b.avg_speed = some w →
      coalesceGo a (b :: rest) =
        coalesceGo ⟨a.start_offset, b.end_offset, a.type,
          some (w * (b.end_offset - b.start_offset) /
            ((a.end_offset - a.start_offset) + (b.end_offset - b.start_offset)))⟩ rest ∧
      |w * (b.end_offset - b.start_offset) /
          ((a.end_offset - a.start_offset) + (b.end_offset - b.start_offset))| ≤ |w|) := by
  have hdenom : 0 < (a.end_offset - a.start_offset) + (b.end_offset - b.start_offset) :=
    add_pos hlenA hlenB
  have hgo : coalesceGo a (b :: rest) = coalesceGo (coalesceTwo a b) rest := by
    rw [coalesceGo]
    rw [if_pos ⟨hty, hadj⟩]
  have habs : ∀ (u len : ℚ), 0 < len →
      len ≤ (a.end_offset - a.start_offset) + (b.end_offset - b.start_offset) →
      |u * len / ((a.end_offset - a.start_offset) + (b.end_offset - b.start_offset))| ≤ |u| := by
    intro u len hl hle
    rw [abs_div, abs_mul, abs_of_pos hdenom]
    rw [div_le_iff₀ hdenom]
    have h1 : |len| = len := abs_of_pos hl
    rw [h1]
    exact mul_le_mul_of_nonneg_left hle (abs_nonneg u)
  constructor
  · intro v hv hb
    constructor
    · rw [hgo]
      have hct : coalesceTwo a b = ⟨a.start_offset, b.end_offset, a.type,
          some (v * (a.end_offset - a.start_offset) /
            ((a.end_offset - a.start_offset) + (b.end_offset - b.start_offset)))⟩ := by
        simp only [coalesceTwo, hv, hb, Option.getD_some, Option.getD_none]
        rw [if_pos hdenom]
        simp only [Segment.mk.injEq, Option.some.injEq, true_and]
        ring
      rw [hct]
    · exact habs v _ hlenA (by linarith)
  · intro w ha hw
    constructor
    · rw [hgo]
      have hct : coalesceTwo a b = ⟨a.start_offset, b.end_offset, a.type,
          some (w * (b.end_offset - b.start_offset) /
            ((a.end_offset - a.start_offset) + (b.end_offset - b.start_offset)))⟩ := by
        simp only [coalesceTwo, ha, hw, Option.getD_some, Option.getD_none]
        rw [if_pos hdenom]
        simp only [Segment.mk.injEq, Option.some.injEq, true_and]
        ring
      rw [hct]
    · exact habs w _ hlenB (by linarith)

section
attribute [local semireducible] Rat.add Rat.sub Rat.mul Rat.inv

/-- C9 witness: merging `[0,2)` coppered at speed `6` with the adjacent
no-data coppered interval `[2,3)` yields the defined speed
`6 * 2 / 3 = 4`. -/
theorem coalesce_missing_speed_as_zero_witness :
    coalesceGo ⟨0, 2, .coppered, some 6⟩ [⟨2, 3, .coppered, none⟩] =
      coalesceGo ⟨0, 3, .coppered, some (6 * ((2 : ℚ) - 0) / (((2 : ℚ) - 0) + ((3 : ℚ) - 2)))⟩ [] ∧
    |(6 : ℚ) * ((2 : ℚ) - 0) / (((2 : ℚ) - 0) + ((3 : ℚ) - 2))| ≤ |(6 : ℚ)| :=
  (coalesce_missing_speed_as_zero ⟨0, 2, .coppered, some 6⟩ ⟨2, 3, .coppered, none⟩ []
    rfl (by decide) (by decide) (by decide)).1 6 rfl rfl

end

/-! ## Geometry utilities (source lines ~70-128)

`Math.hypot` computes a real square root with no exact rational value;
it is the single primitive abstracted into `GeomOps`.  Every geometric
theorem below is proved for an arbitrary `hypot`, hence in particular for
the true Euclidean one.  Witnesses use `axisHypot`, which agrees with
`Math.hypot` whenever one displacement component is zero — the only
inputs produced by the axis-aligned witness geometries. -/

structure GeomOps where
  hypot : ℚ → ℚ → ℚ

/-- Exact hypotenuse for axis-aligned displacements (agrees with
`Math.hypot dx dz` whenever `dx = 0` or `dz = 0`). -/
def axisHypot : GeomOps :=
  ⟨fun dx dz => if dz = 0 then |dx| else if dx = 0 then |dz| else 0⟩

/-- `dist2D(a, b)`: planar distance, ignoring the vertical axis. -/
def dist2D (ops : GeomOps) (a b : Vec3) : ℚ := ops.hypot (a.x - b.x) (a.z - b.z)

/-- `pointToSegmentDistance2D(p, a, b)`: `(dist, t, proj)` with the
projection parameter clamped to `[0, 1]` and a degenerate segment
returning the direct distance with `t = 0`. -/
def pointToSegmentDistance2D (ops : GeomOps) (p a b : Vec3) : ℚ × ℚ × Vec3 :=
  let vx := b.x - a.x
  let vz := b.z - a.z
  let wx := p.x - a.x
  let wz := p.z - a.z
  let vlen2 := vx * vx + vz * vz
  if vlen2 = 0 then
    (ops.hypot (p.x - a.x) (p.z - a.z), 0, ⟨a.x, a.y, a.z⟩)
  else
    let t := max 0 (min 1 ((wx * vx + wz * vz) / vlen2))
    let projx := a.x + t * vx
    let projz := a.z + t * vz
    (ops.hypot (p.x - projx) (p.z - projz), t, ⟨projx, a.y, projz⟩)

/-- Arc length of the suffix of a polyline starting at `prev`. -/
def lengthGo (ops : GeomOps) (prev : Vec3) : List Vec3 → ℚ
  | [] => 0
  | q :: rest => dist2D ops prev q + lengthGo ops q rest

/-- `polylineLength2D(poly)`: sum of consecutive planar segment lengths. -/
def polylineLength2D (ops : GeomOps) (poly : List Vec3) : ℚ :=
  match poly with
  | [] => 0
  | p0 :: rest => lengthGo ops p0 rest

/-- The record returned by `projectPointOntoPolyline`; `dist` starts at
`Infinity`, hence `WithTop ℚ`. -/
structure ProjRes where
  dist : WithTop ℚ
  segIndex : ℕ
  t : ℚ
  proj : Vec3
  offset : ℚ
deriving DecidableEq

/-- The projection loop over consecutive polyline segments, accumulating
the arc-length offset and keeping the strictly closest projection
(first-found on ties). -/
def projGo (ops : GeomOps) (p : Vec3) : Vec3 → ℕ → ℚ → ProjRes → List Vec3 → ProjRes
  | _, _, _, best, [] => best
  | a, i, offsetAcc, best, b :: rest =>
    let segLen := dist2D ops a b
    let r := pointToSegmentDistance2D ops p a b
    let offset := offsetAcc + r.2.1 * segLen
    let best2 := if (r.1 : WithTop ℚ) < best.dist then
        ⟨(r.1 : WithTop ℚ), i, r.2.1, r.2.2, offset⟩ else best
    projGo ops p b (i + 1) (offsetAcc + segLen) best2 rest

/-- `projectPointOntoPolyline(poly, p)`: `null` on an empty polyline, else
the closest projection; on a single-point polyline the initial record
(`dist = Infinity`, `offset = 0`) is returned unchanged. -/
def projectPointOntoPolyline (ops : GeomOps) (poly : List Vec3) (p : Vec3) :
    Option ProjRes :=
  match poly with
  | [] => none
  | q0 :: rest => some (projGo ops p q0 0 0 ⟨⊤, 0, 0, q0, 0⟩ rest)

/-! ## Survey reconciliation (source lines ~229-333) -/

/-- `graph.edges.map((e, idx) => ({...e, id: e.id ?? from_to_idx}))`. -/
def edgesWithIds (G : Graph) : List EdgeDef :=
  G.edges.enum.map fun p =>
    { p.2 with
      id := some (p.2.id.getD (p.2.«from» ++ "_" ++ p.2.«to» ++ "_" ++ toString p.1)) }

/-- A retained sample projection (the source's `SampleProj`). -/
structure SampleProj where
  edgeId : String
  offset : ℚ
  state : SegType
  speed : ℚ
deriving DecidableEq, Repr

/-- One iteration of the candidate-edge search for a sample: edges without
a geometry of at least two points are skipped; a projection within the
threshold replaces the current best when strictly closer (or when there is
no best yet). -/
def bestStep (ops : GeomOps) (thr : ℚ) (s : SurveySample)
    (best : Option (EdgeDef × ProjRes)) (e : EdgeDef) : Option (EdgeDef × ProjRes) :=
  match e.geometry with
  | none => best
  | some g =>
    if g.length < 2 then best
    else
      match projectPointOntoPolyline ops g s.coords with
      | none => best
      | some pr =>
        if pr.dist ≤ (thr : WithTop ℚ) then
          match best with
          | none => some (e, pr)
          | some b => if pr.dist < b.2.dist then some (e, pr) else best
        else best

/-- The candidate-edge search of the per-sample loop. -/
def bestEdgeFor (ops : GeomOps) (thr : ℚ) (edges : List EdgeDef)
    (s : SurveySample) : Option (EdgeDef × ProjRes) :=
  edges.foldl (bestStep ops thr s) none

/-- The retained projection of one sample: classification by
`speed > 11`, offset clamped into `[0, dMax]` where
`dMax = edge.distance || polylineLength2D(edge.geometry)` — the `||`
falls back to the polyline length exactly when `distance` is `0`,
because `0` is falsy in JS. -/
def projOfSample (ops : GeomOps) (thr : ℚ) (edges : List EdgeDef)
    (s : SurveySample) : Option SampleProj :=
  match bestEdgeFor ops thr edges s with
  | none => none
  | some (e, pr) =>
    let state := if 11 < s.speed then SegType.coppered else SegType.uncoppered
    let dMax := if e.distance = 0 then polylineLength2D ops (e.geometry.getD [])
      else e.distance
    some ⟨e.id.getD "", max 0 (min pr.offset dMax), state, s.speed⟩

/-- The `projs` list: samples outside the threshold are silently dropped. -/
def surveyProjs (ops : GeomOps) (thr : ℚ) (edges : List EdgeDef)
    (samples : List SurveySample) : List SampleProj :=
  samples.filterMap (projOfSample ops thr edges)

/-- The group keys of `byEdge` in first-appearance order (JS `Map`
iteration order). -/
def groupKeys (projs : List SampleProj) : List String :=
  projs.foldl (fun acc p => insertUniq acc p.edgeId) []

/-- Stable insertion into a list sorted by offset; models the stable
`Array.prototype.sort` with comparator `(a, b) => a.offset - b.offset`. -/
def insOff (x : SampleProj) : List SampleProj → List SampleProj
  | [] => [x]
  | y :: rest => if y.offset ≤ x.offset then y :: insOff x rest else x :: y :: rest

/-- `samples.sort((a, b) => a.offset - b.offset)`. -/
def sortByOffset (l : List SampleProj) : List SampleProj :=
  l.foldl (fun acc x => insOff x acc) []

/-- Collapse sorted samples into contiguous same-state runs; a run ends at
the midpoint between the last sample of the old run and the first sample
of the new one, and each run's `avg_speed` is the mean of its samples. -/
def buildRunsGo (curState : SegType) (curStart : ℚ) (speedsAcc : List ℚ)
    (prev : SampleProj) : List SampleProj → List Segment
  | [] => [⟨curStart, prev.offset, curState, some (average speedsAcc)⟩]
  | s :: rest =>
    if s.state = curState then buildRunsGo curState curStart (speedsAcc ++ [s.speed]) s rest
    else
      ⟨curStart, (prev.offset + s.offset) / 2, curState, some (average speedsAcc)⟩ ::
        buildRunsGo s.state ((prev.offset + s.offset) / 2) [s.speed] s rest

/-- The run list of a sample group. -/
def buildRuns : List SampleProj → List Segment
  | [] => []
  | s0 :: rest => buildRunsGo s0.state s0.offset [s0.speed] s0 rest

/-- `Ensure intervals are within [0, distMax]`, widening a degenerate
interval by one block capped at `distMax`. -/
def clampIntervals (distMax : ℚ) (l : List Segment) : List Segment :=
  l.map fun seg =>
    let st := clamp seg.start_offset 0 distMax
    let en := clamp seg.end_offset 0 distMax
    ⟨st, if en ≤ st then min (st + 1) distMax else en, seg.type, seg.avg_speed⟩

/-- One entry of the reconciliation diff list. -/
structure DiffEntry where
  edgeId : String
  oldSegments : Option (List Segment)
  newSegments : List Segment
deriving DecidableEq, Repr

/-- Replace the first edge carrying the given id (the in-place assignment
to the found element of the `edges` array). -/
def updateFirstById (k : String) (e2 : EdgeDef) : List EdgeDef → List EdgeDef
  | [] => []
  | e :: rest => if e.id = some k then e2 :: rest else e :: updateFirstById k e2 rest

/-- One iteration of the per-edge loop: find the (first) edge carrying the
group's id, build the group's run intervals, merge them into the edge's
segments, recompute the copper coverage, and append a diff entry.  The
`none` branch is unreachable: every group key is the id of some edge.
(`edge.distance ?? polylineLength2D(...)` reduces to `edge.distance`,
which the TS type makes a required field.) -/
def processGroup (projs : List SampleProj) (st : List EdgeDef × List DiffEntry)
    (k : String) : List EdgeDef × List DiffEntry :=
  match st.1.find? (fun e => e.id = some k) with
  | none => st
  | some e =>
    let samples := projs.filter (fun p => p.edgeId = k)
    let sorted := sortByOffset samples
    let newIntervals := if 0 < sorted.length
      then clampIntervals e.distance (buildRuns sorted) else []
    let merged := mergeEdgeSegments e.distance (e.segments.getD []) newIntervals
    (updateFirstById k
        { e with
          segments := some merged,
          total_copper_coverage := some (computeTotalCopperCoverage e.distance merged) }
        st.1,
      st.2 ++ [⟨k, e.segments, merged⟩])

/-- JS spread `{...orig, ...e}`: `e`'s present fields win, `orig` supplies
the fields `e` lacks. -/
def spreadEdge (orig e : EdgeDef) : EdgeDef :=
  { id := e.id.orElse (fun _ => orig.id),
    «from» := e.«from», «to» := e.«to», distance := e.distance,
    routing_weight := e.routing_weight.orElse (fun _ => orig.routing_weight),
    segments := e.segments.orElse (fun _ => orig.segments),
    total_copper_coverage :=
      e.total_copper_coverage.orElse (fun _ => orig.total_copper_coverage),
    geometry := e.geometry.orElse (fun _ => orig.geometry) }

/-- The result record of `reconcileSurvey`. -/
structure ReconcileResult where
  updatedEdges : List EdgeDef
  diffs : List DiffEntry
deriving DecidableEq, Repr

/-- `reconcileSurvey(graph, survey, thresholdBlocks = 5)`. -/
def reconcileSurvey (ops : GeomOps) (graph : Graph) (survey : SurveyReport)
    (thresholdBlocks : ℚ := 5) : ReconcileResult :=
  let edges := edgesWithIds graph
  let projs := surveyProjs ops thresholdBlocks edges survey.samples
  let st := (groupKeys projs).foldl (processGroup projs) (edges, [])
  ⟨st.1.map fun e =>
      match graph.edges.find? (fun oe =>
        oe.id = e.id ∨ (oe.«from» = e.«from» ∧ oe.«to» = e.«to»)) with
      | none => e
      | some oe => spreadEdge oe e,
    st.2⟩

/-! ### C5: per-sample projection, threshold and classification -/

/-- An edge is a within-threshold candidate for the sample via `pr`. -/
def CandWithin (ops : GeomOps) (thr : ℚ) (s : SurveySample)
    (e : EdgeDef) (pr : ProjRes) : Prop :=
  ∃ g, e.geometry = some g ∧ ¬(g.length < 2) ∧
    projectPointOntoPolyline ops g s.coords = some pr ∧ pr.dist ≤ (thr : WithTop ℚ)

/-- An edge contributes no within-threshold candidate for the sample. -/
def NoWithin (ops : GeomOps) (thr : ℚ) (s : SurveySample) (e : EdgeDef) : Prop :=
  ∀ g, e.geometry = some g → ¬(g.length < 2) →
    ∀ pr, projectPointOntoPolyline ops g s.coords = some pr →
      ¬(pr.dist ≤ (thr : WithTop ℚ))

theorem bestStep_cases (ops : GeomOps) (thr : ℚ) (s : SurveySample)
    (acc : Option (EdgeDef × ProjRes)) (e : EdgeDef) :
    (bestStep ops thr s acc e = acc ∧
      (∀ g, e.geometry = some g → ¬(g.length < 2) →
        ∀ pr, projectPointOntoPolyline ops g s.coords = some pr →
          pr.dist ≤ (thr : WithTop ℚ) →
            ∃ b, acc = some b ∧ ¬(pr.dist < b.2.dist))) ∨
    (∃ g pr, e.geometry = some g ∧ ¬(g.length < 2) ∧
      projectPointOntoPolyline ops g s.coords = some pr ∧
      pr.dist ≤ (thr : WithTop ℚ) ∧
      bestStep ops thr s acc e = some (e, pr) ∧
      (acc = none ∨ ∃ b, acc = some b ∧ pr.dist < b.2.dist)) := by
  unfold bestStep
  split
  · rename_i heq
    refine Or.inl ⟨rfl, ?_⟩
    intro g hg
    rw [heq] at hg
    exact absurd hg (by simp)
  · rename_i g heq
    split
    · rename_i hlen
      refine Or.inl ⟨rfl, ?_⟩
      intro g2 hg2 hlen2
      rw [heq] at hg2
      rw [Option.some.inj hg2] at hlen
      exact absurd hlen hlen2
    · rename_i hlen
      split
      · rename_i hpr
        refine Or.inl ⟨rfl, ?_⟩
        intro g2 hg2 hlen2 pr hpr2
        rw [heq] at hg2
        rw [← Option.some.inj hg2] at hpr2
        rw [hpr] at hpr2
        exact absurd hpr2 (by simp)
      · rename_i pr hpr
        have hdet : ∀ g2, e.geometry = some g2 → ∀ pr0,
            projectPointOntoPolyline ops g2 s.coords = some pr0 → pr0 = pr := by
          intro g2 hg2 pr0 hpr0
          rw [heq] at hg2
          rw [← Option.some.inj hg2] at hpr0
          rw [hpr] at hpr0
          exact (Option.some.inj hpr0).symm
        split
        · rename_i hthr
          split
          · exact Or.inr ⟨g, pr, heq, hlen, hpr, hthr, rfl, Or.inl rfl⟩
          · rename_i b
            split
            · rename_i hlt
              exact Or.inr ⟨g, pr, heq, hlen, hpr, hthr, rfl,
                Or.inr ⟨b, rfl, hlt⟩⟩
            · rename_i hlt
              refine Or.inl ⟨rfl, ?_⟩
              intro g2 hg2 hlen2 pr0 hpr0 hthr0
              rw [hdet g2 hg2 pr0 hpr0]
              exact ⟨b, rfl, hlt⟩
        · rename_i hthr
          refine Or.inl ⟨rfl, ?_⟩
          intro g2 hg2 hlen2 pr0 hpr0 hthr0
          rw [hdet g2 hg2 pr0 hpr0] at hthr0
          exact absurd hthr0 hthr

theorem bestStep_none (ops : GeomOps) (thr : ℚ) (s : SurveySample)
    (acc : Option (EdgeDef × ProjRes)) (e : EdgeDef)
    (h : bestStep ops thr s acc e = none) :
    acc = none ∧ NoWithin ops thr s e := by
  rcases bestStep_cases ops thr s acc e with ⟨heq, hside⟩ | ⟨g, pr, -, -, -, -, hres, -⟩
  · rw [heq] at h
    refine ⟨h, ?_⟩
    intro g hg hlen pr hpr hthr
    rcases hside g hg hlen pr hpr hthr with ⟨b, hb, -⟩
    rw [h] at hb
    exact absurd hb (by simp)
  · rw [hres] at h
    exact absurd h (by simp)

theorem bestStep_some (ops : GeomOps) (thr : ℚ) (s : SurveySample)
    (acc : Option (EdgeDef × ProjRes)) (e : EdgeDef) (E : EdgeDef) (PR : ProjRes)
    (h : bestStep ops thr s acc e = some (E, PR)) :
    (acc = some (E, PR) ∨ (E = e ∧ CandWithin ops thr s e PR)) ∧
    (∀ aE aPr, acc = some (aE, aPr) → PR.dist ≤ aPr.dist) ∧
    (∀ g, e.geometry = some g → ¬(g.length < 2) →
      ∀ pr0, projectPointOntoPolyline ops g s.coords = some pr0 →
        pr0.dist ≤ (thr : WithTop ℚ) → PR.dist ≤ pr0.dist) := by
  rcases bestStep_cases ops thr s acc e with ⟨heq, hside⟩ |
    ⟨g, pr, hg, hlen, hpr, hthr, hres, hacc⟩
  · rw [heq] at h
    refine ⟨Or.inl h, ?_, ?_⟩
    · intro aE aPr haeq
      rw [haeq] at h
      have h2 : PR = aPr := congrArg Prod.snd (Option.some.inj h).symm
      rw [h2]
    · intro g2 hg2 hlen2 pr0 hpr0 hthr0
      rcases hside g2 hg2 hlen2 pr0 hpr0 hthr0 with ⟨b, hb, hnlt⟩
      rw [h] at hb
      have h2 : PR = b.2 := congrArg Prod.snd (Option.some.inj hb)
      rw [h2]
      exact not_lt.mp hnlt
  · rw [hres] at h
    have hE : e = E := congrArg Prod.fst (Option.some.inj h)
    have hPR : pr = PR := congrArg Prod.snd (Option.some.inj h)
    refine ⟨Or.inr ⟨hE.symm, g, hg, hlen, by rw [← hPR]; exact hpr,
        by rw [← hPR]; exact hthr⟩, ?_, ?_⟩
    · intro aE aPr haeq
      rcases hacc with hnone | ⟨b, hb, hlt⟩
      · rw [hnone] at haeq
        exact absurd haeq (by simp)
      · rw [hb] at haeq
        have h2 : b.2 = aPr := congrArg Prod.snd (Option.some.inj haeq)
        rw [← hPR, ← h2]
        exact le_of_lt hlt
    · intro g2 hg2 hlen2 pr0 hpr0 hthr0
      have hdet : pr0 = pr := by
        rw [hg] at hg2
        rw [← Option.some.inj hg2] at hpr0
        rw [hpr] at hpr0
        exact (Option.some.inj hpr0).symm
      rw [hdet, ← hPR]

theorem bestEdgeFor_go (ops : GeomOps) (thr : ℚ) (s : SurveySample)
    (l : List EdgeDef) : ∀ acc : Option (EdgeDef × ProjRes),
    (∀ E PR, l.foldl (bestStep ops thr s) acc = some (E, PR) →
      (acc = some (E, PR) ∨ (E ∈ l ∧ CandWithin ops thr s E PR)) ∧
      (∀ aE aPr, acc = some (aE, aPr) → PR.dist ≤ aPr.dist) ∧
      (∀ e2 ∈ l, ∀ g2, e2.geometry = some g2 → ¬(g2.length < 2) →
        ∀ pr2, projectPointOntoPolyline ops g2 s.coords = some pr2 →
          pr2.dist ≤ (thr : WithTop ℚ) → PR.dist ≤ pr2.dist)) ∧
    (l.foldl (bestStep ops thr s) acc = none →
      acc = none ∧ ∀ e2 ∈ l, NoWithin ops thr s e2) := by
  induction l with
  | nil =>
      intro acc
      constructor
      · intro E PR h
        rw [List.foldl_nil] at h
        refine ⟨Or.inl h, ?_, fun e2 he2 => absurd he2 (List.not_mem_nil e2)⟩
        intro aE aPr haeq
        rw [haeq] at h
        have h2 : PR = aPr := congrArg Prod.snd (Option.some.inj h).symm
        rw [h2]
      · intro h
        rw [List.foldl_nil] at h
        exact ⟨h, fun e2 he2 => absurd he2 (List.not_mem_nil e2)⟩
  | cons e0 rest ih =>
      intro acc
      constructor
      · intro E PR h
        rw [List.foldl_cons] at h
        obtain ⟨ih1, ih2⟩ := ih (bestStep ops thr s acc e0)
        obtain ⟨m1, m2, m3⟩ := ih1 E PR h
        refine ⟨?_, ?_, ?_⟩
        · rcases m1 with hm | ⟨hmem, hcand⟩
          · obtain ⟨s1, s2, s3⟩ := bestStep_some ops thr s acc e0 E PR hm
            rcases s1 with h1 | ⟨h1, h2⟩
            · exact Or.inl h1
            · subst h1
              exact Or.inr ⟨List.mem_cons_self _ _, h2⟩
          · exact Or.inr ⟨List.mem_cons_of_mem _ hmem, hcand⟩
        · intro aE aPr haeq
          cases hb : bestStep ops thr s acc e0 with
          | none =>
              obtain ⟨hn, -⟩ := bestStep_none ops thr s acc e0 hb
              rw [hn] at haeq
              exact absurd haeq (by simp)
          | some b =>
              obtain ⟨-, s2, -⟩ := bestStep_some ops thr s acc e0 b.1 b.2 (by rw [hb])
              have hd1 : PR.dist ≤ b.2.dist := m2 b.1 b.2 (by rw [hb])
              exact le_trans hd1 (s2 aE aPr haeq)
        · intro e2 he2 g2 hg2 hlen2 pr2 hpr2 hthr2
          rcases List.mem_cons.mp he2 with heq0 | hrest
          · cases hb : bestStep ops thr s acc e0 with
            | none =>
                obtain ⟨-, hnw⟩ := bestStep_none ops thr s acc e0 hb
                rw [heq0] at hg2
                exact absurd hthr2 (hnw g2 hg2 hlen2 pr2 hpr2)
            | some b =>
                obtain ⟨-, -, s3⟩ := bestStep_some ops thr s acc e0 b.1 b.2 (by rw [hb])
                have hd1 : PR.dist ≤ b.2.dist := m2 b.1 b.2 (by rw [hb])
                rw [heq0] at hg2
                exact le_trans hd1 (s3 g2 hg2 hlen2 pr2 hpr2 hthr2)
          · exact m3 e2 hrest g2 hg2 hlen2 pr2 hpr2 hthr2
      · intro h
        rw [List.foldl_cons] at h
        obtain ⟨-, ih2⟩ := ih (bestStep ops thr s acc e0)
        obtain ⟨hstepnone, hrest⟩ := ih2 h
        obtain ⟨haccnone, hnw⟩ := bestStep_none ops thr s acc e0 hstepnone
        refine ⟨haccnone, ?_⟩
        intro e2 he2
        rcases List.mem_cons.mp he2 with heq0 | hmem
        · rw [heq0]; exact hnw
        · exact hrest e2 hmem

/-- C5 (amended): a retained sample is assigned to an edge with a usable
geometry (at least two points), at the minimum projection distance over
all such edges, within the threshold; it is classified `coppered` exactly
when its speed exceeds `11`; and its offset is the projection offset
clamped into `[0, dMax]` where `dMax` is the edge's `distance` — or, when
that distance is `0` (falsy in JS), the geometry's polyline length.
A sample with no edge within the threshold yields no projection record at
all (it is silently dropped; `projOfSample` is total, so no error can be
raised). -/
theorem projOfSample_spec (ops : GeomOps) (thr : ℚ) (edges : List EdgeDef)
    (s : SurveySample) :
    (∀ p, projOfSample ops thr edges s = some p →
      ∃ e pr, bestEdgeFor ops thr edges s = some (e, pr) ∧
        e ∈ edges ∧
        (∃ g, e.geometry = some g ∧ 2 ≤ g.length ∧
          projectPointOntoPolyline ops g s.coords = some pr) ∧
        pr.dist ≤ (thr : WithTop ℚ) ∧
        (∀ e2 ∈ edges, ∀ g2, e2.geometry = some g2 → 2 ≤ g2.length →
          ∀ pr2, projectPointOntoPolyline ops g2 s.coords = some pr2 →
            pr.dist ≤ pr2.dist) ∧
        (p.state = SegType.coppered ↔ 11 < s.speed) ∧
        p.speed = s.speed ∧ p.edgeId = e.id.getD "" ∧
        p.offset = max 0 (min pr.offset
          (if e.distance = 0 then polylineLength2D ops (e.geometry.getD [])
            else e.distance)) ∧
        0 ≤ p.offset ∧
        (0 ≤ (if e.distance = 0 then polylineLength2D ops (e.geometry.getD [])
            else e.distance) →
          p.offset ≤ (if e.distance = 0 then polylineLength2D ops (e.geometry.getD [])
            else e.distance))) ∧
    (projOfSample ops thr edges s = none →
      ∀ e2 ∈ edges, ∀ g2, e2.geometry = some g2 → 2 ≤ g2.length →
        ∀ pr2, projectPointOntoPolyline ops g2 s.coords = some pr2 →
          ¬(pr2.dist ≤ (thr : WithTop ℚ))) := by
  constructor
  · intro p hp
    unfold projOfSample at hp
    cases hb : bestEdgeFor ops thr edges s with
    | none => rw [hb] at hp; exact absurd hp (by simp)
    | some epr =>
        obtain ⟨e, pr⟩ := epr
        rw [hb] at hp
        obtain ⟨m1, -, m3⟩ := ((bestEdgeFor_go ops thr s edges none).1 e pr hb)
        have hmem : e ∈ edges ∧ CandWithin ops thr s e pr := by
          rcases m1 with hm | hm
          · exact absurd hm (by simp)
          · exact hm
        obtain ⟨g, hg, hlen, hproj, hthr⟩ := hmem.2
        have hp2 := Option.some.inj hp
        refine ⟨e, pr, rfl, hmem.1, ⟨g, hg, not_lt.mp hlen, hproj⟩, hthr, ?_, ?_, ?_, ?_, ?_, ?_, ?_⟩
        · intro e2 he2 g2 hg2 hlen2 pr2 hpr2
          by_cases hthr2 : pr2.dist ≤ (thr : WithTop ℚ)
          · exact m3 e2 he2 g2 hg2 (not_lt.mpr hlen2) pr2 hpr2 hthr2
          · exact le_trans hthr (le_of_lt (not_le.mp hthr2))
        · rw [← hp2]
          by_cases hsp : 11 < s.speed
          · simp [hsp]
          · simp only [if_neg hsp]
            constructor
            · intro hcontra
              exact absurd hcontra (by simp)
            · intro hcontra
              exact absurd hcontra hsp
        · rw [← hp2]
        · rw [← hp2]
        · rw [← hp2]
        · rw [← hp2]
          exact le_max_left 0 _
        · intro hd
          rw [← hp2]
          exact max_le hd (min_le_right _ _)
  · intro hnone e2 he2 g2 hg2 hlen2 pr2 hpr2
    unfold projOfSample at hnone
    cases hb : bestEdgeFor ops thr edges s with
    | some epr =>
        obtain ⟨e, pr⟩ := epr
        rw [hb] at hnone
        exact absurd hnone (by simp)
    | none =>
        obtain ⟨-, hnw⟩ := (bestEdgeFor_go ops thr s edges none).2 hb
        exact hnw e2 he2 g2 hg2 (not_lt.mpr hlen2) pr2 hpr2

/-! ### C3 and C6: touched edges carry a well-formed merged segment list
and the recomputed coverage -/

/-- Fold invariant of the per-edge loop: every diff recorded so far is
mirrored by an edge of the evolving edge list that carries the diff's
merged segments, a coverage recomputed from them, and whose segment list
is a `mergeEdgeSegments` output for its own distance. -/
def DiffInv (st : List EdgeDef × List DiffEntry) : Prop :=
  ∀ d ∈ st.2, ∃ e ∈ st.1, e.id = some d.edgeId ∧ e.segments = some d.newSegments ∧
    (∃ exx incc, d.newSegments = mergeEdgeSegments e.distance exx incc) ∧
    e.total_copper_coverage =
      some (computeTotalCopperCoverage e.distance d.newSegments)

theorem updateFirstById_mem_of_ne (k : String) (e2 : EdgeDef) :
    ∀ (l : List EdgeDef) (e3 : EdgeDef), e3 ∈ l → e3.id ≠ some k →
      e3 ∈ updateFirstById k e2 l := by
  intro l
  induction l with
  | nil => intro e3 h3; exact absurd h3 (List.not_mem_nil e3)
  | cons eh rest ih =>
      intro e3 h3 hne
      rw [updateFirstById]
      by_cases hh : eh.id = some k
      · rw [if_pos hh]
        rcases List.mem_cons.mp h3 with heq | hmem
        · rw [heq] at hne; exact absurd hh hne
        · exact List.mem_cons_of_mem _ hmem
      · rw [if_neg hh]
        rcases List.mem_cons.mp h3 with heq | hmem
        · rw [heq]; exact List.mem_cons_self _ _
        · exact List.mem_cons_of_mem _ (ih e3 hmem hne)

theorem updateFirstById_mem_self (k : String) (e2 : EdgeDef) :
    ∀ (l : List EdgeDef) (e : EdgeDef),
      l.find? (fun e3 => e3.id = some k) = some e →
      e2 ∈ updateFirstById k e2 l := by
  intro l
  induction l with
  | nil => intro e h; exact absurd h (by simp)
  | cons eh rest ih =>
      intro e h
      rw [updateFirstById]
      by_cases hh : eh.id = some k
      · rw [if_pos hh]
        exact List.mem_cons_self _ _
      · rw [if_neg hh]
        rw [List.find?_cons_of_neg _ (by simpa using hh)] at h
        exact List.mem_cons_of_mem _ (ih e h)

theorem foldl_insertUniq_nodup (l : List SampleProj) :
    ∀ acc : List String, acc.Nodup →
      (l.foldl (fun a p => insertUniq a p.edgeId) acc).Nodup := by
  induction l with
  | nil => intro acc h; exact h
  | cons p rest ih =>
      intro acc h
      exact ih _ (insertUniq_nodup _ _ h)

theorem groupKeys_nodup (projs : List SampleProj) : (groupKeys projs).Nodup :=
  foldl_insertUniq_nodup projs [] List.nodup_nil

theorem processGroup_inv (projs : List SampleProj) (k : String)
    (st : List EdgeDef × List DiffEntry) (hinv : DiffInv st)
    (hold : ∀ d ∈ st.2, d.edgeId ≠ k) :
    DiffInv (processGroup projs st k) ∧
    (∀ d ∈ (processGroup projs st k).2, d.edgeId = k ∨ d ∈ st.2) := by
  unfold processGroup
  cases hf : st.1.find? (fun e => e.id = some k) with
  | none => exact ⟨hinv, fun d hd => Or.inr hd⟩
  | some e =>
      have heid : e.id = some k := by
        have h1 := List.find?_some hf
        exact of_decide_eq_true h1
      constructor
      · intro d hd
        rcases List.mem_append.mp hd with hdo | hdn
        · obtain ⟨e3, he3, hid3, hseg3, hmm3, hcov3⟩ := hinv d hdo
          have hne : e3.id ≠ some k := by
            rw [hid3]
            intro hcontra
            exact hold d hdo (Option.some.inj hcontra)
          exact ⟨e3, updateFirstById_mem_of_ne k _ st.1 e3 he3 hne,
            hid3, hseg3, hmm3, hcov3⟩
        · have hdd : d = ⟨k, e.segments,
              mergeEdgeSegments e.distance (e.segments.getD [])
                (if 0 < (sortByOffset (projs.filter (fun p => p.edgeId = k))).length
                  then clampIntervals e.distance
                    (buildRuns (sortByOffset (projs.filter (fun p => p.edgeId = k))))
                  else [])⟩ := by
            rcases List.mem_singleton.mp hdn with h
            exact h
          refine ⟨_, updateFirstById_mem_self k _ st.1 e hf, ?_, ?_, ?_, ?_⟩
          · rw [hdd]; exact heid
          · rw [hdd]
          · rw [hdd]
            exact ⟨e.segments.getD [], _, rfl⟩
          · rw [hdd]
      · intro d hd
        rcases List.mem_append.mp hd with hdo | hdn
        · exact Or.inr hdo
        · rcases List.mem_singleton.mp hdn with h
          rw [h]
          exact Or.inl rfl

theorem foldl_processGroup_inv (projs : List SampleProj) :
    ∀ (keys : List String) (st : List EdgeDef × List DiffEntry),
      keys.Nodup → DiffInv st → (∀ d ∈ st.2, d.edgeId ∉ keys) →
      DiffInv (keys.foldl (processGroup projs) st) := by
  intro keys
  induction keys with
  | nil => intro st _ hinv _; exact hinv
  | cons k rest ih =>
      intro st hnd hinv hni
      rw [List.foldl_cons]
      have hold : ∀ d ∈ st.2, d.edgeId ≠ k := by
        intro d hd hcontra
        exact hni d hd (hcontra ▸ List.mem_cons_self _ _)
      obtain ⟨hinv2, hnew⟩ := processGroup_inv projs k st hinv hold
      refine ih _ (List.nodup_cons.mp hnd).2 hinv2 ?_
      intro d hd
      rcases hnew d hd with heq | hdo
      · rw [heq]
        exact (List.nodup_cons.mp hnd).1
      · intro hcontra
        exact hni d hdo (List.mem_cons_of_mem _ hcontra)

/-- Shared characterization: every diff entry of `reconcileSurvey` is
mirrored in `updatedEdges` by an edge carrying the diff's merged segments
(a `mergeEdgeSegments` output for the edge's distance) and the coverage
recomputed from them. -/
theorem reconcileSurvey_diffs_chars (ops : GeomOps) (G : Graph)
    (survey : SurveyReport) (thr : ℚ) :
    ∀ d ∈ (reconcileSurvey ops G survey thr).diffs,
      ∃ e ∈ (reconcileSurvey ops G survey thr).updatedEdges,
        e.id = some d.edgeId ∧ e.segments = some d.newSegments ∧
        (∃ exx incc, d.newSegments = mergeEdgeSegments e.distance exx incc) ∧
        e.total_copper_coverage =
          some (computeTotalCopperCoverage e.distance d.newSegments) := by
  intro d hd
  have hdiffs : (reconcileSurvey ops G survey thr).diffs =
      ((groupKeys (surveyProjs ops thr (edgesWithIds G) survey.samples)).foldl
        (processGroup (surveyProjs ops thr (edgesWithIds G) survey.samples))
        (edgesWithIds G, [])).2 := rfl
  have hupd : (reconcileSurvey ops G survey thr).updatedEdges =
      ((groupKeys (surveyProjs ops thr (edgesWithIds G) survey.samples)).foldl
        (processGroup (surveyProjs ops thr (edgesWithIds G) survey.samples))
        (edgesWithIds G, [])).1.map (fun e =>
          match G.edges.find? (fun oe =>
            oe.id = e.id ∨ (oe.«from» = e.«from» ∧ oe.«to» = e.«to»)) with
          | none => e
          | some oe => spreadEdge oe e) := rfl
  rw [hdiffs] at hd
  have hinv := foldl_processGroup_inv
    (surveyProjs ops thr (edgesWithIds G) survey.samples)
    (groupKeys (surveyProjs ops thr (edgesWithIds G) survey.samples))
    (edgesWithIds G, [])
    (groupKeys_nodup _)
    (fun d2 hd2 => absurd hd2 (List.not_mem_nil d2))
    (fun d2 hd2 => absurd hd2 (List.not_mem_nil d2))
  obtain ⟨e, he, hid, hseg, hmm, hcov⟩ := hinv d hd
  refine ⟨(match G.edges.find? (fun oe =>
      oe.id = e.id ∨ (oe.«from» = e.«from» ∧ oe.«to» = e.«to»)) with
    | none => e
    | some oe => spreadEdge oe e), ?_, ?_⟩
  · rw [hupd]
    exact List.mem_map.mpr ⟨e, he, rfl⟩
  · cases hfind : G.edges.find? (fun oe =>
        oe.id = e.id ∨ (oe.«from» = e.«from» ∧ oe.«to» = e.«to»)) with
    | none => exact ⟨hid, hseg, hmm, hcov⟩
    | some oe =>
        have h1 : (spreadEdge oe e).id = e.id := by
          unfold spreadEdge
          rw [hid]
          rfl
        have h2 : (spreadEdge oe e).segments = e.segments := by
          unfold spreadEdge
          rw [hseg]
          rfl
        have h3 : (spreadEdge oe e).total_copper_coverage =
            e.total_copper_coverage := by
          unfold spreadEdge
          rw [hcov]
          rfl
        have h4 : (spreadEdge oe e).distance = e.distance := rfl
        rw [h1, h2, h3, h4]
        exact ⟨hid, hseg, hmm, hcov⟩

/-- C3 (amended): every edge touched by `reconcileSurvey` (i.e. reported
in `diffs`) appears in `updatedEdges` carrying exactly the diff's merged
segment list; when the edge's total distance is positive that list is
ordered, non-overlapping, non-degenerate, starts at `0`, ends at the
distance, has no two adjacent segments of equal type, and the recorded
`total_copper_coverage` always lies in `[0, 1]`. -/
theorem reconcileSurvey_wellFormed (ops : GeomOps) (G : Graph)
    (survey : SurveyReport) (thr : ℚ) :
    ∀ d ∈ (reconcileSurvey ops G survey thr).diffs,
      ∃ e ∈ (reconcileSurvey ops G survey thr).updatedEdges,
        e.id = some d.edgeId ∧ e.segments = some d.newSegments ∧
        (0 < e.distance → SegListWellFormed e.distance d.newSegments) ∧
        (∃ c, e.total_copper_coverage = some c ∧ 0 ≤ c ∧ c ≤ 1) := by
  intro d hd
  obtain ⟨e, he, hid, hseg, ⟨exx, incc, hmerge⟩, hcov⟩ :=
    reconcileSurvey_diffs_chars ops G survey thr d hd
  refine ⟨e, he, hid, hseg, ?_, ?_⟩
  · intro hpos
    rw [hmerge]
    exact mergeEdgeSegments_wellFormed e.distance exx incc hpos
  · exact ⟨_, hcov, computeTotalCopperCoverage_mem e.distance d.newSegments⟩

/-- C6 (amended): every touched edge's recomputed coverage equals the
clamped ratio of its coppered segment length to `max 1 totalDistance`;
for `totalDistance ≥ 1` this is `copperLen / totalDistance` clamped into
`[0, 1]` as the claim states, while for `0 < totalDistance < 1` the
divisor is `1` rather than `totalDistance`. -/
theorem reconcileSurvey_coverage (ops : GeomOps) (G : Graph)
    (survey : SurveyReport) (thr : ℚ) :
    ∀ d ∈ (reconcileSurvey ops G survey thr).diffs,
      ∃ e ∈ (reconcileSurvey ops G survey thr).updatedEdges,
        e.id = some d.edgeId ∧ e.segments = some d.newSegments ∧
        (0 < e.distance →
          e.total_copper_coverage =
            some (clamp (copperLen d.newSegments / max 1 e.distance) 0 1) ∧
          (1 ≤ e.distance →
            e.total_copper_coverage =
              some (clamp (copperLen d.newSegments / e.distance) 0 1))) := by
  intro d hd
  obtain ⟨e, he, hid, hseg, ⟨exx, incc, hmerge⟩, hcov⟩ :=
    reconcileSurvey_diffs_chars ops G survey thr d hd
  refine ⟨e, he, hid, hseg, ?_⟩
  intro hpos
  have hrange : ∀ sg ∈ d.newSegments,
      0 ≤ sg.start_offset ∧ sg.start_offset ≤ sg.end_offset ∧
        sg.end_offset ≤ e.distance := by
    rw [hmerge]
    exact merged_range e.distance exx incc hpos
  have heq := computeTotalCopperCoverage_eq e.distance d.newSegments hrange
  constructor
  · rw [hcov, heq]
  · intro h1
    rw [hcov, heq, max_eq_right h1]

/-! ## Dijkstra (source lines ~130-200) -/

/-- `e.routing_weight ?? e.distance ?? 0`: the TS type makes `distance`
required, so the final `?? 0` can never apply. -/
def weightOf (e : EdgeDef) : ℚ := e.routing_weight.getD e.distance

/-- The node-id set (JS `Set`, insertion order, duplicates dropped). -/
def nodeIds (G : Graph) : List String :=
  G.nodes.foldl (fun acc n => insertUniq acc n.id) []

theorem foldl_insertUniq_nodup_gen {α β : Type} [DecidableEq β] (f : α → β) :
    ∀ (l : List α) (acc : List β), acc.Nodup →
      (l.foldl (fun a x => insertUniq a (f x)) acc).Nodup := by
  intro l
  induction l with
  | nil => intro acc h; exact h
  | cons p rest ih => intro acc h; exact ih _ (insertUniq_nodup _ _ h)

theorem nodeIds_nodup (G : Graph) : (nodeIds G).Nodup := by
  unfold nodeIds
  exact foldl_insertUniq_nodup_gen (fun n => n.id) G.nodes [] List.nodup_nil

/-- Dijkstra state: tentative distances and predecessor links
(`prev` holds `{from, edgeId}` or `null`). -/
structure DState where
  dist : String → WithTop ℚ
  prev : String → Option (String × Option String)

/-- The extract-min scan: iterate the frontier, keeping the first node
that strictly improves the running best (initially `Infinity`). -/
def findMinGo (dist : String → WithTop ℚ) :
    List String → Option String × WithTop ℚ → Option String × WithTop ℚ
  | [], acc => acc
  | v :: rest, acc =>
      findMinGo dist rest (if dist v < acc.2 then (some v, dist v) else acc)

/-- The node extracted by one iteration of the `while` loop (`undefined`
when every remaining distance is `Infinity`). -/
def findMin (dist : String → WithTop ℚ) (pq : List String) : Option String :=
  (findMinGo dist pq (none, ⊤)).1

/-- One relaxation step: neighbors outside the frontier are skipped;
`dist` and `prev` are updated on strict improvement. -/
def relaxEdge (u : String) (pq2 : List String) (st : DState) (e : EdgeDef) : DState :=
  if e.«to» ∈ pq2 then
    if st.dist u + (weightOf e : WithTop ℚ) < st.dist e.«to» then
      { dist := fun v => if v = e.«to» then st.dist u + (weightOf e : WithTop ℚ)
          else st.dist v,
        prev := fun v => if v = e.«to» then some (u, e.id) else st.prev v }
    else st
  else st

/-- Relax every outgoing edge of `u`; the adjacency list built by the
source groups `graph.edges` by `from` in input order. -/
def relaxAll (G : Graph) (u : String) (pq2 : List String) (st : DState) : DState :=
  (G.edges.filter (fun e => e.«from» = u)).foldl (relaxEdge u pq2) st

/-- The main loop.  The fuel starts at the frontier size and each
iteration removes one node, so the fuel never runs out before the
source's `while (pq.size)` condition fails.  The `u = \"\"` test mirrors
the JS `if (!u) break`: the empty string is falsy, so extracting a node
whose id is the empty string stops the loop early. -/
def dloop (G : Graph) (target : String) : ℕ → List String → DState → DState
  | 0, _, st => st
  | fuel + 1, pq, st =>
      match findMin st.dist pq with
      | none => st
      | some u =>
          if u = "" then st
          else if u = target then st
          else dloop G target fuel (pq.erase u) (relaxAll G u (pq.erase u) st)

/-- The reconstructed path: node ids and the edge ids walked. -/
structure DijkstraPath where
  nodes : List String
  edges : List (Option String)
deriving DecidableEq, Repr

/-- The result record of `dijkstra`. -/
structure DijkstraResult where
  path : Option DijkstraPath
  distance : WithTop ℚ
deriving DecidableEq

/-- Walk predecessor links back from the target.  The source pushes onto
arrays and reverses at the end; consing and not reversing builds the same
lists.  The `while (cur)` guard is falsy on the empty string, so the walk
also stops at an empty node id.  The fuel bounds the walk; the source's
`while` loop would only diverge on a predecessor cycle. -/
def reconstructGo (prev : String → Option (String × Option String)) :
    ℕ → String → List String → List (Option String) →
      List String × List (Option String)
  | 0, _, ns, es => (ns, es)
  | fuel + 1, cur, ns, es =>
      if cur = "" then (ns, es)
      else
        match prev cur with
        | none => (cur :: ns, es)
        | some p => reconstructGo prev fuel p.1 (cur :: ns) (p.2 :: es)

/-- Path reconstruction from the predecessor map. -/
def reconstructPath (G : Graph) (prev : String → Option (String × Option String))
    (target : String) : DijkstraPath :=
  ⟨(reconstructGo prev (nodeIds G).length target [] []).1,
    (reconstructGo prev (nodeIds G).length target [] []).2⟩

/-- `dijkstra(graph, source, target)`. -/
def dijkstra (G : Graph) (source target : String) : Except String DijkstraResult :=
  if source ∉ nodeIds G then
    .error ("Source node " ++ source ++ " not found")
  else if target ∉ nodeIds G then
    .error ("Target node " ++ target ++ " not found")
  else
    let st0 : DState :=
      { dist := fun v => if v = source then (0 : WithTop ℚ) else ⊤,
        prev := fun _ => none }
    let st := dloop G target (nodeIds G).length (nodeIds G) st0
    if st.dist target = ⊤ then .ok ⟨none, ⊤⟩
    else .ok ⟨some (reconstructPath G st.prev target), st.dist target⟩

/-! ### Paths and their costs -/

/-- A directed path: a list of edges, each in the graph and each starting
where the previous one ended, every visited node being in the node set. -/
def IsPath (G : Graph) : String → List EdgeDef → String → Prop
  | s, [], t => s = t ∧ s ∈ nodeIds G
  | s, e :: es, t => e ∈ G.edges ∧ e.«from» = s ∧ s ∈ nodeIds G ∧ IsPath G (e.«to») es t

/-- The cost of a path: the sum of its edges' routing weights. -/
def pathCost (es : List EdgeDef) : ℚ := (es.map weightOf).sum

/-- `t` is reachable from `s` along directed edges of `G`. -/
def Reachable (G : Graph) (s t : String) : Prop := ∃ es, IsPath G s es t

instance instDecidableIsPath (G : Graph) :
    ∀ (s : String) (es : List EdgeDef) (t : String), Decidable (IsPath G s es t)
  | s, [], t => by unfold IsPath; infer_instance
  | s, e :: es, t =>
      have : Decidable (IsPath G (e.«to») es t) := instDecidableIsPath G (e.«to») es t
      by unfold IsPath; infer_instance

theorem isPath_target_mem (G : Graph) :
    ∀ (es : List EdgeDef) (s t : String), IsPath G s es t → t ∈ nodeIds G := by
  intro es
  induction es with
  | nil => intro s t h; exact h.1 ▸ h.2
  | cons e rest ih => intro s t h; exact ih _ _ h.2.2.2

theorem isPath_source_mem (G : Graph) (es : List EdgeDef) (s t : String)
    (h : IsPath G s es t) : s ∈ nodeIds G := by
  cases es with
  | nil => exact h.2
  | cons e rest => exact h.2.2.1

theorem isPath_edges_mem (G : Graph) :
    ∀ (es : List EdgeDef) (s t : String), IsPath G s es t → ∀ e ∈ es, e ∈ G.edges := by
  intro es
  induction es with
  | nil => intro s t _ e he; exact absurd he (List.not_mem_nil e)
  | cons e0 rest ih =>
      intro s t h e he
      rcases List.mem_cons.mp he with heq | hmem
      · rw [heq]; exact h.1
      · exact ih _ _ h.2.2.2 e hmem

theorem isPath_append (G : Graph) :
    ∀ (es1 es2 : List EdgeDef) (s t : String),
      IsPath G s (es1 ++ es2) t ↔ ∃ m, IsPath G s es1 m ∧ IsPath G m es2 t := by
  intro es1
  induction es1 with
  | nil =>
      intro es2 s t
      constructor
      · intro h
        exact ⟨s, ⟨rfl, isPath_source_mem G es2 s t h⟩, h⟩
      · rintro ⟨m, ⟨heq, -⟩, h2⟩
        rw [heq]
        exact h2
  | cons e rest ih =>
      intro es2 s t
      constructor
      · intro h
        obtain ⟨m, hm1, hm2⟩ := (ih es2 (e.«to») t).mp h.2.2.2
        exact ⟨m, ⟨h.1, h.2.1, h.2.2.1, hm1⟩, hm2⟩
      · rintro ⟨m, ⟨h1, h2, h3, h4⟩, h5⟩
        exact ⟨h1, h2, h3, (ih es2 (e.«to») t).mpr ⟨m, h4, h5⟩⟩

theorem isPath_snoc (G : Graph) (es : List EdgeDef) (s m : String) (e : EdgeDef)
    (h : IsPath G s es m) (he : e ∈ G.edges) (hf : e.«from» = m)
    (ht : e.«to» ∈ nodeIds G) : IsPath G s (es ++ [e]) (e.«to») := by
  rw [isPath_append]
  exact ⟨m, h, he, hf, isPath_target_mem G es s m h, rfl, ht⟩

theorem pathCost_nil : pathCost [] = 0 := rfl

theorem pathCost_append (es1 es2 : List EdgeDef) :
    pathCost (es1 ++ es2) = pathCost es1 + pathCost es2 := by
  unfold pathCost
  rw [List.map_append, List.sum_append]

theorem pathCost_cons (e : EdgeDef) (es : List EdgeDef) :
    pathCost (e :: es) = weightOf e + pathCost es := by
  unfold pathCost
  rw [List.map_cons, List.sum_cons]

theorem pathCost_nonneg (G : Graph) (hw : ∀ e ∈ G.edges, 0 ≤ weightOf e)
    (es : List EdgeDef) (hes : ∀ e ∈ es, e ∈ G.edges) : 0 ≤ pathCost es := by
  induction es with
  | nil => exact le_refl 0
  | cons e rest ih =>
      rw [pathCost_cons]
      have h1 := hw e (hes e (List.mem_cons_self _ _))
      have h2 := ih (fun e2 he2 => hes e2 (List.mem_cons_of_mem _ he2))
      linarith

/-! ### The extract-min scan -/

/-- Invariant of the running best of the extract-min scan. -/
def AccOk (dist : String → WithTop ℚ) (acc : Option String × WithTop ℚ) : Prop :=
  (acc.1 = none ∧ acc.2 = ⊤) ∨ (∃ w, acc.1 = some w ∧ dist w = acc.2 ∧ acc.2 < ⊤)

theorem findMinGo_spec (dist : String → WithTop ℚ) :
    ∀ (l : List String) (acc : Option String × WithTop ℚ), AccOk dist acc →
      AccOk dist (findMinGo dist l acc) ∧
      (findMinGo dist l acc).2 ≤ acc.2 ∧
      (∀ v ∈ l, (findMinGo dist l acc).2 ≤ dist v) ∧
      ((findMinGo dist l acc).1 = acc.1 ∨ ∃ w ∈ l, (findMinGo dist l acc).1 = some w) := by
  intro l
  induction l with
  | nil =>
      intro acc h
      exact ⟨h, le_refl _, fun v hv => absurd hv (List.not_mem_nil v), Or.inl rfl⟩
  | cons v rest ih =>
      intro acc h
      rw [findMinGo]
      by_cases hlt : dist v < acc.2
      · rw [if_pos hlt]
        have hok : AccOk dist (some v, dist v) := by
          refine Or.inr ⟨v, rfl, rfl, ?_⟩
          calc dist v < acc.2 := hlt
            _ ≤ ⊤ := le_top
        obtain ⟨a1, a2, a3, a4⟩ := ih (some v, dist v) hok
        refine ⟨a1, le_trans a2 (le_of_lt hlt), ?_, ?_⟩
        · intro w hw
          rcases List.mem_cons.mp hw with heq | hmem
          · rw [heq]; exact a2
          · exact a3 w hmem
        · rcases a4 with heq | ⟨w, hw, hsome⟩
          · exact Or.inr ⟨v, List.mem_cons_self _ _, heq⟩
          · exact Or.inr ⟨w, List.mem_cons_of_mem _ hw, hsome⟩
      · rw [if_neg hlt]
        obtain ⟨a1, a2, a3, a4⟩ := ih acc h
        refine ⟨a1, a2, ?_, ?_⟩
        · intro w hw
          rcases List.mem_cons.mp hw with heq | hmem
          · rw [heq]
            exact le_trans a2 (not_lt.mp hlt)
          · exact a3 w hmem
        · rcases a4 with heq | ⟨w, hw, hsome⟩
          · exact Or.inl heq
          · exact Or.inr ⟨w, List.mem_cons_of_mem _ hw, hsome⟩

theorem findMin_some (dist : String → WithTop ℚ) (pq : List String) (u : String)
    (h : findMin dist pq = some u) :
    u ∈ pq ∧ dist u ≠ ⊤ ∧ ∀ v ∈ pq, dist u ≤ dist v := by
  obtain ⟨a1, -, a3, a4⟩ := findMinGo_spec dist pq (none, ⊤) (Or.inl ⟨rfl, rfl⟩)
  unfold findMin at h
  rcases a1 with ⟨h1, -⟩ | ⟨w, h1, h2, h3⟩
  · rw [h] at h1
    exact absurd h1 (by simp)
  · rw [h] at h1
    have hwu : w = u := Option.some.inj h1.symm
    subst hwu
    have hdu : dist w ≠ ⊤ := by
      rw [h2]
      exact ne_top_of_lt h3
    refine ⟨?_, hdu, ?_⟩
    · rcases a4 with heq | ⟨w2, hw2, hsome⟩
      · rw [h] at heq
        exact absurd heq (by simp)
      · rw [h] at hsome
        rw [Option.some.inj hsome]
        exact hw2
    · intro v hv
      rw [h2]
      exact a3 v hv

theorem findMin_none (dist : String → WithTop ℚ) (pq : List String)
    (h : findMin dist pq = none) : ∀ v ∈ pq, dist v = ⊤ := by
  obtain ⟨a1, -, a3, -⟩ := findMinGo_spec dist pq (none, ⊤) (Or.inl ⟨rfl, rfl⟩)
  unfold findMin at h
  intro v hv
  rcases a1 with ⟨-, h2⟩ | ⟨w, h1, -, -⟩
  · have := a3 v hv
    rw [h2] at this
    exact top_le_iff.mp this
  · rw [h] at h1
    exact absurd h1 (by simp)

/-! ### Relaxation lemmas -/

/-- Achievability: every finite tentative distance is realized by a path. -/
def ReachInv (G : Graph) (source : String) (st : DState) : Prop :=
  ∀ v, st.dist v ≠ ⊤ → ∃ es, IsPath G source es v ∧ st.dist v = (pathCost es : WithTop ℚ)

theorem relaxEdge_prev (u : String) (pq2 : List String) (st : DState) (e : EdgeDef)
    (v : String) (hv : v ∉ pq2) : (relaxEdge u pq2 st e).prev v = st.prev v := by
  unfold relaxEdge
  by_cases hmem : e.«to» ∈ pq2
  · rw [if_pos hmem]
    by_cases hlt : st.dist u + (weightOf e : WithTop ℚ) < st.dist e.«to»
    · rw [if_pos hlt]
      show (if v = e.«to» then some (u, e.id) else st.prev v) = st.prev v
      rw [if_neg (fun h => hv (by rw [h]; exact hmem))]
    · rw [if_neg hlt]
  · rw [if_neg hmem]

theorem relaxEdge_dist_cases (u : String) (pq2 : List String) (st : DState)
    (e : EdgeDef) (v : String) :
    (relaxEdge u pq2 st e).dist v = st.dist v ∨
      (v = e.«to» ∧ e.«to» ∈ pq2 ∧
        (relaxEdge u pq2 st e).dist v = st.dist u + (weightOf e : WithTop ℚ) ∧
        st.dist u + (weightOf e : WithTop ℚ) < st.dist v) := by
  unfold relaxEdge
  by_cases hmem : e.«to» ∈ pq2
  · rw [if_pos hmem]
    by_cases hlt : st.dist u + (weightOf e : WithTop ℚ) < st.dist e.«to»
    · rw [if_pos hlt]
      by_cases hve : v = e.«to»
      · refine Or.inr ⟨hve, hmem, ?_, ?_⟩
        · show (if v = e.«to» then st.dist u + (weightOf e : WithTop ℚ) else st.dist v) =
            st.dist u + (weightOf e : WithTop ℚ)
          rw [if_pos hve]
        · rw [hve]
          exact hlt
      · refine Or.inl ?_
        show (if v = e.«to» then st.dist u + (weightOf e : WithTop ℚ) else st.dist v) =
          st.dist v
        rw [if_neg hve]
    · rw [if_neg hlt]
      exact Or.inl rfl
  · rw [if_neg hmem]
    exact Or.inl rfl

theorem relaxEdge_dist_le (u : String) (pq2 : List String) (st : DState)
    (e : EdgeDef) (v : String) : (relaxEdge u pq2 st e).dist v ≤ st.dist v := by
  rcases relaxEdge_dist_cases u pq2 st e v with h | ⟨-, -, h1, h2⟩
  · rw [h]
  · rw [h1]
    exact le_of_lt h2

theorem relaxEdge_dist_of_not_mem (u : String) (pq2 : List String) (st : DState)
    (e : EdgeDef) (v : String) (hv : v ∉ pq2) :
    (relaxEdge u pq2 st e).dist v = st.dist v := by
  rcases relaxEdge_dist_cases u pq2 st e v with h | ⟨hve, hmem, -, -⟩
  · exact h
  · exact absurd (hve ▸ hmem) hv

theorem relaxEdge_bound (u : String) (pq2 : List String) (st : DState)
    (e : EdgeDef) (hmem : e.«to» ∈ pq2) :
    (relaxEdge u pq2 st e).dist e.«to» ≤ st.dist u + (weightOf e : WithTop ℚ) := by
  unfold relaxEdge
  rw [if_pos hmem]
  by_cases hlt : st.dist u + (weightOf e : WithTop ℚ) < st.dist e.«to»
  · rw [if_pos hlt]
    show (if e.«to» = e.«to» then st.dist u + (weightOf e : WithTop ℚ) else st.dist e.«to») ≤
      st.dist u + (weightOf e : WithTop ℚ)
    rw [if_pos rfl]
  · rw [if_neg hlt]
    exact not_lt.mp hlt

theorem relaxEdge_reachInv (G : Graph) (source u : String) (pq2 : List String)
    (hsub : ∀ v ∈ pq2, v ∈ nodeIds G) (st : DState) (e : EdgeDef)
    (he : e ∈ G.edges) (hf : e.«from» = u)
    (hA : ReachInv G source st) : ReachInv G source (relaxEdge u pq2 st e) := by
  intro v hv
  rcases relaxEdge_dist_cases u pq2 st e v with h | ⟨hve, hmem, h1, -⟩
  · rw [h] at hv ⊢
    exact hA v hv
  · rw [h1] at hv ⊢
    have hu : st.dist u ≠ ⊤ := by
      intro htop
      rw [htop, top_add] at hv
      exact hv rfl
    obtain ⟨es, hp, hc⟩ := hA u hu
    refine ⟨es ++ [e], ?_, ?_⟩
    · rw [hve]
      exact isPath_snoc G es source u e hp he hf (hsub _ hmem)
    · rw [hc, pathCost_append, pathCost_cons, pathCost_nil, add_zero, WithTop.coe_add]

theorem relaxList_dist_le (u : String) (pq2 : List String) :
    ∀ (l : List EdgeDef) (st : DState) (v : String),
      (l.foldl (relaxEdge u pq2) st).dist v ≤ st.dist v := by
  intro l
  induction l with
  | nil => intro st v; exact le_refl _
  | cons e rest ih =>
      intro st v
      rw [List.foldl_cons]
      exact le_trans (ih _ v) (relaxEdge_dist_le u pq2 st e v)

theorem relaxList_dist_of_not_mem (u : String) (pq2 : List String) :
    ∀ (l : List EdgeDef) (st : DState) (v : String), v ∉ pq2 →
      (l.foldl (relaxEdge u pq2) st).dist v = st.dist v := by
  intro l
  induction l with
  | nil => intro st v _; rfl
  | cons e rest ih =>
      intro st v hv
      rw [List.foldl_cons, ih (relaxEdge u pq2 st e) v hv,
        relaxEdge_dist_of_not_mem u pq2 st e v hv]

theorem relaxList_prev_of_not_mem (u : String) (pq2 : List String) :
    ∀ (l : List EdgeDef) (st : DState) (v : String), v ∉ pq2 →
      (l.foldl (relaxEdge u pq2) st).prev v = st.prev v := by
  intro l
  induction l with
  | nil => intro st v _; rfl
  | cons e rest ih =>
      intro st v hv
      rw [List.foldl_cons, ih (relaxEdge u pq2 st e) v hv,
        relaxEdge_prev u pq2 st e v hv]

theorem relaxList_bound (u : String) (pq2 : List String) (hu : u ∉ pq2) :
    ∀ (l : List EdgeDef) (st : DState), ∀ e ∈ l, e.«to» ∈ pq2 →
      (l.foldl (relaxEdge u pq2) st).dist (e.«to») ≤
        (l.foldl (relaxEdge u pq2) st).dist u + (weightOf e : WithTop ℚ) := by
  intro l
  induction l with
  | nil => intro st e he; exact absurd he (List.not_mem_nil e)
  | cons e0 rest ih =>
      intro st e he hmem
      rw [List.foldl_cons]
      rcases List.mem_cons.mp he with heq | hrest
      · subst heq
        have h1 : (rest.foldl (relaxEdge u pq2) (relaxEdge u pq2 st e)).dist (e.«to») ≤
            (relaxEdge u pq2 st e).dist (e.«to») := relaxList_dist_le u pq2 rest _ _
        have h2 := relaxEdge_bound u pq2 st e hmem
        have h3 : (rest.foldl (relaxEdge u pq2) (relaxEdge u pq2 st e)).dist u =
            st.dist u := by
          rw [relaxList_dist_of_not_mem u pq2 rest _ u hu,
            relaxEdge_dist_of_not_mem u pq2 st e u hu]
        rw [h3]
        exact le_trans h1 h2
      · exact ih (relaxEdge u pq2 st e0) e hrest hmem

theorem relaxList_reachInv (G : Graph) (source u : String) (pq2 : List String)
    (hsub : ∀ v ∈ pq2, v ∈ nodeIds G) :
    ∀ (l : List EdgeDef), (∀ e ∈ l, e ∈ G.edges ∧ e.«from» = u) →
      ∀ st, ReachInv G source st → ReachInv G source (l.foldl (relaxEdge u pq2) st) := by
  intro l
  induction l with
  | nil => intro _ st hA; exact hA
  | cons e rest ih =>
      intro hl st hA
      rw [List.foldl_cons]
      refine ih (fun e2 he2 => hl e2 (List.mem_cons_of_mem _ he2)) _ ?_
      obtain ⟨he, hf⟩ := hl e (List.mem_cons_self _ _)
      exact relaxEdge_reachInv G source u pq2 hsub st e he hf hA

theorem mem_filter_from (G : Graph) (u : String) (e : EdgeDef)
    (he : e ∈ G.edges.filter (fun e => e.«from» = u)) :
    e ∈ G.edges ∧ e.«from» = u := by
  obtain ⟨h1, h2⟩ := List.mem_filter.mp he
  exact ⟨h1, of_decide_eq_true h2⟩

theorem relaxAll_dist_le (G : Graph) (u : String) (pq2 : List String) (st : DState)
    (v : String) : (relaxAll G u pq2 st).dist v ≤ st.dist v :=
  relaxList_dist_le u pq2 _ st v

theorem relaxAll_dist_of_not_mem (G : Graph) (u : String) (pq2 : List String)
    (st : DState) (v : String) (hv : v ∉ pq2) :
    (relaxAll G u pq2 st).dist v = st.dist v :=
  relaxList_dist_of_not_mem u pq2 _ st v hv

theorem relaxAll_reachInv (G : Graph) (source u : String) (pq2 : List String)
    (hsub : ∀ v ∈ pq2, v ∈ nodeIds G) (st : DState)
    (hA : ReachInv G source st) : ReachInv G source (relaxAll G u pq2 st) :=
  relaxList_reachInv G source u pq2 hsub _
    (fun e he => mem_filter_from G u e he) st hA

theorem relaxAll_bound (G : Graph) (u : String) (pq2 : List String) (hu : u ∉ pq2)
    (st : DState) (e : EdgeDef) (he : e ∈ G.edges) (hf : e.«from» = u)
    (hmem : e.«to» ∈ pq2) :
    (relaxAll G u pq2 st).dist (e.«to») ≤
      (relaxAll G u pq2 st).dist u + (weightOf e : WithTop ℚ) := by
  refine relaxList_bound u pq2 hu _ st e ?_ hmem
  exact List.mem_filter.mpr ⟨he, decide_eq_true hf⟩

/-! ### The loop invariant -/

/-- A node already extracted from the frontier. -/
def Settled (G : Graph) (pq : List String) (x : String) : Prop :=
  x ∈ nodeIds G ∧ x ∉ pq

/-- The Dijkstra loop invariant: the frontier is a duplicate-free subset
of the node set, the source's tentative distance never exceeds 0, every
finite distance is achieved by a path, settled nodes carry optimal
distances, and every edge out of a settled node is relaxed. -/
structure DInv (G : Graph) (source : String) (pq : List String) (st : DState) : Prop where
  nodup : pq.Nodup
  sub : ∀ v ∈ pq, v ∈ nodeIds G
  src : st.dist source ≤ 0
  reach : ReachInv G source st
  opt : ∀ x, Settled G pq x → ∀ es, IsPath G source es x →
    st.dist x ≤ (pathCost es : WithTop ℚ)
  relaxed : ∀ x, Settled G pq x → ∀ e ∈ G.edges, e.«from» = x → e.«to» ∈ nodeIds G →
    st.dist e.«to» ≤ st.dist x + (weightOf e : WithTop ℚ)

theorem settled_path_bound (G : Graph) (source : String) (pq : List String)
    (st : DState) (hsrc : st.dist source ≤ 0)
    (hrel : ∀ x, Settled G pq x → ∀ e ∈ G.edges, e.«from» = x → e.«to» ∈ nodeIds G →
      st.dist e.«to» ≤ st.dist x + (weightOf e : WithTop ℚ)) :
    ∀ (es : List EdgeDef) (v : String), IsPath G source es v →
      (∀ e ∈ es, Settled G pq (e.«from»)) → st.dist v ≤ (pathCost es : WithTop ℚ) := by
  intro es
  induction es using List.reverseRecOn with
  | nil =>
      intro v hp _
      rw [pathCost_nil, WithTop.coe_zero]
      rw [← hp.1]
      exact hsrc
  | append_singleton es e ih =>
      intro v hp hs
      obtain ⟨m, hp1, hp2⟩ := (isPath_append G es [e] source v).mp hp
      obtain ⟨he, hf, -, htv, hto⟩ := hp2
      have h1 : st.dist m ≤ (pathCost es : WithTop ℚ) :=
        ih m hp1 (fun e2 he2 => hs e2 (List.mem_append_left _ he2))
      have hsm : Settled G pq m := by
        rw [← hf]
        exact hs e (List.mem_append_right _ (List.mem_singleton_self e))
      have h2 := hrel m hsm e he hf hto
      rw [← htv]
      calc st.dist e.«to» ≤ st.dist m + (weightOf e : WithTop ℚ) := h2
        _ ≤ (pathCost es : WithTop ℚ) + (weightOf e : WithTop ℚ) :=
          add_le_add_right h1 _
        _ = ((pathCost es + weightOf e : ℚ) : WithTop ℚ) := (WithTop.coe_add _ _).symm
        _ = (pathCost (es ++ [e]) : WithTop ℚ) := by
          rw [pathCost_append, pathCost_cons, pathCost_nil, add_zero]

theorem path_settled_or_crossing (G : Graph) (pq : List String) :
    ∀ (es : List EdgeDef) (s v : String), IsPath G s es v →
      (∀ e ∈ es, Settled G pq (e.«from»)) ∨
      ∃ es1 e2 es2, es = es1 ++ e2 :: es2 ∧ (∀ e ∈ es1, Settled G pq (e.«from»)) ∧
        ¬ Settled G pq (e2.«from») ∧ IsPath G s es1 (e2.«from») := by
  intro es
  induction es with
  | nil =>
      intro s v _
      exact Or.inl (fun e he => absurd he (List.not_mem_nil e))
  | cons e rest ih =>
      intro s v hp
      obtain ⟨he, hf, hs, hrest⟩ := hp
      by_cases hse : Settled G pq (e.«from»)
      · rcases ih (e.«to») v hrest with hall | ⟨es1, e2, es2, heq, hs1, hns, hp1⟩
        · refine Or.inl ?_
          intro e2 he2
          rcases List.mem_cons.mp he2 with heq | hmem
          · rw [heq]; exact hse
          · exact hall e2 hmem
        · refine Or.inr ⟨e :: es1, e2, es2, by rw [heq, List.cons_append], ?_, hns, ?_⟩
          · intro e3 he3
            rcases List.mem_cons.mp he3 with heq3 | hmem3
            · rw [heq3]; exact hse
            · exact hs1 e3 hmem3
          · exact ⟨he, hf, hs, hp1⟩
      · refine Or.inr ⟨[], e, rest, rfl, fun e2 he2 => absurd he2 (List.not_mem_nil e2),
          hse, ?_⟩
        rw [hf]
        exact ⟨rfl, hf ▸ hs⟩

theorem extract_opt (G : Graph) (source : String)
    (hw : ∀ e ∈ G.edges, 0 ≤ weightOf e) (pq : List String) (st : DState)
    (inv : DInv G source pq st) (u : String) (hu : findMin st.dist pq = some u) :
    ∀ es, IsPath G source es u → st.dist u ≤ (pathCost es : WithTop ℚ) := by
  intro es hp
  obtain ⟨-, -, hmin⟩ := findMin_some _ _ _ hu
  rcases path_settled_or_crossing G pq es source u hp with
    hall | ⟨es1, e2, es2, heq, hs1, hns, hp1⟩
  · exact settled_path_bound G source pq st inv.src inv.relaxed es u hp hall
  · have hy_nodes : e2.«from» ∈ nodeIds G := isPath_target_mem G es1 source _ hp1
    have hy_pq : e2.«from» ∈ pq := by
      by_contra hnot
      exact hns ⟨hy_nodes, hnot⟩
    have h1 : st.dist u ≤ st.dist (e2.«from») := hmin _ hy_pq
    have h2 : st.dist (e2.«from») ≤ (pathCost es1 : WithTop ℚ) :=
      settled_path_bound G source pq st inv.src inv.relaxed es1 _ hp1 hs1
    have h3 : pathCost es1 ≤ pathCost es := by
      rw [heq, pathCost_append]
      have hnn : 0 ≤ pathCost (e2 :: es2) := by
        refine pathCost_nonneg G hw _ ?_
        intro e3 he3
        refine isPath_edges_mem G es source u hp e3 ?_
        rw [heq]
        exact List.mem_append_right _ he3
      linarith
    calc st.dist u ≤ (pathCost es1 : WithTop ℚ) := le_trans h1 h2
      _ ≤ (pathCost es : WithTop ℚ) := WithTop.coe_le_coe.mpr h3

theorem dloop_step_inv (G : Graph) (source : String)
    (hw : ∀ e ∈ G.edges, 0 ≤ weightOf e) (pq : List String) (st : DState)
    (u : String) (inv : DInv G source pq st) (hu : findMin st.dist pq = some u) :
    DInv G source (pq.erase u) (relaxAll G u (pq.erase u) st) := by
  obtain ⟨humem, hufin, hmin⟩ := findMin_some _ _ _ hu
  have hu_nodes : u ∈ nodeIds G := inv.sub u humem
  have hu_not_erase : u ∉ pq.erase u :=
    fun h => ((inv.nodup.mem_erase_iff).mp h).1 rfl
  have hsub2 : ∀ v ∈ pq.erase u, v ∈ nodeIds G :=
    fun v hv => inv.sub v (List.mem_of_mem_erase hv)
  have hdist_u : (relaxAll G u (pq.erase u) st).dist u = st.dist u :=
    relaxAll_dist_of_not_mem G u _ st u hu_not_erase
  have hnot_pq_of : ∀ x, x ∉ pq.erase u → x ≠ u → x ∉ pq := by
    intro x hx hxu hxpq
    exact hx ((List.mem_erase_of_ne hxu).mpr hxpq)
  refine ⟨inv.nodup.erase u, hsub2, ?_, ?_, ?_, ?_⟩
  · exact le_trans (relaxAll_dist_le G u _ st source) inv.src
  · exact relaxAll_reachInv G source u _ hsub2 st inv.reach
  · intro x hx es hp
    by_cases hxu : x = u
    · subst hxu
      rw [hdist_u]
      exact extract_opt G source hw pq st inv x hu es hp
    · have hxpq : x ∉ pq := hnot_pq_of x hx.2 hxu
      rw [relaxAll_dist_of_not_mem G u _ st x hx.2]
      exact inv.opt x ⟨hx.1, hxpq⟩ es hp
  · intro x hx e he hf hto_nodes
    by_cases hxu : x = u
    · subst hxu
      rw [hdist_u]
      by_cases hto : e.«to» ∈ pq.erase x
      · have := relaxAll_bound G x _ hu_not_erase st e he hf hto
        rw [hdist_u] at this
        exact this
      · have hto_eq : (relaxAll G x (pq.erase x) st).dist (e.«to») = st.dist (e.«to») :=
          relaxAll_dist_of_not_mem G x _ st _ hto
        rw [hto_eq]
        by_cases htou : e.«to» = x
        · rw [htou]
          exact le_add_of_nonneg_right (by exact_mod_cast hw e he)
        · have hto_pq : e.«to» ∉ pq := hnot_pq_of _ hto htou
          obtain ⟨es1, hp1, hc1⟩ := inv.reach x hufin
          have hsnoc : IsPath G source (es1 ++ [e]) (e.«to») :=
            isPath_snoc G es1 source x e hp1 he hf hto_nodes
          have := inv.opt (e.«to») ⟨hto_nodes, hto_pq⟩ (es1 ++ [e]) hsnoc
          calc st.dist e.«to» ≤ (pathCost (es1 ++ [e]) : WithTop ℚ) := this
            _ = (pathCost es1 : WithTop ℚ) + (weightOf e : WithTop ℚ) := by
              rw [pathCost_append, pathCost_cons, pathCost_nil, add_zero, WithTop.coe_add]
            _ = st.dist x + (weightOf e : WithTop ℚ) := by rw [hc1]
    · have hxpq : x ∉ pq := hnot_pq_of x hx.2 hxu
      have h1 := inv.relaxed x ⟨hx.1, hxpq⟩ e he hf hto_nodes
      rw [relaxAll_dist_of_not_mem G u _ st x hx.2]
      exact le_trans (le_trans (relaxAll_dist_le G u _ st _) h1) (le_refl _)

theorem dloop_post (G : Graph) (source target : String)
    (hw : ∀ e ∈ G.edges, 0 ≤ weightOf e) (hno : "" ∉ nodeIds G)
    (ht : target ∈ nodeIds G) :
    ∀ (fuel : ℕ) (pq : List String) (st : DState), fuel = pq.length →
      DInv G source pq st →
      ReachInv G source (dloop G target fuel pq st) ∧
      ∀ es, IsPath G source es target →
        (dloop G target fuel pq st).dist target ≤ (pathCost es : WithTop ℚ) := by
  intro fuel
  induction fuel with
  | zero =>
      intro pq st hlen inv
      have hpq : pq = [] := List.length_eq_zero.mp hlen.symm
      subst hpq
      have hstep : dloop G target 0 [] st = st := by rw [dloop]
      rw [hstep]
      exact ⟨inv.reach, fun es hp =>
        inv.opt target ⟨ht, List.not_mem_nil target⟩ es hp⟩
  | succ fuel ih =>
      intro pq st hlen inv
      cases hfm : findMin st.dist pq with
      | none =>
          have hstep : dloop G target (fuel + 1) pq st = st := by rw [dloop, hfm]
          rw [hstep]
          refine ⟨inv.reach, ?_⟩
          intro es hp
          rcases path_settled_or_crossing G pq es source target hp with
            hall | ⟨es1, e2, es2, heq, hs1, hns, hp1⟩
          · exact settled_path_bound G source pq st inv.src inv.relaxed es target hp hall
          · have hy_nodes : e2.«from» ∈ nodeIds G := isPath_target_mem G es1 source _ hp1
            have hy_pq : e2.«from» ∈ pq := by
              by_contra hnot
              exact hns ⟨hy_nodes, hnot⟩
            have hy_top : st.dist (e2.«from») = ⊤ := findMin_none _ _ hfm _ hy_pq
            have h2 : st.dist (e2.«from») ≤ (pathCost es1 : WithTop ℚ) :=
              settled_path_bound G source pq st inv.src inv.relaxed es1 _ hp1 hs1
            rw [hy_top] at h2
            exact absurd (top_le_iff.mp h2) WithTop.coe_ne_top
      | some u =>
          obtain ⟨humem, -, -⟩ := findMin_some _ _ _ hfm
          have hune : u ≠ "" := by
            intro h
            rw [h] at humem
            exact hno (inv.sub _ humem)
          have hstep : dloop G target (fuel + 1) pq st =
              if u = target then st
              else dloop G target fuel (pq.erase u) (relaxAll G u (pq.erase u) st) := by
            rw [dloop, hfm]
            exact if_neg hune
          by_cases hut : u = target
          · rw [hstep, if_pos hut]
            subst hut
            exact ⟨inv.reach, extract_opt G source hw pq st inv u hfm⟩
          · rw [hstep, if_neg hut]
            have hlen2 : fuel = (pq.erase u).length := by
              rw [List.length_erase_of_mem humem]
              omega
            exact ih (pq.erase u) (relaxAll G u (pq.erase u) st) hlen2
              (dloop_step_inv G source hw pq st u inv hfm)

theorem dloop_reach (G : Graph) (source target : String) :
    ∀ (fuel : ℕ) (pq : List String) (st : DState), pq.Nodup →
      (∀ v ∈ pq, v ∈ nodeIds G) → ReachInv G source st →
      ReachInv G source (dloop G target fuel pq st) := by
  intro fuel
  induction fuel with
  | zero =>
      intro pq st _ _ hA
      rw [dloop]
      exact hA
  | succ fuel ih =>
      intro pq st hnd hsub hA
      cases hfm : findMin st.dist pq with
      | none =>
          have hstep : dloop G target (fuel + 1) pq st = st := by rw [dloop, hfm]
          rw [hstep]
          exact hA
      | some u =>
          by_cases hue : u = ""
          · have hstep : dloop G target (fuel + 1) pq st = st := by
              rw [dloop, hfm]
              exact if_pos hue
            rw [hstep]
            exact hA
          · have hstep : dloop G target (fuel + 1) pq st =
                if u = target then st
                else dloop G target fuel (pq.erase u) (relaxAll G u (pq.erase u) st) := by
              rw [dloop, hfm]
              exact if_neg hue
            rw [hstep]
            by_cases hut : u = target
            · rw [if_pos hut]
              exact hA
            · rw [if_neg hut]
              have hsub2 : ∀ v ∈ pq.erase u, v ∈ nodeIds G :=
                fun v hv => hsub v (List.mem_of_mem_erase hv)
              exact ih (pq.erase u) _ (hnd.erase u) hsub2
                (relaxAll_reachInv G source u _ hsub2 st hA)

/-! ### Initialization and assembled results -/

/-- The initial state: distance `0` at the source, `Infinity` elsewhere,
no predecessors. -/
def dInit (source : String) : DState :=
  { dist := fun v => if v = source then (0 : WithTop ℚ) else ⊤,
    prev := fun _ => none }

theorem init_inv (G : Graph) (source : String) (hs : source ∈ nodeIds G) :
    DInv G source (nodeIds G) (dInit source) := by
  refine ⟨nodeIds_nodup G, fun v hv => hv, ?_, ?_, ?_, ?_⟩
  · show (if source = source then (0 : WithTop ℚ) else ⊤) ≤ 0
    rw [if_pos rfl]
  · intro v hv
    have hv2 : (if v = source then (0 : WithTop ℚ) else ⊤) ≠ ⊤ := hv
    by_cases hvs : v = source
    · refine ⟨[], ?_, ?_⟩
      · exact ⟨hvs.symm, hvs ▸ hs⟩
      · show (if v = source then (0 : WithTop ℚ) else ⊤) = (pathCost [] : WithTop ℚ)
        rw [if_pos hvs, pathCost_nil, WithTop.coe_zero]
    · rw [if_neg hvs] at hv2
      exact absurd rfl hv2
  · intro x hx es _
    exact absurd hx.1 hx.2
  · intro x hx e _ _ _
    exact absurd hx.1 hx.2

theorem dijkstra_eq_of_mem (G : Graph) (source target : String)
    (hs : source ∈ nodeIds G) (ht : target ∈ nodeIds G) :
    dijkstra G source target =
      if (dloop G target (nodeIds G).length (nodeIds G) (dInit source)).dist target = ⊤
      then .ok ⟨none, ⊤⟩
      else .ok ⟨some (reconstructPath G
          (dloop G target (nodeIds G).length (nodeIds G) (dInit source)).prev target),
        (dloop G target (nodeIds G).length (nodeIds G) (dInit source)).dist target⟩ := by
  unfold dijkstra
  rw [if_neg (not_not_intro hs), if_neg (not_not_intro ht)]
  rfl

theorem findMinGo_init_keep (s : String) :
    ∀ (l : List String), s ∉ l →
      findMinGo (fun v => if v = s then (0 : WithTop ℚ) else ⊤) l (some s, 0) =
        (some s, 0) := by
  intro l
  induction l with
  | nil => intro _; rfl
  | cons v rest ih =>
      intro hs
      have hvs : ¬ v = s := fun h => hs (h ▸ List.mem_cons_self v rest)
      simp only [findMinGo]
      rw [if_neg hvs, if_neg not_top_lt]
      exact ih (fun h => hs (List.mem_cons_of_mem v h))

theorem findMinGo_init_mem (s : String) :
    ∀ (l : List String), s ∈ l → l.Nodup →
      findMinGo (fun v => if v = s then (0 : WithTop ℚ) else ⊤) l (none, ⊤) =
        (some s, 0) := by
  intro l
  induction l with
  | nil => intro h _; exact absurd h (List.not_mem_nil s)
  | cons v rest ih =>
      intro hmem hnd
      by_cases hvs : v = s
      · simp only [findMinGo]
        rw [if_pos hvs]
        have h0t : (0 : WithTop ℚ) < ⊤ := WithTop.coe_lt_top 0
        rw [if_pos h0t, hvs]
        refine findMinGo_init_keep s rest ?_
        rw [← hvs]
        exact (List.nodup_cons.mp hnd).1
      · simp only [findMinGo]
        rw [if_neg hvs, if_neg not_top_lt]
        have hmem2 : s ∈ rest := by
          rcases List.mem_cons.mp hmem with h | h
          · exact absurd h.symm hvs
          · exact h
        exact ih hmem2 (List.nodup_cons.mp hnd).2

theorem findMin_init (s : String) (l : List String) (h : s ∈ l) (hnd : l.Nodup) :
    findMin (fun v => if v = s then (0 : WithTop ℚ) else ⊤) l = some s := by
  unfold findMin
  rw [findMinGo_init_mem s l h hnd]

/-- C10: for every graph and every node id `s` present in it — other than
the empty string, which the loop's falsy `if (!u) break` guard and the
falsy `while (cur)` reconstruction guard treat as a missing node —
`dijkstra(G, s, s)` returns distance `0` and the one-node path
`{nodes: [s], edges: []}` without traversing any edge. -/
theorem dijkstra_self (G : Graph) (s : String) (hs : s ∈ nodeIds G) (hne : s ≠ "") :
    dijkstra G s s = .ok ⟨some ⟨[s], []⟩, (0 : WithTop ℚ)⟩ := by
  have hv := dijkstra_eq_of_mem G s s hs hs
  cases hnl : nodeIds G with
  | nil =>
      rw [hnl] at hs
      exact absurd hs (List.not_mem_nil s)
  | cons x xs =>
      have hfm : findMin (dInit s).dist (x :: xs) = some s := by
        rw [← hnl]
        exact findMin_init s (nodeIds G) hs (nodeIds_nodup G)
      have hlen : (nodeIds G).length = xs.length + 1 := by rw [hnl]; rfl
      have hdl : dloop G s (nodeIds G).length (nodeIds G) (dInit s) = dInit s := by
        rw [hlen, hnl, dloop, hfm]
        show (if s = "" then dInit s
          else if s = s then dInit s
          else dloop G s xs.length ((x :: xs).erase s)
            (relaxAll G s ((x :: xs).erase s) (dInit s))) = dInit s
        rw [if_neg hne, if_pos rfl]
      rw [hdl] at hv
      have hd0 : (dInit s).dist s = (0 : WithTop ℚ) := by
        show (if s = s then (0 : WithTop ℚ) else ⊤) = 0
        rw [if_pos rfl]
      rw [hd0] at hv
      have h0t : (0 : WithTop ℚ) ≠ ⊤ := by simp
      rw [if_neg h0t] at hv
      have hrp : reconstructPath G (dInit s).prev s = ⟨[s], []⟩ := by
        unfold reconstructPath
        rw [hlen, reconstructGo, if_neg hne]
        rfl
      rw [hrp] at hv
      exact hv

/-- C7: `dijkstra(G, source, target)` raises an unknown-node error exactly
when the source or the target id is absent from the node set; when both
are present and the target is unreachable, it does not raise but returns
`path = null` and `distance = Infinity`. -/
theorem dijkstra_error_spec (G : Graph) (s t : String) :
    ((∃ msg, dijkstra G s t = .error msg) ↔ (s ∉ nodeIds G ∨ t ∉ nodeIds G)) ∧
    (s ∈ nodeIds G → t ∈ nodeIds G → ¬ Reachable G s t →
      dijkstra G s t = .ok ⟨none, ⊤⟩) := by
  constructor
  · constructor
    · rintro ⟨msg, hmsg⟩
      by_cases h1 : s ∈ nodeIds G
      · by_cases h2 : t ∈ nodeIds G
        · rw [dijkstra_eq_of_mem G s t h1 h2] at hmsg
          by_cases hc : (dloop G t (nodeIds G).length (nodeIds G) (dInit s)).dist t = ⊤
          · rw [if_pos hc] at hmsg
            exact Except.noConfusion hmsg
          · rw [if_neg hc] at hmsg
            exact Except.noConfusion hmsg
        · exact Or.inr h2
      · exact Or.inl h1
    · intro h
      by_cases h1 : s ∈ nodeIds G
      · have h2 : t ∉ nodeIds G := by
          rcases h with h | h
          · exact absurd h1 h
          · exact h
        refine ⟨"Target node " ++ t ++ " not found", ?_⟩
        unfold dijkstra
        rw [if_neg (not_not_intro h1), if_pos h2]
      · refine ⟨"Source node " ++ s ++ " not found", ?_⟩
        unfold dijkstra
        rw [if_pos h1]
  · intro h1 h2 hnr
    have hv := dijkstra_eq_of_mem G s t h1 h2
    have hA : ReachInv G s (dloop G t (nodeIds G).length (nodeIds G) (dInit s)) :=
      dloop_reach G s t (nodeIds G).length (nodeIds G) (dInit s)
        (nodeIds_nodup G) (fun v hv => hv) (init_inv G s h1).reach
    have htop : (dloop G t (nodeIds G).length (nodeIds G) (dInit s)).dist t = ⊤ := by
      by_contra hne
      obtain ⟨es, hp, -⟩ := hA t hne
      exact hnr ⟨es, hp⟩
    rw [htop, if_pos rfl] at hv
    exact hv

/-- C1 (amended): when every edge weight (`routing_weight ?? distance`)
is nonnegative and no node id is the empty string, `dijkstra` on a
present, reachable pair returns an `ok` result whose distance is achieved
by a directed path from source to target and is a lower bound on the cost
of every such path — i.e. the minimum path cost.  Without the
nonnegativity condition the early-exit Dijkstra loop is not optimal, and
an empty-string node id can stop the loop early through the falsy
`if (!u) break` guard. -/
theorem dijkstra_shortest (G : Graph) (source target : String)
    (hw : ∀ e ∈ G.edges, 0 ≤ weightOf e) (hno : "" ∉ nodeIds G)
    (hs : source ∈ nodeIds G) (ht : target ∈ nodeIds G)
    (hr : Reachable G source target) :
    ∃ r, dijkstra G source target = .ok r ∧ r.path.isSome = true ∧
      (∃ es, IsPath G source es target ∧ r.distance = (pathCost es : WithTop ℚ)) ∧
      ∀ es, IsPath G source es target → r.distance ≤ (pathCost es : WithTop ℚ) := by
  obtain ⟨hA, hB⟩ := dloop_post G source target hw hno ht (nodeIds G).length
    (nodeIds G) (dInit source) rfl (init_inv G source hs)
  obtain ⟨es0, hp0⟩ := hr
  have hbound := hB es0 hp0
  have hfin : (dloop G target (nodeIds G).length (nodeIds G) (dInit source)).dist
      target ≠ ⊤ := by
    intro h
    rw [h] at hbound
    exact absurd (top_le_iff.mp hbound) WithTop.coe_ne_top
  have hv := dijkstra_eq_of_mem G source target hs ht
  rw [if_neg hfin] at hv
  exact ⟨_, hv, rfl, hA target hfin, hB⟩

/-! ### Concrete routing graphs -/

def eAB : EdgeDef := ⟨some "AB", "A", "B", 5, none, none, none, none⟩

def eBC : EdgeDef := ⟨some "BC", "B", "C", 3, none, none, none, none⟩

def eAC : EdgeDef := ⟨some "AC", "A", "C", 10, none, none, none, none⟩

/-- The three-node graph of the claim: A→B (5), B→C (3), A→C (10). -/
def exG : Graph := ⟨[⟨"A"⟩, ⟨"B"⟩, ⟨"C"⟩], [eAB, eBC, eAC]⟩

def eABn : EdgeDef := ⟨some "AB", "A", "B", 2, none, none, none, none⟩

def eBCn : EdgeDef := ⟨some "BC", "B", "C", -2, none, none, none, none⟩

def eACn : EdgeDef := ⟨some "AC", "A", "C", 1, none, none, none, none⟩

/-- A graph with one negative edge weight: A→B (2), B→C (−2), A→C (1). -/
def negG : Graph := ⟨[⟨"A"⟩, ⟨"B"⟩, ⟨"C"⟩], [eABn, eBCn, eACn]⟩

/-- Two nodes, no edges: `D` is unreachable from `A`. -/
def unreachG : Graph := ⟨[⟨"A"⟩, ⟨"D"⟩], []⟩

def singleG : Graph := ⟨[⟨"Hub"⟩], []⟩

/-- One node whose id is the empty string. -/
def emptyIdG : Graph := ⟨[⟨""⟩], []⟩

instance {ε α : Type} [DecidableEq ε] [DecidableEq α] : DecidableEq (Except ε α)
  | .error a, .error b =>
      if h : a = b then isTrue (by rw [h])
      else isFalse (fun hc => h (by cases hc; rfl))
  | .error _, .ok _ => isFalse (fun hc => Except.noConfusion hc)
  | .ok _, .error _ => isFalse (fun hc => Except.noConfusion hc)
  | .ok a, .ok b =>
      if h : a = b then isTrue (by rw [h])
      else isFalse (fun hc => h (by cases hc; rfl))

section

attribute [local semireducible] Rat.add Rat.sub Rat.mul Rat.inv

/-- C10 witness: on a one-node graph, `dijkstra` from the node to itself
returns distance `0` and path `{nodes: [Hub], edges: []}`. -/
theorem dijkstra_self_witness :
    "Hub" ∈ nodeIds singleG ∧ "Hub" ≠ "" ∧
    dijkstra singleG "Hub" "Hub" = .ok ⟨some ⟨["Hub"], []⟩, (0 : WithTop ℚ)⟩ :=
  ⟨by decide, by decide, dijkstra_self singleG "Hub" (by decide) (by decide)⟩

/-- C10 counterexample: the empty string is a present node id, yet
`dijkstra` from it to itself returns path nodes `[]`, not `[s]`: the JS
`if (!u) break` and `while (cur)` guards are falsy on the empty string. -/
theorem dijkstra_self_counterexample :
    "" ∈ nodeIds emptyIdG ∧
    dijkstra emptyIdG "" "" = .ok ⟨some ⟨[], []⟩, (0 : WithTop ℚ)⟩ ∧
    (⟨[], []⟩ : DijkstraPath) ≠ ⟨[""], []⟩ := by
  refine ⟨by decide, by decide, by decide⟩

/-- C7 witness: `Z` is missing from the three-node graph so `dijkstra`
raises; `D` is present but unreachable in the edgeless graph so
`dijkstra` returns `path = null`, `distance = Infinity`. -/
theorem dijkstra_error_spec_witness :
    (∃ msg, dijkstra exG "A" "Z" = .error msg) ∧
    dijkstra unreachG "A" "D" = .ok ⟨none, ⊤⟩ :=
  ⟨(dijkstra_error_spec exG "A" "Z").1.mpr (Or.inr (by decide)),
   (dijkstra_error_spec unreachG "A" "D").2 (by decide) (by decide)
     (fun hr => by
       obtain ⟨es, hp⟩ := hr
       cases es with
       | nil => exact absurd hp.1 (by decide)
       | cons e rest => exact absurd hp.1 (List.not_mem_nil e))⟩

/-- C1 witness: on the claim's graph the hypotheses hold and `dijkstra`
returns the optimal result; concretely distance `8` along `[A, B, C]`. -/
theorem dijkstra_shortest_witness :
    (∀ e ∈ exG.edges, 0 ≤ weightOf e) ∧ ("" ∉ nodeIds exG) ∧
    "A" ∈ nodeIds exG ∧ "C" ∈ nodeIds exG ∧ Reachable exG "A" "C" ∧
    (∃ r, dijkstra exG "A" "C" = .ok r ∧ r.path.isSome = true ∧
      (∃ es, IsPath exG "A" es "C" ∧ r.distance = (pathCost es : WithTop ℚ)) ∧
      ∀ es, IsPath exG "A" es "C" → r.distance ≤ (pathCost es : WithTop ℚ)) ∧
    dijkstra exG "A" "C" =
      .ok ⟨some ⟨["A", "B", "C"], [some "AB", some "BC"]⟩, ((8 : ℚ) : WithTop ℚ)⟩ :=
  ⟨by decide, by decide, by decide, by decide, ⟨[eAB, eBC], by decide⟩,
   dijkstra_shortest exG "A" "C" (by decide) (by decide) (by decide) (by decide)
     ⟨[eAB, eBC], by decide⟩,
   by decide⟩

/-- C1 counterexample: with a negative edge weight the returned distance
is not minimal — `dijkstra` settles `C` at cost `1` via A→C, while the
path A→B→C costs `2 + (−2) = 0`. -/
theorem dijkstra_shortest_counterexample :
    "A" ∈ nodeIds negG ∧ "C" ∈ nodeIds negG ∧ Reachable negG "A" "C" ∧
    dijkstra negG "A" "C" =
      .ok ⟨some ⟨["A", "C"], [some "AC"]⟩, ((1 : ℚ) : WithTop ℚ)⟩ ∧
    IsPath negG "A" [eABn, eBCn] "C" ∧ pathCost [eABn, eBCn] = 0 ∧
    ¬ (((1 : ℚ) : WithTop ℚ) ≤ (pathCost [eABn, eBCn] : WithTop ℚ)) := by
  refine ⟨by decide, by decide, ⟨[eACn], by decide⟩, by decide, by decide, by decide,
    by decide⟩

end

/-! ### Concrete reconciliation scenarios -/

/-- Two adjacent incoming coppered segments with different speeds. -/
def incC2 : List Segment := [⟨0, 2, .coppered, some 6⟩, ⟨2, 3, .coppered, some 12⟩]

/-- The single segment their merge coalesces into (length-weighted speed
`(6·2 + 12·1)/3 = 8`). -/
def segC2 : Segment := ⟨0, 3, .coppered, some 8⟩

/-- An edge of total distance `1/2` with a straight two-point geometry. -/
def e6 : EdgeDef :=
  ⟨some "E", "A", "B", 1/2, none, none, none, some [⟨0, 0, 0⟩, ⟨1/2, 0, 0⟩]⟩

def G6 : Graph := ⟨[⟨"A"⟩, ⟨"B"⟩], [e6]⟩

/-- A fast sample sitting on that edge at offset `1/5`. -/
def samp6 : SurveySample := ⟨⟨1/5, 0, 0⟩, 20, none⟩

/-- The projection record `projOfSample` produces for it. -/
def p6 : SampleProj := ⟨"E", 1/5, .coppered, 20⟩

def seg6a : Segment := ⟨0, 1/5, .uncoppered, none⟩

def seg6b : Segment := ⟨1/5, 1/2, .coppered, some 20⟩

/-- The diff `reconcileSurvey` reports for that edge. -/
def d6 : DiffEntry := ⟨"E", none, [seg6a, seg6b]⟩

/-- An edge whose recorded `distance` is `0` (falsy in JS) but whose
geometry is `10` blocks long. -/
def e3 : EdgeDef :=
  ⟨some "E", "A", "B", 0, none, none, none, some [⟨0, 0, 0⟩, ⟨10, 0, 0⟩]⟩

def G3 : Graph := ⟨[⟨"A"⟩, ⟨"B"⟩], [e3]⟩

/-- A fast sample at offset `3` along that geometry. -/
def samp3 : SurveySample := ⟨⟨3, 0, 0⟩, 20, none⟩

/-- Its projection record: the offset is clamped by the polyline length,
not by the `0` distance. -/
def p3 : SampleProj := ⟨"E", 3, .coppered, 20⟩

/-- The updated edge record for the distance-`0` scenario: its merged
segment list is empty. -/
def e3u : EdgeDef :=
  ⟨some "E", "A", "B", 0, none, some [], some 0, some [⟨0, 0, 0⟩, ⟨10, 0, 0⟩]⟩

section

attribute [local semireducible] Rat.add Rat.sub Rat.mul Rat.inv

/-- C2 witness: on `incC2` over `[0, 3]` the merged output's type at the
point `1` of the sub-interval `[0, 2)` is the type the find-first rule
selects for that sub-interval. -/
theorem mergeEdgeSegments_subinterval_witness :
    (0 : ℚ) ≤ 3 ∧ ((0 : ℚ), (2 : ℚ)) ∈ consecPairs (sortedBounds 3 [] incC2) ∧
    (0 : ℚ) ≤ 1 ∧ (1 : ℚ) < 2 ∧
    typeAt (mergeEdgeSegments 3 [] incC2) 1 = some (intervalSeg [] incC2 0 2).type :=
  ⟨by decide, by decide, by decide, by decide,
   (mergeEdgeSegments_subinterval 3 [] incC2 (by decide) 0 2 (by decide) 1
     (by decide) (by decide)).1⟩

/-- C2 counterexample: the incoming segment `[0, 2)` (speed `6`) fully
covers the sub-interval `[0, 2)`, yet the merged output there is the
coalesced segment of speed `8` — the output does not carry the covering
incoming segment's `avg_speed` (it matches no incoming segment's). -/
theorem mergeEdgeSegments_subinterval_counterexample :
    ((0 : ℚ), (2 : ℚ)) ∈ consecPairs (sortedBounds 3 [] incC2) ∧
    (∃ s ∈ incC2, s.start_offset ≤ 0 ∧ 2 ≤ s.end_offset ∧ s.avg_speed = some 6) ∧
    mergeEdgeSegments 3 [] incC2 = [segC2] ∧
    segAt (mergeEdgeSegments 3 [] incC2) 1 = some segC2 ∧
    segC2.avg_speed = some 8 ∧
    ∀ s ∈ incC2, segC2.avg_speed ≠ s.avg_speed := by
  refine ⟨by decide, by decide, by decide, by decide, by decide, by decide⟩

/-- C5 witness: on the half-block edge, the sample at `(1/5, 0, 0)` with
speed `20` is retained with the projection record `p6`: assigned to the
within-threshold edge, classified coppered since `20 > 11`, at the
clamped projection offset. -/
theorem projOfSample_spec_witness :
    projOfSample axisHypot 5 [e6] samp6 = some p6 ∧
    ∃ e pr, bestEdgeFor axisHypot 5 [e6] samp6 = some (e, pr) ∧ e ∈ [e6] ∧
      pr.dist ≤ ((5 : ℚ) : WithTop ℚ) ∧
      (p6.state = SegType.coppered ↔ 11 < samp6.speed) ∧
      p6.offset = max 0 (min pr.offset
        (if e.distance = 0 then polylineLength2D axisHypot (e.geometry.getD [])
          else e.distance)) := by
  refine ⟨by decide, ?_⟩
  obtain ⟨e, pr, h1, h2, -, h4, -, h6, -, -, h9, -, -⟩ :=
    (projOfSample_spec axisHypot 5 [e6] samp6).1 p6 (by decide)
  exact ⟨e, pr, h1, h2, h4, h6, h9⟩

/-- C5 counterexample: on the distance-`0` edge the retained sample's
offset is `3`, clamped into `[0, polylineLength]` = `[0, 10]` rather than
into `[0, edgeDistance]` = `[0, 0]`, because `0` is falsy in the JS
`distance || polylineLength2D(...)` fallback. -/
theorem projOfSample_spec_counterexample :
    projOfSample axisHypot 5 [e3] samp3 = some p3 ∧
    e3.distance = 0 ∧ p3.offset = 3 ∧ ¬ (p3.offset ≤ e3.distance) := by
  refine ⟨by decide, by decide, by decide, by decide⟩

/-- C3 witness: on the half-block edge the reported diff's merged list is
carried by the updated edge, is well formed for the positive distance,
and the recorded coverage lies in `[0, 1]`. -/
theorem reconcileSurvey_wellFormed_witness :
    d6 ∈ (reconcileSurvey axisHypot G6 ⟨[samp6]⟩ 5).diffs ∧
    ∃ e ∈ (reconcileSurvey axisHypot G6 ⟨[samp6]⟩ 5).updatedEdges,
      e.id = some d6.edgeId ∧ e.segments = some d6.newSegments ∧
      (0 < e.distance → SegListWellFormed e.distance d6.newSegments) ∧
      (∃ c, e.total_copper_coverage = some c ∧ 0 ≤ c ∧ c ≤ 1) :=
  ⟨by decide, reconcileSurvey_wellFormed axisHypot G6 ⟨[samp6]⟩ 5 d6 (by decide)⟩

/-- C3 counterexample: the distance-`0` edge is touched (it receives the
projected sample), yet its new segment list is empty — it has no first
segment starting at `0` and no last segment ending at the edge's total
distance, so the claimed shape fails on it. -/
theorem reconcileSurvey_wellFormed_counterexample :
    (reconcileSurvey axisHypot G3 ⟨[samp3]⟩ 5).diffs = [⟨"E", none, []⟩] ∧
    (reconcileSurvey axisHypot G3 ⟨[samp3]⟩ 5).updatedEdges = [e3u] ∧
    e3u.segments = some [] ∧
    ¬ SegListWellFormed e3u.distance [] := by
  refine ⟨by decide, by decide, by decide, ?_⟩
  rintro ⟨⟨h, hh, -⟩, -⟩
  exact Option.noConfusion hh

/-- C6 witness: on the half-block edge the recorded coverage equals the
clamped ratio with divisor `max 1 totalDistance`. -/
theorem reconcileSurvey_coverage_witness :
    d6 ∈ (reconcileSurvey axisHypot G6 ⟨[samp6]⟩ 5).diffs ∧
    ∃ e ∈ (reconcileSurvey axisHypot G6 ⟨[samp6]⟩ 5).updatedEdges,
      e.id = some d6.edgeId ∧ e.segments = some d6.newSegments ∧
      (0 < e.distance →
        e.total_copper_coverage =
          some (clamp (copperLen d6.newSegments / max 1 e.distance) 0 1) ∧
        (1 ≤ e.distance →
          e.total_copper_coverage =
            some (clamp (copperLen d6.newSegments / e.distance) 0 1))) :=
  ⟨by decide, reconcileSurvey_coverage axisHypot G6 ⟨[samp6]⟩ 5 d6 (by decide)⟩

/-- C6 counterexample: the touched edge has positive total distance `1/2`
and coppered length `3/10`, so the claimed value is
`clamp((3/10)/(1/2)) = 3/5`, but the recorded coverage is `3/10` — the
code divides by `max(1, totalDistance)`, not by `totalDistance`. -/
theorem reconcileSurvey_coverage_counterexample :
    (reconcileSurvey axisHypot G6 ⟨[samp6]⟩ 5).diffs = [d6] ∧
    ∃ e ∈ (reconcileSurvey axisHypot G6 ⟨[samp6]⟩ 5).updatedEdges,
      e.id = some d6.edgeId ∧ (0 : ℚ) < e.distance ∧
      copperLen d6.newSegments = 3/10 ∧
      clamp (copperLen d6.newSegments / e.distance) 0 1 = 3/5 ∧
      e.total_copper_coverage = some (3/10) ∧
      e.total_copper_coverage ≠
        some (clamp (copperLen d6.newSegments / e.distance) 0 1) := by
  refine ⟨by decide, ?_⟩
  refine ⟨_, List.mem_cons_self _ _, by decide, by decide, by decide, by decide,
    by decide, by decide⟩

end

/-! ## C8: the store model of `reconcileSurvey`

`reconcileSurvey` executes against a mutable object graph.  The heap
below gives the mutable entities their own cells: node objects, edge
objects, and segment arrays (a segment array together with the segment
objects it holds is one cell, so mutating a held segment counts as
writing the cell).  An edge object's `segments` field is a pointer,
because the spread copy `{...e, id: ...}` shares the original edge's
`segments` array reference, which is the aliasing the no-mutation claim
is about.  Every other field is only ever read, so it is stored as a
value.  `reconcileSurveyST` replays the source's allocations and writes
on this heap while computing the same values as the pure model. -/

/-- A mutable edge object: `EdgeDef` with its `segments` field replaced
by a pointer into the store of segment arrays. -/
structure EdgeObj where
  id : Option String
  «from» : String
  «to» : String
  distance : ℚ
  routing_weight : Option ℚ
  segments : Option ℕ
  total_copper_coverage : Option ℚ
  geometry : Option (List Vec3)
deriving DecidableEq, Repr

/-- The store. -/
structure Heap where
  nodeCells : List NodeDef
  edgeCells : List EdgeObj
  segCells : List (List Segment)
deriving DecidableEq, Repr

/-- The input graph, as references into the store. -/
structure GraphRef where
  nodeAddrs : List ℕ
  edgeAddrs : List ℕ
deriving DecidableEq, Repr

def allocEdge (h : Heap) (v : EdgeObj) : Heap × ℕ :=
  (⟨h.nodeCells, h.edgeCells ++ [v], h.segCells⟩, h.edgeCells.length)

def allocSeg (h : Heap) (v : List Segment) : Heap × ℕ :=
  (⟨h.nodeCells, h.edgeCells, h.segCells ++ [v]⟩, h.segCells.length)

def writeEdge (h : Heap) (p : ℕ) (v : EdgeObj) : Heap :=
  ⟨h.nodeCells, h.edgeCells.set p v, h.segCells⟩

def writeSeg (h : Heap) (p : ℕ) (v : List Segment) : Heap :=
  ⟨h.nodeCells, h.edgeCells, h.segCells.set p v⟩

def defaultEdgeObj : EdgeObj := ⟨none, "", "", 0, none, none, none, none⟩

/-- Read the edge object at an address and dereference its segment
pointer, giving the edge as the pure model sees it. -/
def derefEdge (h : Heap) (p : ℕ) : EdgeDef :=
  let eo := h.edgeCells.getD p defaultEdgeObj
  ⟨eo.id, eo.«from», eo.«to», eo.distance, eo.routing_weight,
    eo.segments.bind (fun q => h.segCells.get? q),
    eo.total_copper_coverage, eo.geometry⟩

/-- The input graph as pure values. -/
def derefGraph (h : Heap) (g : GraphRef) : Graph :=
  ⟨g.nodeAddrs.map (fun a => h.nodeCells.getD a ⟨""⟩),
    g.edgeAddrs.map (derefEdge h)⟩

/-- The spread copy `{ ...e, id: e.id ?? from_to_idx }`: same fields,
same `segments` pointer, possibly synthesized id. -/
def copyObj (eo : EdgeObj) (idx : ℕ) : EdgeObj :=
  { eo with id := some (eo.id.getD (eo.«from» ++ "_" ++ eo.«to» ++ "_" ++ toString idx)) }

/-- `graph.edges.map((e, idx) => ({ ...e, id: ... }))`: allocate one fresh
edge object per input edge. -/
def copyEdgesST (h0 : Heap) (addrs : List ℕ) : Heap × List ℕ :=
  addrs.enum.foldl (fun acc p =>
    let eo := acc.1.edgeCells.getD p.2 defaultEdgeObj
    let r := allocEdge acc.1 (copyObj eo p.1)
    (r.1, acc.2 ++ [r.2])) (h0, [])

/-- One iteration of the per-group loop on the store: find the copied
edge object carrying the group id, allocate the group's run-interval
array and overwrite it with its clamped contents (the source's in-place
clamp loop on the fresh `newIntervals`), allocate the merged array, write
the found edge object's `segments` pointer and coverage, and allocate the
diff's segment copies. -/
def processGroupST (projs : List SampleProj) (copyAddrs : List ℕ)
    (st : Heap × List DiffEntry) (k : String) : Heap × List DiffEntry :=
  match copyAddrs.find? (fun a => (derefEdge st.1 a).id = some k) with
  | none => st
  | some addr =>
    let h := st.1
    let e := derefEdge h addr
    let samples := projs.filter (fun p => p.edgeId = k)
    let sorted := sortByOffset samples
    let runs := if 0 < sorted.length then buildRuns sorted else []
    let r1 := allocSeg h runs
    let newIntervals := if 0 < sorted.length
      then clampIntervals e.distance (buildRuns sorted) else []
    let h2 := writeSeg r1.1 r1.2 newIntervals
    let merged := mergeEdgeSegments e.distance (e.segments.getD []) newIntervals
    let r2 := allocSeg h2 merged
    let eo := r2.1.edgeCells.getD addr defaultEdgeObj
    let h3 := writeEdge r2.1 addr
      { eo with
        segments := some r2.2,
        total_copper_coverage := some (computeTotalCopperCoverage e.distance merged) }
    let r3 := allocSeg h3 merged
    (r3.1, st.2 ++ [⟨k, e.segments, merged⟩])

/-- `reconcileSurvey` on the store.  The returned record holds the same
values as the pure model; the final heap records every allocation and
write the call performed. -/
def reconcileSurveyST (ops : GeomOps) (h0 : Heap) (g : GraphRef)
    (survey : SurveyReport) (thr : ℚ) : Heap × ReconcileResult :=
  let c := copyEdgesST h0 g.edgeAddrs
  let h1 := c.1
  let copies := c.2.map (derefEdge h1)
  let projs := surveyProjs ops thr copies survey.samples
  let st := (groupKeys projs).foldl (processGroupST projs c.2) (h1, [])
  let h2 := st.1
  ⟨h2,
    ⟨c.2.map (fun a =>
        let e := derefEdge h2 a
        match (g.edgeAddrs.map (derefEdge h2)).find? (fun oe =>
          oe.id = e.id ∨ (oe.«from» = e.«from» ∧ oe.«to» = e.«to»)) with
        | none => e
        | some oe => spreadEdge oe e),
      st.2⟩⟩

/-! ### The copy phase in closed form -/

theorem set_append_singleton {α : Type} (l : List α) (a b : α) :
    (l ++ [a]).set l.length b = l ++ [b] := by
  induction l with
  | nil => rfl
  | cons x rest ih =>
      simp only [List.cons_append, List.set, List.length_cons, List.append_eq, ih]

theorem copyGo_spec (h0 : Heap) :
    ∀ (l : List (ℕ × ℕ)), (∀ p ∈ l, p.2 < h0.edgeCells.length) →
      ∀ (extra : List EdgeObj) (as : List ℕ),
      l.foldl (fun acc p =>
          let eo := acc.1.edgeCells.getD p.2 defaultEdgeObj
          let r := allocEdge acc.1 (copyObj eo p.1)
          (r.1, acc.2 ++ [r.2]))
        (⟨h0.nodeCells, h0.edgeCells ++ extra, h0.segCells⟩, as) =
      (⟨h0.nodeCells, h0.edgeCells ++
          (extra ++ l.map (fun p => copyObj (h0.edgeCells.getD p.2 defaultEdgeObj) p.1)),
        h0.segCells⟩,
       as ++ List.range' (h0.edgeCells.length + extra.length) l.length) := by
  intro l
  induction l with
  | nil =>
      intro _ extra as
      simp only [List.foldl_nil, List.map_nil, List.append_nil, List.range']
  | cons p rest ih =>
      intro hv extra as
      rw [List.foldl_cons]
      have hread : (h0.edgeCells ++ extra).getD p.2 defaultEdgeObj =
          h0.edgeCells.getD p.2 defaultEdgeObj := by
        rw [List.getD_eq_getD_get?, List.getD_eq_getD_get?,
          List.get?_append (hv p (List.mem_cons_self p rest))]
      show List.foldl _
        ((⟨h0.nodeCells, (h0.edgeCells ++ extra) ++
            [copyObj ((h0.edgeCells ++ extra).getD p.2 defaultEdgeObj) p.1],
          h0.segCells⟩ : Heap), as ++ [(h0.edgeCells ++ extra).length]) rest = _
      rw [hread, List.append_assoc, List.length_append]
      rw [ih (fun q hq => hv q (List.mem_cons_of_mem p hq))
          (extra ++ [copyObj (h0.edgeCells.getD p.2 defaultEdgeObj) p.1])
          (as ++ [h0.edgeCells.length + extra.length])]
      rw [List.append_assoc extra, List.singleton_append, List.map_cons]
      rw [List.append_assoc as, List.singleton_append]
      have hlen : (extra ++ [copyObj (h0.edgeCells.getD p.2 defaultEdgeObj) p.1]).length =
          extra.length + 1 := by
        rw [List.length_append]
        rfl
      rw [hlen, List.length_cons, List.range'_succ, ← Nat.add_assoc]

theorem copyEdgesST_spec (h0 : Heap) (addrs : List ℕ)
    (hv : ∀ a ∈ addrs, a < h0.edgeCells.length) :
    copyEdgesST h0 addrs =
      (⟨h0.nodeCells,
        h0.edgeCells ++ addrs.enum.map (fun p =>
          copyObj (h0.edgeCells.getD p.2 defaultEdgeObj) p.1),
        h0.segCells⟩,
       List.range' h0.edgeCells.length addrs.length) := by
  unfold copyEdgesST
  have h0eq : (h0, ([] : List ℕ)) =
      ((⟨h0.nodeCells, h0.edgeCells ++ [], h0.segCells⟩ : Heap), ([] : List ℕ)) := by
    rw [List.append_nil]
  rw [h0eq, copyGo_spec h0 addrs.enum
    (fun p hp => hv p.2 (List.snd_mem_of_mem_enum hp)) [] []]
  rw [List.nil_append, List.nil_append, List.enum_length]
  rfl

/-! ### Dereferencing lemmas -/

theorem derefEdge_congr (h h2 : Heap) (a : ℕ)
    (he : h2.edgeCells.get? a = h.edgeCells.get? a)
    (hs : ∀ q, (h.edgeCells.getD a defaultEdgeObj).segments = some q →
      h2.segCells.get? q = h.segCells.get? q) :
    derefEdge h2 a = derefEdge h a := by
  have heo : h2.edgeCells.getD a defaultEdgeObj = h.edgeCells.getD a defaultEdgeObj := by
    rw [List.getD_eq_getD_get?, List.getD_eq_getD_get?, he]
  simp only [derefEdge]
  rw [heo]
  cases hseg : (h.edgeCells.getD a defaultEdgeObj).segments with
  | none => rfl
  | some q =>
      simp only [Option.some_bind]
      rw [hs q hseg]

theorem copies_deref_eq (h0 : Heap) (g : GraphRef)
    (hv : ∀ a ∈ g.edgeAddrs, a < h0.edgeCells.length) :
    (copyEdgesST h0 g.edgeAddrs).2.map (derefEdge (copyEdgesST h0 g.edgeAddrs).1) =
      edgesWithIds (derefGraph h0 g) := by
  rw [copyEdgesST_spec h0 g.edgeAddrs hv]
  apply List.ext
  intro i
  unfold edgesWithIds derefGraph
  rw [List.get?_map, List.get?_map, List.get?_enum, List.get?_map]
  by_cases hi : i < g.edgeAddrs.length
  · rw [List.get?_range' _ 1 hi, List.get?_eq_get hi]
    simp only [Option.map_some]
    refine congrArg some ?_
    set a := g.edgeAddrs.get ⟨i, hi⟩ with ha
    have hcell : (⟨h0.nodeCells,
        h0.edgeCells ++ g.edgeAddrs.enum.map (fun p =>
          copyObj (h0.edgeCells.getD p.2 defaultEdgeObj) p.1),
        h0.segCells⟩ : Heap).edgeCells.getD (h0.edgeCells.length + 1 * i) defaultEdgeObj =
        copyObj (h0.edgeCells.getD a defaultEdgeObj) i := by
      show (h0.edgeCells ++ g.edgeAddrs.enum.map (fun p =>
          copyObj (h0.edgeCells.getD p.2 defaultEdgeObj) p.1)).getD
          (h0.edgeCells.length + 1 * i) defaultEdgeObj = _
      rw [List.getD_eq_getD_get?,
        List.get?_append_right (by omega),
        show h0.edgeCells.length + 1 * i - h0.edgeCells.length = i by omega,
        List.get?_map, List.get?_enum, List.get?_eq_get hi]
      rfl
    simp only [derefEdge]
    rw [hcell]
    rfl
  · rw [List.get?_eq_none.mpr (by simpa using not_lt.mp hi),
      List.get?_eq_none.mpr (by simpa using not_lt.mp hi)]
    rfl

/-! ### The group loop acts only above the watermark -/

theorem map_deref_update (k : String) (e2 : EdgeDef) :
    ∀ (as : List ℕ) (f g2 : ℕ → EdgeDef) (addr : ℕ),
      as.Nodup →
      as.find? (fun a => (f a).id = some k) = some addr →
      (∀ a ∈ as, a ≠ addr → g2 a = f a) →
      g2 addr = e2 →
      as.map g2 = updateFirstById k e2 (as.map f) := by
  intro as
  induction as with
  | nil =>
      intro f g2 addr _ hfind _ _
      exact absurd hfind (by simp)
  | cons a rest ih =>
      intro f g2 addr hnd hfind hother haddr
      rw [List.map_cons, List.map_cons]
      unfold updateFirstById
      by_cases hpa : (f a).id = some k
      · rw [List.find?_cons_of_pos rest (decide_eq_true hpa)] at hfind
        have haa : a = addr := Option.some.inj hfind
        rw [if_pos hpa]
        have h1 : g2 a = e2 := by rw [haa]; exact haddr
        have h2 : rest.map g2 = rest.map f := by
          refine List.map_congr_left ?_
          intro x hx
          refine hother x (List.mem_cons_of_mem a hx) ?_
          intro hxa
          rw [hxa, ← haa] at hx
          exact (List.nodup_cons.mp hnd).1 hx
        rw [h1, h2]
      · rw [List.find?_cons_of_neg rest (fun h => hpa (of_decide_eq_true h))] at hfind
        have hmem : addr ∈ rest := List.mem_of_find?_eq_some hfind
        have hane : a ≠ addr := by
          intro haa
          rw [haa] at hnd
          exact (List.nodup_cons.mp hnd).1 hmem
        rw [if_neg hpa, hother a (List.mem_cons_self a rest) hane,
          ih f g2 addr (List.nodup_cons.mp hnd).2 hfind
            (fun x hx => hother x (List.mem_cons_of_mem a hx)) haddr]

/-- The invariant of the per-group loop: the heap below the initial
watermark is untouched, every copied edge object's segment pointer is
valid, and the dereferenced copies together with the accumulated diffs
coincide with the pure model's state. -/
def GroupInv (h0 : Heap) (n : ℕ) (stp : List EdgeDef × List DiffEntry)
    (st : Heap × List DiffEntry) : Prop :=
  st.1.nodeCells = h0.nodeCells ∧
  st.1.edgeCells.length = h0.edgeCells.length + n ∧
  (∀ i < h0.edgeCells.length, st.1.edgeCells.get? i = h0.edgeCells.get? i) ∧
  h0.segCells.length ≤ st.1.segCells.length ∧
  (∀ j < h0.segCells.length, st.1.segCells.get? j = h0.segCells.get? j) ∧
  (∀ a ∈ List.range' h0.edgeCells.length n, ∀ q,
    (st.1.edgeCells.getD a defaultEdgeObj).segments = some q →
      q < st.1.segCells.length) ∧
  (List.range' h0.edgeCells.length n).map (derefEdge st.1) = stp.1 ∧
  st.2 = stp.2

theorem processGroupST_inv (h0 : Heap) (n : ℕ) (projs : List SampleProj)
    (stp : List EdgeDef × List DiffEntry) (st : Heap × List DiffEntry) (k : String)
    (inv : GroupInv h0 n stp st) :
    GroupInv h0 n (processGroup projs stp k)
      (processGroupST projs (List.range' h0.edgeCells.length n) st k) := by
  obtain ⟨i1, i2, i3, i4, i5, i6, i7, i8⟩ := inv
  have hfind : stp.1.find? (fun e => e.id = some k) =
      ((List.range' h0.edgeCells.length n).find?
        (fun a => (derefEdge st.1 a).id = some k)).map (derefEdge st.1) := by
    rw [← i7, List.find?_map]
    rfl
  cases hfst : (List.range' h0.edgeCells.length n).find?
      (fun a => (derefEdge st.1 a).id = some k) with
  | none =>
      rw [hfst] at hfind
      simp only [Option.map_none'] at hfind
      have hst : processGroupST projs (List.range' h0.edgeCells.length n) st k = st := by
        unfold processGroupST
        rw [hfst]
      have hsp : processGroup projs stp k = stp := by
        unfold processGroup
        rw [hfind]
      rw [hst, hsp]
      exact ⟨i1, i2, i3, i4, i5, i6, i7, i8⟩
  | some addr =>
      rw [hfst] at hfind
      simp only [Option.map_some'] at hfind
      have haddr_mem : addr ∈ List.range' h0.edgeCells.length n :=
        List.mem_of_find?_eq_some hfst
      obtain ⟨hWle, haddr_lt⟩ := List.mem_range'_1.mp haddr_mem
      set e := derefEdge st.1 addr with he
      set sorted := sortByOffset (projs.filter (fun p => p.edgeId = k)) with hsorted
      set NI := (if 0 < sorted.length
        then clampIntervals e.distance (buildRuns sorted) else []) with hNI
      set M := mergeEdgeSegments e.distance (e.segments.getD []) NI with hM
      set C := computeTotalCopperCoverage e.distance M with hC
      have hST : processGroupST projs (List.range' h0.edgeCells.length n) st k =
          (⟨st.1.nodeCells,
            st.1.edgeCells.set addr
              { st.1.edgeCells.getD addr defaultEdgeObj with
                segments := some (st.1.segCells.length + 1),
                total_copper_coverage := some C },
            st.1.segCells ++ [NI, M, M]⟩,
           st.2 ++ [⟨k, e.segments, M⟩]) := by
        unfold processGroupST
        rw [hfst]
        show ((⟨st.1.nodeCells,
            st.1.edgeCells.set addr
              { st.1.edgeCells.getD addr defaultEdgeObj with
                segments := some (((st.1.segCells ++
                  [if 0 < sorted.length then buildRuns sorted else []]).set
                    st.1.segCells.length NI).length),
                total_copper_coverage := some C },
            (((st.1.segCells ++
                [if 0 < sorted.length then buildRuns sorted else []]).set
                  st.1.segCells.length NI) ++ [M]) ++ [M]⟩ : Heap),
           st.2 ++ [⟨k, e.segments, M⟩]) = _
        rw [set_append_singleton]
        rw [List.length_append, List.length_singleton, List.append_assoc,
          List.singleton_append, List.append_assoc, List.singleton_append]
      have hpure : processGroup projs stp k =
          (updateFirstById k
            { e with segments := some M, total_copper_coverage := some C } stp.1,
           stp.2 ++ [⟨k, e.segments, M⟩]) := by
        unfold processGroup
        rw [hfind]
      rw [hST, hpure]
      have haddr_lt_ec : addr < st.1.edgeCells.length := by omega
      refine ⟨i1, ?_, ?_, ?_, ?_, ?_, ?_, ?_⟩
      · rw [List.length_set]
        exact i2
      · intro i hi
        rw [List.get?_set_ne _ _ (by omega : addr ≠ i)]
        exact i3 i hi
      · rw [List.length_append]
        have : (([NI, M, M] : List (List Segment))).length = 3 := rfl
        omega
      · intro j hj
        rw [List.get?_append (lt_of_lt_of_le hj i4)]
        exact i5 j hj
      · intro a ha q hq
        rw [List.length_append]
        by_cases haa : a = addr
        · rw [haa, List.getD_eq_getD_get?, List.get?_set_eq_of_lt _ haddr_lt_ec] at hq
          have hq2 : q = st.1.segCells.length + 1 := by
            have h4 := hq
            simp only [Option.getD_some] at h4
            exact (Option.some.inj h4).symm
          have h3 : (([NI, M, M] : List (List Segment))).length = 3 := rfl
          omega
        · rw [List.getD_eq_getD_get?,
            List.get?_set_ne _ _ (fun h => haa h.symm),
            ← List.getD_eq_getD_get?] at hq
          have h5 := i6 a ha q hq
          have h3 : (([NI, M, M] : List (List Segment))).length = 3 := rfl
          omega
      · show (List.range' h0.edgeCells.length n).map (derefEdge
            (⟨st.1.nodeCells,
              st.1.edgeCells.set addr
                { st.1.edgeCells.getD addr defaultEdgeObj with
                  segments := some (st.1.segCells.length + 1),
                  total_copper_coverage := some C },
              st.1.segCells ++ [NI, M, M]⟩ : Heap)) =
          updateFirstById k
            { e with segments := some M, total_copper_coverage := some C } stp.1
        rw [← i7]
        refine map_deref_update k _ _ (derefEdge st.1) _ addr
          (List.nodup_range' _ _ 1 one_pos) hfst ?_ ?_
        · intro a ha hane
          refine derefEdge_congr st.1 _ a ?_ ?_
          · show (st.1.edgeCells.set addr _).get? a = st.1.edgeCells.get? a
            exact List.get?_set_ne _ _ (fun h => hane h.symm)
          · intro q hq
            show (st.1.segCells ++ [NI, M, M]).get? q = st.1.segCells.get? q
            exact List.get?_append (i6 a ha q hq)
        · show derefEdge
            (⟨st.1.nodeCells,
              st.1.edgeCells.set addr
                { st.1.edgeCells.getD addr defaultEdgeObj with
                  segments := some (st.1.segCells.length + 1),
                  total_copper_coverage := some C },
              st.1.segCells ++ [NI, M, M]⟩ : Heap) addr =
            { e with segments := some M, total_copper_coverage := some C }
          have hcell : (st.1.edgeCells.set addr
              { st.1.edgeCells.getD addr defaultEdgeObj with
                segments := some (st.1.segCells.length + 1),
                total_copper_coverage := some C }).getD addr defaultEdgeObj =
              { st.1.edgeCells.getD addr defaultEdgeObj with
                segments := some (st.1.segCells.length + 1),
                total_copper_coverage := some C } := by
            rw [List.getD_eq_getD_get?, List.get?_set_eq_of_lt _ haddr_lt_ec]
            rfl
          simp only [derefEdge]
          rw [hcell]
          have hgetM : (st.1.segCells ++ [NI, M, M]).get? (st.1.segCells.length + 1) =
              some M := by
            rw [List.get?_append_right (by omega)]
            have : st.1.segCells.length + 1 - st.1.segCells.length = 1 := by omega
            rw [this]
            rfl
          simp only [Option.some_bind]
          rw [hgetM]
          rfl
      · show st.2 ++ [⟨k, e.segments, M⟩] = stp.2 ++ [⟨k, e.segments, M⟩]
        rw [i8]

theorem foldl_processGroupST_inv (h0 : Heap) (n : ℕ) (projs : List SampleProj) :
    ∀ (keys : List String) (stp : List EdgeDef × List DiffEntry)
      (st : Heap × List DiffEntry), GroupInv h0 n stp st →
      GroupInv h0 n (keys.foldl (processGroup projs) stp)
        (keys.foldl (processGroupST projs (List.range' h0.edgeCells.length n)) st) := by
  intro keys
  induction keys with
  | nil => intro stp st inv; exact inv
  | cons k rest ih =>
      intro stp st inv
      rw [List.foldl_cons, List.foldl_cons]
      exact ih _ _ (processGroupST_inv h0 n projs stp st k inv)

theorem copy_cell_segments (h0 : Heap) (g : GraphRef) (a : ℕ)
    (ha1 : h0.edgeCells.length ≤ a)
    (ha2 : a < h0.edgeCells.length + g.edgeAddrs.length) :
    ∃ b ∈ g.edgeAddrs,
      ((h0.edgeCells ++ g.edgeAddrs.enum.map (fun p =>
          copyObj (h0.edgeCells.getD p.2 defaultEdgeObj) p.1)).getD
        a defaultEdgeObj).segments =
      (h0.edgeCells.getD b defaultEdgeObj).segments := by
  have hi : a - h0.edgeCells.length < g.edgeAddrs.length := by omega
  refine ⟨g.edgeAddrs.get ⟨a - h0.edgeCells.length, hi⟩, List.get_mem _ _ hi, ?_⟩
  rw [List.getD_eq_getD_get?, List.get?_append_right ha1,
    List.get?_map, List.get?_enum, List.get?_eq_get hi]
  rfl

theorem init_groupInv (h0 : Heap) (g : GraphRef)
    (hv1 : ∀ a ∈ g.edgeAddrs, a < h0.edgeCells.length)
    (hv2 : ∀ a ∈ g.edgeAddrs, ∀ q,
      (h0.edgeCells.getD a defaultEdgeObj).segments = some q →
        q < h0.segCells.length) :
    GroupInv h0 g.edgeAddrs.length (edgesWithIds (derefGraph h0 g), [])
      ((copyEdgesST h0 g.edgeAddrs).1, []) := by
  have h7 := copies_deref_eq h0 g hv1
  rw [copyEdgesST_spec h0 g.edgeAddrs hv1] at h7 ⊢
  refine ⟨rfl, ?_, ?_, le_refl _, ?_, ?_, h7, rfl⟩
  · show (h0.edgeCells ++ g.edgeAddrs.enum.map (fun p =>
        copyObj (h0.edgeCells.getD p.2 defaultEdgeObj) p.1)).length =
      h0.edgeCells.length + g.edgeAddrs.length
    rw [List.length_append, List.length_map, List.enum_length]
  · intro i hi
    exact List.get?_append hi
  · intro j _
    rfl
  · intro a ha q hq
    obtain ⟨hW, hlt⟩ := List.mem_range'_1.mp ha
    obtain ⟨b, hb, hseg⟩ := copy_cell_segments h0 g a hW hlt
    rw [hseg] at hq
    exact hv2 b hb q hq

theorem reconcileSurveyST_eq (ops : GeomOps) (h0 : Heap) (g : GraphRef)
    (survey : SurveyReport) (thr : ℚ) :
    reconcileSurveyST ops h0 g survey thr =
      (((groupKeys (surveyProjs ops thr
            ((copyEdgesST h0 g.edgeAddrs).2.map
              (derefEdge (copyEdgesST h0 g.edgeAddrs).1)) survey.samples)).foldl
          (processGroupST (surveyProjs ops thr
            ((copyEdgesST h0 g.edgeAddrs).2.map
              (derefEdge (copyEdgesST h0 g.edgeAddrs).1)) survey.samples)
            (copyEdgesST h0 g.edgeAddrs).2)
          ((copyEdgesST h0 g.edgeAddrs).1, [])).1,
       ⟨(copyEdgesST h0 g.edgeAddrs).2.map (fun a =>
          let e := derefEdge ((groupKeys (surveyProjs ops thr
              ((copyEdgesST h0 g.edgeAddrs).2.map
                (derefEdge (copyEdgesST h0 g.edgeAddrs).1)) survey.samples)).foldl
            (processGroupST (surveyProjs ops thr
              ((copyEdgesST h0 g.edgeAddrs).2.map
                (derefEdge (copyEdgesST h0 g.edgeAddrs).1)) survey.samples)
              (copyEdgesST h0 g.edgeAddrs).2)
            ((copyEdgesST h0 g.edgeAddrs).1, [])).1 a
          match (g.edgeAddrs.map (derefEdge ((groupKeys (surveyProjs ops thr
              ((copyEdgesST h0 g.edgeAddrs).2.map
                (derefEdge (copyEdgesST h0 g.edgeAddrs).1)) survey.samples)).foldl
            (processGroupST (surveyProjs ops thr
              ((copyEdgesST h0 g.edgeAddrs).2.map
                (derefEdge (copyEdgesST h0 g.edgeAddrs).1)) survey.samples)
              (copyEdgesST h0 g.edgeAddrs).2)
            ((copyEdgesST h0 g.edgeAddrs).1, [])).1)).find? (fun oe =>
            oe.id = e.id ∨ (oe.«from» = e.«from» ∧ oe.«to» = e.«to»)) with
          | none => e
          | some oe => spreadEdge oe e),
        ((groupKeys (surveyProjs ops thr
            ((copyEdgesST h0 g.edgeAddrs).2.map
              (derefEdge (copyEdgesST h0 g.edgeAddrs).1)) survey.samples)).foldl
          (processGroupST (surveyProjs ops thr
            ((copyEdgesST h0 g.edgeAddrs).2.map
              (derefEdge (copyEdgesST h0 g.edgeAddrs).1)) survey.samples)
            (copyEdgesST h0 g.edgeAddrs).2)
          ((copyEdgesST h0 g.edgeAddrs).1, [])).2⟩) := rfl

/-- C8: `reconcileSurvey` never mutates its input.  On the store model,
every cell that existed before the call — the node objects, the input
edge objects, and the segment arrays they point to — holds exactly its
old contents afterwards, so the dereferenced input graph is unchanged;
and the call's result (updated edges and diffs) equals the pure model's,
i.e. all updates appear only in the freshly produced values. -/
theorem reconcileSurveyST_no_mutation (ops : GeomOps) (h0 : Heap) (g : GraphRef)
    (survey : SurveyReport) (thr : ℚ)
    (hv1 : ∀ a ∈ g.edgeAddrs, a < h0.edgeCells.length)
    (hv2 : ∀ a ∈ g.edgeAddrs, ∀ q,
      (h0.edgeCells.getD a defaultEdgeObj).segments = some q →
        q < h0.segCells.length) :
    (reconcileSurveyST ops h0 g survey thr).1.nodeCells = h0.nodeCells ∧
    (∀ i < h0.edgeCells.length,
      (reconcileSurveyST ops h0 g survey thr).1.edgeCells.get? i =
        h0.edgeCells.get? i) ∧
    (∀ j < h0.segCells.length,
      (reconcileSurveyST ops h0 g survey thr).1.segCells.get? j =
        h0.segCells.get? j) ∧
    g.edgeAddrs.map (derefEdge (reconcileSurveyST ops h0 g survey thr).1) =
      g.edgeAddrs.map (derefEdge h0) ∧
    derefGraph (reconcileSurveyST ops h0 g survey thr).1 g = derefGraph h0 g ∧
    (reconcileSurveyST ops h0 g survey thr).2 =
      reconcileSurvey ops (derefGraph h0 g) survey thr := by
  have hc2 : (copyEdgesST h0 g.edgeAddrs).2 =
      List.range' h0.edgeCells.length g.edgeAddrs.length := by
    rw [copyEdgesST_spec h0 g.edgeAddrs hv1]
  have hcopies := copies_deref_eq h0 g hv1
  rw [reconcileSurveyST_eq, hcopies, hc2]
  set GP := derefGraph h0 g with hGP
  set P0 := surveyProjs ops thr (edgesWithIds GP) survey.samples with hP0
  set FOLD := (groupKeys P0).foldl
    (processGroupST P0 (List.range' h0.edgeCells.length g.edgeAddrs.length))
    ((copyEdgesST h0 g.edgeAddrs).1, ([] : List DiffEntry)) with hFOLD
  have hinv := foldl_processGroupST_inv h0 g.edgeAddrs.length P0 (groupKeys P0)
    (edgesWithIds GP, []) ((copyEdgesST h0 g.edgeAddrs).1, [])
    (init_groupInv h0 g hv1 hv2)
  set STP := (groupKeys P0).foldl (processGroup P0)
    ((edgesWithIds GP, ([] : List DiffEntry))) with hSTP
  obtain ⟨f1, f2, f3, f4, f5, f6, f7, f8⟩ := hinv
  have horig : ∀ a ∈ g.edgeAddrs, derefEdge FOLD.1 a = derefEdge h0 a := by
    intro a ha
    exact derefEdge_congr h0 FOLD.1 a (f3 a (hv1 a ha))
      (fun q hq => f5 q (hv2 a ha q hq))
  refine ⟨f1, f3, f5, ?_, ?_, ?_⟩
  · exact List.map_congr_left horig
  · show derefGraph FOLD.1 g = derefGraph h0 g
    unfold derefGraph
    rw [f1]
    exact congrArg (Graph.mk _) (List.map_congr_left horig)
  · have hpure : reconcileSurvey ops GP survey thr =
        ⟨STP.1.map (fun e =>
          match GP.edges.find? (fun oe =>
            oe.id = e.id ∨ (oe.«from» = e.«from» ∧ oe.«to» = e.«to»)) with
          | none => e
          | some oe => spreadEdge oe e), STP.2⟩ := rfl
    rw [hpure]
    have hinner : g.edgeAddrs.map (derefEdge FOLD.1) = GP.edges := by
      rw [List.map_congr_left horig]
      rfl
    have hupd : (List.range' h0.edgeCells.length g.edgeAddrs.length).map (fun a =>
        let e := derefEdge FOLD.1 a
        match (g.edgeAddrs.map (derefEdge FOLD.1)).find? (fun oe =>
          oe.id = e.id ∨ (oe.«from» = e.«from» ∧ oe.«to» = e.«to»)) with
        | none => e
        | some oe => spreadEdge oe e) =
        STP.1.map (fun e =>
          match GP.edges.find? (fun oe =>
            oe.id = e.id ∨ (oe.«from» = e.«from» ∧ oe.«to» = e.«to»)) with
          | none => e
          | some oe => spreadEdge oe e) := by
      rw [hinner, ← f7, List.map_map]
      rfl
    show (⟨_, FOLD.2⟩ : ReconcileResult) = _
    rw [hupd, f8]

/-- A concrete two-node store: one edge object whose `segments` pointer
targets the one segment array in the store. -/
def h0W : Heap :=
  ⟨[⟨"A"⟩, ⟨"B"⟩],
   [⟨some "E", "A", "B", 1/2, none, some 0, none, some [⟨0, 0, 0⟩, ⟨1/2, 0, 0⟩]⟩],
   [[⟨0, 1/2, .uncoppered, none⟩]]⟩

def gW : GraphRef := ⟨[0, 1], [0]⟩

/-- C8 witness: on the concrete store, replaying `reconcileSurvey` leaves
the dereferenced input graph unchanged and returns the pure model's
result. -/
theorem reconcileSurveyST_no_mutation_witness :
    derefGraph (reconcileSurveyST axisHypot h0W gW ⟨[samp6]⟩ 5).1 gW =
      derefGraph h0W gW ∧
    (reconcileSurveyST axisHypot h0W gW ⟨[samp6]⟩ 5).2 =
      reconcileSurvey axisHypot (derefGraph h0W gW) ⟨[samp6]⟩ 5 := by
  have h := reconcileSurveyST_no_mutation axisHypot h0W gW ⟨[samp6]⟩ 5
    (by decide)
    (fun a ha q hq => by
      fin_cases ha
      have h1 : (h0W.edgeCells.getD 0 defaultEdgeObj).segments = some 0 := rfl
      rw [h1] at hq
      have h2 := Option.some.inj hq
      rw [← h2]
      decide)
  exact ⟨h.2.2.2.2.1, h.2.2.2.2.2⟩

end SwitchBoard